import Mathlib

/-!
# AliAnalysisTaskAO2Dconverter: event-to-table conversion

A shallow embedding of `RUN3/AliAnalysisTaskAO2Dconverter.cxx`: the packing of
the event identifier, the per-event fan-out of `UserExec` into the output
trees, the three running offsets, and the V0/cascade matching.

Conventions of the embedding.
* `Int_t` values are `Int`, `ULong64_t` values are `Nat` below `2^64`.
* Floating-point columns are copied verbatim by the source and carry no
  control flow; they are left out of the rows.
* Objects the framework hands to the task (event, header, candidates) are
  records of the getters the source calls on them.
-/

namespace AO2D

/-! ## Machine integers -/

/-- Conversion to `ULong64_t`: the value modulo `2^64`. -/
def toULong64 (x : Nat) : Nat := x % 2 ^ 64

/-- Left shift evaluated in `ULong64_t`. -/
def shlULong64 (x k : Nat) : Nat := (x <<< k) % 2 ^ 64

/-! ## Event identifier -/

/-- The getters of `AliVHeader` that `GetEventIdAsLong` reads
(`UShort_t` bunch crossing, `UInt_t` orbit and period). -/
structure AliVHeader where
  fBunchCrossNumber : Nat
  fOrbitNumber : Nat
  fPeriodNumber : Nat
deriving DecidableEq, Repr

/-- `GetEventIdAsLong`: bunch crossing in the lowest 12 bits, orbit shifted by
12, period shifted by 36, combined with bitwise or. No masking is applied. -/
def GetEventIdAsLong (header : AliVHeader) : Nat :=
  let lbc := toULong64 header.fBunchCrossNumber
  let lorb := shlULong64 (toULong64 header.fOrbitNumber) 12
  let lper := shlULong64 (toULong64 header.fPeriodNumber) 36
  let id := lbc ||| lorb ||| lper
  id


/-! ## `Int_t` arithmetic

Signed overflow has no defined result in C++; the embedding makes it an
explicit stop (`Abort.undefinedBehaviour`) instead of inventing a value. -/

/-- Whether a value is representable as `Int_t` (32-bit signed). -/
def inInt_t (x : Int) : Bool := decide (-2 ^ 31 ≤ x ∧ x < 2 ^ 31)

/-- `a + b` on `Int_t`; `none` when the sum is not representable. -/
def addInt_t (a b : Int) : Option Int :=
  if inInt_t (a + b) then some (a + b) else none

/-- The 32-bit two's-complement pattern of an `Int_t`. -/
def bitsInt_t (x : Int) : Nat := (x % 2 ^ 32).toNat

/-- `(p << 31) | n` as the source writes it for V0s and cascades: both operands
are `Int_t`, so the shift and the or are evaluated in 32 bits (the shifted-out
bits are lost: the value C++20 prescribes and GCC and Clang produce in every
language mode), and only the `Int_t` result is converted to `ULong64_t`, which
sign-extends it. -/
def packPosNeg (p n : Int) : Nat :=
  let r := ((bitsInt_t p <<< 31) % 2 ^ 32) ||| bitsInt_t n
  if r < 2 ^ 31 then r else r + (2 ^ 64 - 2 ^ 32)

/-- `SETBIT(n, i)`: `n |= BIT(i)`. -/
def SETBIT (n i : Nat) : Nat := n ||| (1 <<< i)

/-- `CLRBIT(n, i)`: `n &= ~BIT(i)`. -/
def CLRBIT (n i : Nat) : Nat := n ^^^ (n &&& (1 <<< i))

/-! ## ROOT's `TMath` helpers used by the task -/

namespace TMath

/-- `TMath::Abs(Int_t)`. -/
def Abs (d : Int) : Int := if d ≥ 0 then d else -d

/-- `TMath::Sign(a, b)`: `a` with the sign of `b`, where `b >= 0` counts as
positive: `(b >= 0) ? Abs(a) : -Abs(a)`. -/
def Sign (a b : Int) : Int := if b ≥ 0 then Abs a else -(Abs a)

/-- `std::lower_bound` on an ascending array: the first position whose element
is not below `value` (the array length when there is none). -/
def lower_bound (array : List Nat) (value : Nat) : Nat :=
  (array.takeWhile (fun x => decide (x < value))).length

/-- `TMath::BinarySearch(n, array, value)` with `n` the array length:
the position found by `lower_bound` when it holds `value`, otherwise that
position minus one (so `-1` when every element is above `value`). -/
def BinarySearch (array : List Nat) (value : Nat) : Int :=
  let pind := lower_bound array value
  if pind ≠ array.length ∧ array.getD pind 0 = value then (pind : Int)
  else (pind : Int) - 1

end TMath

/-- What `TMath::Sort(n, a, index, kFALSE)` promises about the index array it
fills: it is a rearrangement of `0 .. n-1` along which `a` is ascending. It is
`std::sort` underneath, so the order of equal elements is not fixed. -/
def SortSpec (TMathSort : List Nat → List Nat) : Prop :=
  ∀ a : List Nat, (TMathSort a).Perm (List.range a.length) ∧
    List.Pairwise (fun x y => x ≤ y) ((TMathSort a).map (fun i => a.getD i 0))

/-- An index sort that keeps equal keys in their original order (insertion
sort, which is what `std::sort` of libstdc++ runs on up to 16 elements). -/
def stableSort (a : List Nat) : List Nat :=
  (List.range a.length).insertionSort (fun i j => a.getD i 0 ≤ a.getD j 0)

/-- What is fixed when the task is built: the two preprocessor switches of the
header and the sort routine behind `TMath::Sort`. -/
structure Build where
  USE_TOF_CLUST : Bool
  USE_MC : Bool
  TMathSort : List Nat → List Nat

/-! ## Input objects -/

/-- The getters of `AliESDtrack` that decide how many rows a track yields. -/
structure AliESDtrack where
  fNTOFclusters : Nat
deriving DecidableEq, Repr

/-- One cell of `AliESDCaloCells`. -/
structure CaloCell where
  cellNumber : Int
  highGain : Bool
deriving DecidableEq, Repr

/-- `AliESDCaloCells`: the cells and the type tag common to all of them. -/
structure AliESDCaloCells where
  cells : List CaloCell
  fType : Int
deriving DecidableEq, Repr

/-- One entry of the `AliESDCaloTrigger` stream, with the fastOR index the
geometry maps its position to. -/
structure CaloTriggerEntry where
  fastorID : Int
  triggerBits : Int
  nL0Times : Int
  l1TimeSum : Int
deriving DecidableEq, Repr

/-- `AliESDMuonTrack`: the number of clusters attached to the track. -/
structure AliESDMuonTrack where
  fNClusters : Nat
deriving DecidableEq, Repr

/-- The hit flags of `AliESDZDC`. -/
structure AliESDZDC where
  IsZNAhit : Bool
  IsZNChit : Bool
  IsZPAhit : Bool
  IsZPChit : Bool
  IsZEM1hit : Bool
  IsZEM2hit : Bool
deriving DecidableEq, Repr

/-- `AliESDv0`: on-the-fly flag and the two daughter indices. -/
structure AliESDv0 where
  fOnFlyStatus : Bool
  fPindex : Int
  fNindex : Int
deriving DecidableEq, Repr

/-- `AliESDcascade`: an `AliESDv0` plus the bachelor index. -/
structure AliESDcascade where
  fOnFlyStatus : Bool
  fPindex : Int
  fNindex : Int
  fBindex : Int
deriving DecidableEq, Repr

/-- `AliESDEvent` as `UserExec` reads it. A null candidate pointer is `none`. -/
structure AliESDEvent where
  header : AliVHeader
  hasPrimaryVertex : Bool
  tracks : List AliESDtrack
  emcalCells : AliESDCaloCells
  caloTrigger : List CaloTriggerEntry
  phosCells : AliESDCaloCells
  muonTracks : List AliESDMuonTrack
  zdc : AliESDZDC
  v0s : List (Option AliESDv0)
  cascades : List (Option AliESDcascade)
deriving DecidableEq, Repr

/-- One Monte-Carlo particle: PDG code, mother and first daughter. -/
structure MCParticle where
  pdgCode : Int
  mother : Int
  daughterFirst : Int
deriving DecidableEq, Repr

/-- The generator header of an MC event: for each entry of `Generator[]`
whether the header inherits from it, and the number of sub-headers when it is
a cocktail header. -/
structure AliGenEventHeader where
  inheritsFrom : List Bool
  cocktailEntries : Nat
deriving DecidableEq, Repr

/-- `AliMCEvent` as `UserExec` reads it. -/
structure AliMCEvent where
  hasPrimaryVertex : Bool
  genEventHeader : AliGenEventHeader
  particles : List MCParticle
deriving DecidableEq, Repr

/-- What one call of `UserExec` receives from the framework: the input event
(`none` when the cast to `AliESDEvent` fails), the verdict of
`fEventCuts.AcceptEvent`, the call counter of the manager, the start-time mask
of each momentum bin of the TOF response, and the MC handler with its event. -/
structure Input where
  InputEvent : Option AliESDEvent
  AcceptEvent : Bool
  GetNcalls : Int
  startTimeMask : List Nat
  MCtruthEventHandler : Option (Option AliMCEvent)
deriving DecidableEq, Repr

/-! ## Output rows and the task -/

/-- The output trees, in the order of `TreeName`. -/
inductive TreeIndex
  | kEvents | kTracks | kCalo | kCaloTrigger | kMuon | kMuonCls
  | kZdc | kVzero | kV0s | kCascades | kTOF | kKinematics
deriving DecidableEq, Repr

/-- The task modes `UserCreateOutputObjects` and `UserExec` distinguish. -/
inductive TaskModes
  | kStandard | kMC
deriving DecidableEq, Repr

/-- One entry of an output tree: the integer columns the source fills. -/
inductive Row
  | events (fEventId : Nat) (fEventTimeMask : Nat) (fGeneratorID : Nat)
  | tracks (fCollisionID : Int)
  | calo (fCollisionID : Int) (fCellNumber : Int) (fType : Int) (fCellType : Int)
  | caloTrigger (fCollisionID : Int) (fFastorAbsID : Int) (fNL0Times : Int)
      (fTriggerBits : Int) (fType : Int)
  | muon (fCollisionID : Int)
  | muonCls (fMuTrackID : Int)
  | zdc (fCollisionID : Int) (fFired : Nat)
  | vzero (fCollisionID : Int)
  | v0s (fPosTrackID : Int) (fNegTrackID : Int)
  | cascades (fV0ID : Int) (fBachelorID : Int)
  | tof
  | kinematics (fPdgCode : Int) (fMother0 : Int) (fMother1 : Int)
      (fDaughter0 : Int) (fDaughter1 : Int)
deriving DecidableEq, Repr

/-- The tree a row is filled into. -/
def Row.tree : Row → TreeIndex
  | .events .. => .kEvents
  | .tracks .. => .kTracks
  | .calo .. => .kCalo
  | .caloTrigger .. => .kCaloTrigger
  | .muon .. => .kMuon
  | .muonCls .. => .kMuonCls
  | .zdc .. => .kZdc
  | .vzero .. => .kVzero
  | .v0s .. => .kV0s
  | .cascades .. => .kCascades
  | .tof => .kTOF
  | .kinematics .. => .kKinematics

/-- Why a call of `UserExec` does not return: one of the fatal messages of the
source, or an operation without defined behaviour. -/
inductive Abort
  | fatalEventHandler
  | fatalMCHandler
  | fatalMCEvent
  | fatalVertex
  | fatalIndexTooHigh
  | fatalMCVertex
  | undefinedBehaviour
deriving DecidableEq, Repr

/-- The data members of `AliAnalysisTaskAO2Dconverter` that `UserExec` reads
or writes. `filled` records every entry `FillTree` has appended, in call
order; the content of one tree is the sub-list of its rows (`fTree`). -/
structure Converter where
  fTaskMode : TaskModes
  fUseEventCuts : Bool
  fTreeStatus : TreeIndex → Bool
  fOffsetMuTrackID : Int
  fOffsetTrackID : Int
  fOffsetV0ID : Int
  fEventTimeMask : Nat
  fGeneratorID : Nat
  filled : List Row

/-- The entries of tree `t`, oldest first. -/
def Converter.fTree (c : Converter) (t : TreeIndex) : List Row :=
  c.filled.filter (fun r => decide (r.tree = t))

/-- `FillTree(t)` with the current content of the tree's buffers as `row`:
nothing happens for an inactive tree. -/
def FillTree (c : Converter) (row : Row) : Converter :=
  if !c.fTreeStatus row.tree then c
  else { c with filled := c.filled ++ [row] }

/-- `DisableTree(t)`. -/
def DisableTree (c : Converter) (t : TreeIndex) : Converter :=
  { c with fTreeStatus := fun k => if k = t then false else c.fTreeStatus k }

/-- `UserCreateOutputObjects`: kinematics is switched off in standard mode,
the three offsets are reset and the trees are created empty. -/
def UserCreateOutputObjects (c : Converter) : Converter :=
  let c := match c.fTaskMode with
    | .kStandard => DisableTree c .kKinematics
    | _ => c
  { c with fOffsetMuTrackID := 0, fOffsetTrackID := 0, fOffsetV0ID := 0, filled := [] }

/-- The rows a stretch of `UserExec` hands to `FillTree`, in call order, and
the abort that ended the stretch, if any. -/
structure Emit where
  rows : List Row
  abort : Option Abort
deriving DecidableEq, Repr

/-- Sequencing: the second stretch runs only when the first did not abort. -/
def Emit.seq (a b : Emit) : Emit :=
  match a.abort with
  | none => ⟨a.rows ++ b.rows, b.abort⟩
  | some _ => a

/-- The state after a call of `UserExec` and whether the call aborted. -/
structure Outcome where
  task : Converter
  abort : Option Abort

/-! ## The stretches of `UserExec` -/

/-- The MC event `UserExec` works with: required in MC mode (a missing handler
or event is fatal), absent otherwise. -/
def mcEvent (c : Converter) (inp : Input) : Except Abort (Option AliMCEvent) :=
  if c.fTaskMode = .kMC then
    match inp.MCtruthEventHandler with
    | none => .error .fatalMCHandler
    | some none => .error .fatalMCEvent
    | some (some MCEvt) => .ok (some MCEvt)
  else .ok none

/-- The loop over the momentum bins of the TOF response, from bin `i` on:
bin 10 is fatal; every earlier bin overwrites bits 0, 1 and 2 of
`vtx.fEventTimeMask` from its start-time mask. -/
def eventTimeLoop : Nat → List Nat → Nat → Nat × Option Abort
  | _, [], fEventTimeMask => (fEventTimeMask, none)
  | i, m :: rest, fEventTimeMask =>
    if i ≥ 10 then (fEventTimeMask, some .fatalIndexTooHigh)
    else
      let m0 := if m &&& 1 ≠ 0 then SETBIT fEventTimeMask 0 else CLRBIT fEventTimeMask 0
      let m1 := if m &&& 2 ≠ 0 then SETBIT m0 1 else CLRBIT m0 1
      let m2 := if m &&& 3 ≠ 0 then SETBIT m1 2 else CLRBIT m1 2
      eventTimeLoop (i + 1) rest m2

/-- Number of entries of `Generator[]`. -/
def kGenerators : Nat := 12

/-- Position of `AliGenCocktailEventHeader` in `Generator[]`. -/
def kAliGenCocktailEventHeader : Nat := 1

/-- The generator block (compiled under `USE_MC`, run when there is an MC
event): a missing MC vertex is fatal; each bit of `fGeneratorID` is set or
cleared from the top-level header. For a cocktail header the loop over the
sub-headers advances the list pointer instead of the counter, so with at least
one sub-header its second test reads through a pointer past the list. -/
def generatorBlock (fGeneratorID : Nat) (MCEvt : AliMCEvent) : Nat × Option Abort :=
  if !MCEvt.hasPrimaryVertex then (fGeneratorID, some .fatalMCVertex)
  else
    let mcGenH := MCEvt.genEventHeader
    let id := (List.range kGenerators).foldl
      (fun id gen => if mcGenH.inheritsFrom.getD gen false then SETBIT id gen
        else CLRBIT id gen) fGeneratorID
    if mcGenH.inheritsFrom.getD kAliGenCocktailEventHeader false then
      if 0 < mcGenH.cocktailEntries then
        let id := (List.range kGenerators).foldl
          (fun id gen => if mcGenH.inheritsFrom.getD gen false then SETBIT id gen
            else id) id
        (id, some .undefinedBehaviour)
      else (id, none)
    else (id, none)

/-- Track loop: one track row per track, preceded (under `USE_TOF_CLUST`) by
one TOF row per matchable TOF cluster of the track. -/
def trackRows (b : Build) (eventID : Int) (tracks : List AliESDtrack) : List Row :=
  (tracks.map (fun track =>
    (if b.USE_TOF_CLUST then List.replicate track.fNTOFclusters Row.tof else [])
      ++ [Row.tracks eventID])).flatten

/-- Calorimeter-cell loop over one `AliESDCaloCells` object. -/
def caloRows (eventID : Int) (cells : AliESDCaloCells) : List Row :=
  cells.cells.map (fun c =>
    Row.calo eventID c.cellNumber cells.fType (if c.highGain then 0 else 1))

/-- Calorimeter-trigger loop. `GetTriggerBits` writes `fTriggerBits`, and
`GetL1TimeSum` is then handed the same member, so the row carries the L1 time
sum in `fTriggerBits`. -/
def caloTriggerRows (eventID : Int) (entries : List CaloTriggerEntry) : List Row :=
  entries.map (fun e =>
    let fTriggerBits := e.triggerBits
    let fTriggerBits := (fun _ => e.l1TimeSum) fTriggerBits
    Row.caloTrigger eventID e.fastorID e.nL0Times fTriggerBits 1)

/-- Muon loop from track `imu` on: the muon row, then one cluster row per
cluster of that track, keyed by `fOffsetMuTrackID + imu`. -/
def muonRows (eventID fOffsetMuTrackID : Int) : Nat → List AliESDMuonTrack → Emit
  | _, [] => ⟨[], none⟩
  | imu, mutrk :: rest =>
    match addInt_t fOffsetMuTrackID imu with
    | none => ⟨[Row.muon eventID], some .undefinedBehaviour⟩
    | some muTrackID =>
      Emit.seq ⟨Row.muon eventID :: List.replicate mutrk.fNClusters (Row.muonCls muTrackID), none⟩
        (muonRows eventID fOffsetMuTrackID (imu + 1) rest)

/-- The ZDC flags: `fFired` is zeroed, and each `zdc.fFired | (...)` of the
source computes a value that is not stored. -/
def zdcFired (esdzdc : AliESDZDC) : Nat :=
  let fFired := 0
  let _ := if esdzdc.IsZNAhit then fFired ||| 1 else fFired
  let _ := if esdzdc.IsZNChit then fFired ||| (1 <<< 1) else fFired
  let _ := if esdzdc.IsZPAhit then fFired ||| (1 <<< 2) else fFired
  let _ := if esdzdc.IsZPChit then fFired ||| (1 <<< 3) else fFired
  let _ := if esdzdc.IsZEM1hit then fFired ||| (1 <<< 4) else fFired
  let _ := if esdzdc.IsZEM2hit then fFired ||| (1 <<< 5) else fFired
  fFired

/-- `TMath::Sign(TMath::Abs(idx) + fOffsetTrackID, idx)` on `Int_t`; `none`
when `Abs` or the sum is not representable. -/
def v0TrackID (fOffsetTrackID idx : Int) : Option Int :=
  if inInt_t (TMath.Abs idx) then
    match addInt_t (TMath.Abs idx) fOffsetTrackID with
    | some a => if inInt_t (TMath.Abs a) then some (TMath.Sign a idx) else none
    | none => none
  else none

/-- V0 loop: a row for every non-null candidate that is not on-the-fly. -/
def v0Rows (fOffsetTrackID : Int) : List (Option AliESDv0) → Emit
  | [] => ⟨[], none⟩
  | none :: rest => v0Rows fOffsetTrackID rest
  | some v0 :: rest =>
    if !v0.fOnFlyStatus then
      match v0TrackID fOffsetTrackID v0.fPindex, v0TrackID fOffsetTrackID v0.fNindex with
      | some fPosTrackID, some fNegTrackID =>
        Emit.seq ⟨[Row.v0s fPosTrackID fNegTrackID], none⟩ (v0Rows fOffsetTrackID rest)
      | _, _ => ⟨[], some .undefinedBehaviour⟩
    else v0Rows fOffsetTrackID rest

/-- The array `packedPosNeg`: the key of every V0 of the list, on-the-fly ones
included. The loop dereferences each candidate without a null test. -/
def packedPosNeg : List (Option AliESDv0) → Option (List Nat)
  | [] => some []
  | none :: _ => none
  | some v0 :: rest =>
    match packedPosNeg rest with
    | some keys => some (packPosNeg v0.fPindex v0.fNindex :: keys)
    | none => none

/-- The lookup of one cascade key: `TMath::BinarySearch` in the sorted keys,
the read of `sortedPosNeg[v0idx]` and the test for an exact match. The answer
is the original position `sortIdx[v0idx]` of the matched V0, `some none` when
the element read differs from the key, and `none` when `v0idx` is `-1`, where
the read falls before the array. -/
def lookupV0 (sortedPosNeg sortIdx : List Nat) (currV0 : Nat) : Option (Option Nat) :=
  let v0idx := TMath.BinarySearch sortedPosNeg currV0
  if v0idx < 0 then none
  else if sortedPosNeg.getD v0idx.toNat 0 = currV0 then some (some (sortIdx.getD v0idx.toNat 0))
  else some none

/-- Cascade loop over the sorted keys: an offline cascade whose key is matched
gets a row with `sortIdx[v0idx] + fOffsetV0ID` and `GetBindex() +
fOffsetTrackID`; an unmatched one gets none. -/
def cascadeRows (fOffsetV0ID fOffsetTrackID : Int) (sortedPosNeg sortIdx : List Nat) :
    List (Option AliESDcascade) → Emit
  | [] => ⟨[], none⟩
  | none :: rest => cascadeRows fOffsetV0ID fOffsetTrackID sortedPosNeg sortIdx rest
  | some cas :: rest =>
    if !cas.fOnFlyStatus then
      let currV0 := packPosNeg cas.fPindex cas.fNindex
      match lookupV0 sortedPosNeg sortIdx currV0 with
      | none => ⟨[], some .undefinedBehaviour⟩
      | some (some pos) =>
        match addInt_t pos fOffsetV0ID, addInt_t cas.fBindex fOffsetTrackID with
        | some fV0ID, some fBachelorID =>
          Emit.seq ⟨[Row.cascades fV0ID fBachelorID], none⟩
            (cascadeRows fOffsetV0ID fOffsetTrackID sortedPosNeg sortIdx rest)
        | _, _ => ⟨[], some .undefinedBehaviour⟩
      | some none => cascadeRows fOffsetV0ID fOffsetTrackID sortedPosNeg sortIdx rest
    else cascadeRows fOffsetV0ID fOffsetTrackID sortedPosNeg sortIdx rest

/-- The array `sortedPosNeg`: element `iv0` is `packedPosNeg[sortIdx[iv0]]`. -/
def sortedKeys (packed sortIdx : List Nat) : List Nat :=
  (List.range packed.length).map (fun iv0 => packed.getD (sortIdx.getD iv0 0) 0)

/-- The cascade block: skipped without V0s; otherwise the keys are packed,
sorted through `TMath::Sort`, and the cascades are looked up in them. -/
def cascadeBlock (b : Build) (fOffsetV0ID fOffsetTrackID : Int) (fESD : AliESDEvent) : Emit :=
  let nv0 := fESD.v0s.length
  if nv0 > 0 then
    match packedPosNeg fESD.v0s with
    | none => ⟨[], some .undefinedBehaviour⟩
    | some packed =>
      let sortIdx := b.TMathSort packed
      let sortedPosNeg := sortedKeys packed sortIdx
      cascadeRows fOffsetV0ID fOffsetTrackID sortedPosNeg sortIdx fESD.cascades
  else ⟨[], none⟩

/-- Kinematics loop (compiled under `USE_MC`, run when there is an MC event):
both mother slots get `GetMother()`, both daughter slots `GetDaughterFirst()`. -/
def kinematicsRows (MCEvt : AliMCEvent) : List Row :=
  MCEvt.particles.map (fun particle =>
    Row.kinematics particle.pdgCode particle.mother particle.mother
      particle.daughterFirst particle.daughterFirst)

/-- The kinematics loop as `UserExec` reaches it: compiled under `USE_MC` and
run when there is an MC event. -/
def kinematicsStage (b : Build) (MCEvt : Option AliMCEvent) : List Row :=
  match MCEvt with
  | some ev => if b.USE_MC then kinematicsRows ev else []
  | none => []

/-! ## `UserExec` -/

/-- Everything `UserExec` hands to `FillTree` for one accepted event, in call
order: the event row, tracks, EMCAL cells, calorimeter triggers, PHOS cells,
muon tracks with their clusters, ZDC, VZERO, V0s, cascades, kinematics. The
offsets are those of `c`, which no stretch changes. -/
def eventRows (b : Build) (c : Converter) (fESD : AliESDEvent) (eventID : Int)
    (MCEvt : Option AliMCEvent) : Emit :=
  (((((((((Emit.mk [Row.events (GetEventIdAsLong fESD.header) c.fEventTimeMask c.fGeneratorID] none
    |>.seq ⟨trackRows b eventID fESD.tracks, none⟩)
    |>.seq ⟨caloRows eventID fESD.emcalCells, none⟩)
    |>.seq ⟨caloTriggerRows eventID fESD.caloTrigger, none⟩)
    |>.seq ⟨caloRows eventID fESD.phosCells, none⟩)
    |>.seq (muonRows eventID c.fOffsetMuTrackID 0 fESD.muonTracks))
    |>.seq ⟨[Row.zdc eventID (zdcFired fESD.zdc)], none⟩)
    |>.seq ⟨[Row.vzero eventID], none⟩)
    |>.seq (v0Rows c.fOffsetTrackID fESD.v0s))
    |>.seq (cascadeBlock b c.fOffsetV0ID c.fOffsetTrackID fESD))
    |>.seq ⟨kinematicsStage b MCEvt, none⟩

/-- The update of the three offsets that ends `UserExec`, one `+=` after the
other. -/
def updateOffsets (c : Converter) (ntrk nmu nv0 : Nat) : Outcome :=
  match addInt_t c.fOffsetTrackID ntrk with
  | none => ⟨c, some .undefinedBehaviour⟩
  | some offTrack =>
    let c := { c with fOffsetTrackID := offTrack }
    match addInt_t c.fOffsetMuTrackID nmu with
    | none => ⟨c, some .undefinedBehaviour⟩
    | some offMu =>
      let c := { c with fOffsetMuTrackID := offMu }
      match addInt_t c.fOffsetV0ID nv0 with
      | none => ⟨c, some .undefinedBehaviour⟩
      | some offV0 => ⟨{ c with fOffsetV0ID := offV0 }, none⟩

/-- The generator block as `UserExec` reaches it: compiled under `USE_MC`
and run when there is an MC event. -/
def generatorStage (b : Build) (fGeneratorID : Nat) (MCEvt : Option AliMCEvent) :
    Nat × Option Abort :=
  match MCEvt with
  | some ev => if b.USE_MC then generatorBlock fGeneratorID ev else (fGeneratorID, none)
  | none => (fGeneratorID, none)

/-- `UserExec` from the acceptance filter up to the first `FillTree`: the MC
event, the vertex test, the momentum-bin loop and the generator block. An
abort comes with the state it leaves; otherwise the state carries the new
`fEventTimeMask` and `fGeneratorID`. -/
def prepareEvent (b : Build) (c : Converter) (inp : Input) (fESD : AliESDEvent) :
    Except Outcome (Converter × Option AliMCEvent) :=
  match mcEvent c inp with
  | .error a => .error ⟨c, some a⟩
  | .ok MCEvt =>
    if !fESD.hasPrimaryVertex then .error ⟨c, some .fatalVertex⟩
    else
      match eventTimeLoop 0 inp.startTimeMask c.fEventTimeMask with
      | (mask, some a) => .error ⟨{ c with fEventTimeMask := mask }, some a⟩
      | (mask, none) =>
        match generatorStage b c.fGeneratorID MCEvt with
        | (id, some a) =>
          .error ⟨{ c with fEventTimeMask := mask, fGeneratorID := id }, some a⟩
        | (id, none) => .ok ({ c with fEventTimeMask := mask, fGeneratorID := id }, MCEvt)

/-- `UserExec` from the first `FillTree` on: every row of `eventRows` goes
through `FillTree`, and when no stretch aborted the offsets are advanced. -/
def fillEvent (b : Build) (c : Converter) (fESD : AliESDEvent) (eventID : Int)
    (MCEvt : Option AliMCEvent) : Outcome :=
  let e := eventRows b c fESD eventID MCEvt
  let c1 := e.rows.foldl FillTree c
  match e.abort with
  | some a => ⟨c1, some a⟩
  | none => updateOffsets c1 fESD.tracks.length fESD.muonTracks.length fESD.v0s.length

/-- `UserExec` past the acceptance filter, for the event `fESD`. -/
def processEvent (b : Build) (c : Converter) (inp : Input) (fESD : AliESDEvent) : Outcome :=
  match prepareEvent b c inp fESD with
  | .error out => out
  | .ok (c1, MCEvt) => fillEvent b c1 fESD inp.GetNcalls MCEvt

/-- `UserExec`: a failed cast of the input event is fatal; with event cuts
enabled a rejected event returns at once; every other event is processed. -/
def UserExec (b : Build) (c : Converter) (inp : Input) : Outcome :=
  match inp.InputEvent with
  | none => ⟨c, some .fatalEventHandler⟩
  | some fESD =>
    if c.fUseEventCuts && !inp.AcceptEvent then ⟨c, none⟩
    else processEvent b c inp fESD

/-- The task run over a sequence of events: `UserExec` once per event, in
order, stopping at the first abort. -/
def runEvents (b : Build) : Converter → List Input → Outcome
  | c, [] => ⟨c, none⟩
  | c, inp :: rest =>
    match UserExec b c inp with
    | ⟨c1, none⟩ => runEvents b c1 rest
    | ⟨c1, some a⟩ => ⟨c1, some a⟩

/-- Whether `UserExec` takes its early return on this input: event cuts are
enabled and the filter rejects the event. -/
def rejected (c : Converter) (inp : Input) : Bool :=
  c.fUseEventCuts && !inp.AcceptEvent

/-- Same state up to the two members the preamble of `UserExec` rewrites. -/
def SameUpToMasks (c c1 : Converter) : Prop :=
  ∃ mask id, c1 = { c with fEventTimeMask := mask, fGeneratorID := id }

/-- The tracks an input contributes to `fOffsetTrackID`: `GetNumberOfTracks()`
of its event, unless event cuts are enabled and the filter rejects it. -/
def acceptedTracks (fUseEventCuts : Bool) (inp : Input) : Nat :=
  if fUseEventCuts && !inp.AcceptEvent then 0
  else match inp.InputEvent with
    | some fESD => fESD.tracks.length
    | none => 0

/-! ## Sample inputs -/

/-- A build without the optional blocks, with the order-keeping sort. -/
def sampleBuild : Build := ⟨false, false, stableSort⟩

/-- A task in standard mode, event cuts off, every tree active. -/
def sampleTask : Converter := ⟨.kStandard, false, fun _ => true, 0, 0, 0, 0, 0, []⟩

/-- An event with `ntrk` tracks, one muon track with two clusters, the given
V0 and cascade candidates and a primary vertex. -/
def sampleEvent (ntrk : Nat) (v0s : List (Option AliESDv0))
    (cascades : List (Option AliESDcascade)) : AliESDEvent :=
  { header := ⟨1, 2, 3⟩, hasPrimaryVertex := true,
    tracks := List.replicate ntrk ⟨0⟩,
    emcalCells := ⟨[], 0⟩, caloTrigger := [], phosCells := ⟨[], 0⟩,
    muonTracks := [⟨2⟩],
    zdc := ⟨false, false, false, false, false, false⟩,
    v0s := v0s, cascades := cascades }

/-- An accepted input carrying `sampleEvent`, with two momentum bins and no
MC handler. -/
def sampleInput (ntrk : Nat) (v0s : List (Option AliESDv0))
    (cascades : List (Option AliESDcascade)) : Input :=
  { InputEvent := some (sampleEvent ntrk v0s cascades),
    AcceptEvent := true, GetNcalls := 1, startTimeMask := [1, 2],
    MCtruthEventHandler := none }

/-- For every muon-cluster row of a fill sequence, its `fMuTrackID` paired
with the position in the muon tree of the muon row filled last before it
(the track whose loop body filled the cluster); `n` muon rows precede the
sequence. -/
def clusterOwners : Nat → List Row → List (Int × Int)
  | _, [] => []
  | n, .muon _ :: rest => clusterOwners (n + 1) rest
  | n, .muonCls fMuTrackID :: rest => (fMuTrackID, (n : Int) - 1) :: clusterOwners n rest
  | n, _ :: rest => clusterOwners n rest

/-- Rows of the muon tree or the muon-cluster tree. -/
def Row.isMuonish (r : Row) : Bool :=
  decide (r.tree = .kMuon) || decide (r.tree = .kMuonCls)

/-- The state a run can be in at the start and at the end of a `UserExec`
call, as far as tracks and muons go: `fOffsetTrackID` is the number of entries
of the track tree, `fOffsetMuTrackID` the number of entries of the muon tree,
and every muon-cluster entry carries the position of its muon track in the
muon tree. -/
def OffsetsCountRows (s : Converter) : Prop :=
  s.fOffsetTrackID = (s.fTree .kTracks).length ∧
  s.fOffsetMuTrackID = (s.fTree .kMuon).length ∧
  ∀ p ∈ clusterOwners 0 s.filled, p.1 = p.2

/-- The relation between an original daughter index `x`, the track offset `o`
and the identifier `id` written to a V0 row: `id` is `|x| + o` with the sign
of `x`, an index of zero counting as positive (as `TMath::Sign` has it). -/
def IsOffsetId (o x id : Int) : Prop :=
  (id < 0 ↔ x < 0) ∧ |id| = |x| + o ∧
  (x ≠ 0 → id = Int.sign x * (|x| + o)) ∧ (x = 0 → id = o) ∧
  x = (if id < 0 then id + o else id - o)

/-! ## Column pruning -/

namespace TString

/-- `TString::IsNull`: the string is empty. -/
def IsNull (s : String) : Bool := s.data.isEmpty

/-- `TString::IsWhitespace`: every character is a blank
(`Length() == CountChar(' ')`). -/
def IsWhitespace (s : String) : Bool := s.data.all (fun ch => ch == ' ')

/-- The scan behind `Tokenize(" ")`: `cur` is the token read so far; a blank
ends it, and empty tokens are dropped. -/
def tokenizeFrom (cur : List Char) : List Char → List String
  | [] => if cur.isEmpty then [] else [String.mk cur]
  | ch :: rest =>
    if ch == ' ' then
      if cur.isEmpty then tokenizeFrom [] rest
      else String.mk cur :: tokenizeFrom [] rest
    else tokenizeFrom (cur ++ [ch]) rest

/-- `TString::Tokenize(" ")`: the non-empty stretches between blanks. -/
def Tokenize (s : String) : List String := tokenizeFrom [] s.data

end TString

/-- A branch of an output tree: its name and whether it is still written. -/
structure TBranch where
  name : String
  status : Bool
deriving DecidableEq, Repr

/-- What `Prune` works on: the prune list and the array `fTree[kTrees]`, each
entry the branch list of a created tree or `none` for a tree that was never
created. -/
structure PruneState where
  fPruneList : String
  fTree : List (Option (List TBranch))
deriving DecidableEq, Repr

/-- Why `Prune` does not return: the fatal message for a name found in no
tree, or the use of a tree pointer that is null. -/
inductive PruneAbort
  | fatalDidNotFindBranch
  | undefinedBehaviour
deriving DecidableEq, Repr

/-- `SetBranchStatus(bname, 0)` on one tree, for the branches named `token`. -/
def disableBranch (token : String) (branches : List TBranch) : List TBranch :=
  branches.map (fun br => if br.name = token then { br with status := false } else br)

/-- The loop over the trees `j` for one token: every branch of that name is
switched off, and `found` records whether any tree had one. A null tree
pointer is dereferenced without a test. -/
def pruneToken (token : String) :
    List (Option (List TBranch)) → Option (List (Option (List TBranch)) × Bool)
  | [] => some ([], false)
  | none :: _ => none
  | some branches :: rest =>
    match pruneToken token rest with
    | none => none
    | some (rest1, found) =>
      some (some (disableBranch token branches) :: rest1,
        branches.any (fun br => decide (br.name = token)) || found)

/-- The loop over the tokens of the prune list: a token found in no tree is
fatal. -/
def pruneTokens : List String → List (Option (List TBranch)) →
    List (Option (List TBranch)) × Option PruneAbort
  | [], trees => (trees, none)
  | token :: rest, trees =>
    match pruneToken token trees with
    | none => (trees, some .undefinedBehaviour)
    | some (trees1, found) =>
      if !found then (trees1, some .fatalDidNotFindBranch)
      else pruneTokens rest trees1

/-- `Prune`: nothing happens for an empty or all-blank list; otherwise every
token is looked up in every tree, and the list is cleared at the end. -/
def Prune (s : PruneState) : PruneState × Option PruneAbort :=
  if TString.IsNull s.fPruneList || TString.IsWhitespace s.fPruneList then (s, none)
  else
    match pruneTokens (TString.Tokenize s.fPruneList) s.fTree with
    | (trees, some a) => ({ s with fTree := trees }, some a)
    | (trees, none) => ({ fPruneList := "", fTree := trees }, none)

/-- Whether some created tree has a branch of the given name. -/
def hasBranch (name : String) (trees : List (Option (List TBranch))) : Bool :=
  trees.any (fun tree => match tree with
    | some branches => branches.any (fun br => decide (br.name = name))
    | none => false)

/-! ## The covariance matrix of a muon track -/

/-- The index pairs `(i, j)` the covariance loop visits, in order:
`i` from 0 to 4, and for each `i`, `j` from 0 to `i`. -/
def covarianceLoop : List (Nat × Nat) :=
  ((List.range 5).map (fun i => (List.range (i + 1)).map (fun j => (i, j)))).flatten

/-- The position `i*(i+1)/2 + j` of `cov(i, j)` in `fCovariances`. -/
def covarianceIndex (i j : Nat) : Nat := i * (i + 1) / 2 + j

/-- The covariance loop: `muons.fCovariances[i*(i+1)/2 + j] = cov(i,j)` for
each pair of `covarianceLoop`, starting from whatever the array holds. -/
def packCovariances {α : Type} (cov : Nat → Nat → α) (fCovariances : List α) : List α :=
  covarianceLoop.foldl
    (fun arr ij => arr.set (covarianceIndex ij.1 ij.2) (cov ij.1 ij.2)) fCovariances

/-! ## The event time

The times and resolutions are `Float_t` in the source; here they are exact
rationals. -/

/-- The local arrays `eventTime`, `eventTimeRes` and `eventTimeWeight` of
`UserExec`, ten entries each. They are declared without an initialiser, so
before the loop they hold whatever the stack holds. -/
structure EventTimeArrays where
  eventTime : List ℚ
  eventTimeRes : List ℚ
  eventTimeWeight : List ℚ
deriving DecidableEq

/-- The writes of the momentum-bin loop, from bin `i` on: bin `i` with start
time `t` and resolution `r` sets entry `i` of the three arrays; the loop stops
at bin 10. -/
def fillEventTime : Nat → List (ℚ × ℚ) → EventTimeArrays → EventTimeArrays
  | _, [], a => a
  | i, (t, r) :: rest, a =>
    if i ≥ 10 then a
    else fillEventTime (i + 1) rest
      { eventTime := a.eventTime.set i t,
        eventTimeRes := a.eventTimeRes.set i r,
        eventTimeWeight := a.eventTimeWeight.set i (1 / (r * r)) }

/-- ROOT's weighted `TMath::Mean(n, a, w)`: `0` when a weight is negative or
the weights do not sum to a positive number, else the weighted sum over the
first `n` entries divided by the sum of the weights. -/
def TMath.Mean (n : Nat) (a w : List ℚ) : ℚ :=
  let pairs := (a.take n).zip (w.take n)
  if pairs.any (fun p => decide (p.2 < 0)) then 0
  else
    let sum := (pairs.map (fun p => p.2 * p.1)).sum
    let sumw := (pairs.map (fun p => p.2)).sum
    if sumw ≤ 0 then 0 else sum / sumw

/-- `vtx.fEventTime`: `TMath::Mean(10, eventTime, eventTimeWeight)` after the
momentum-bin loop, whatever the number of bins. -/
def fEventTime (stack : EventTimeArrays) (bins : List (ℚ × ℚ)) : ℚ :=
  let a := fillEventTime 0 bins stack
  TMath.Mean 10 a.eventTime a.eventTimeWeight

/-- The inverse-variance weighted mean of the supplied bins:
`(Σ t/r²) / (Σ 1/r²)`. -/
def weightedMean (bins : List (ℚ × ℚ)) : ℚ :=
  (bins.map (fun p => p.1 / (p.2 * p.2))).sum / (bins.map (fun p => 1 / (p.2 * p.2))).sum

/-! ## Properties of a fill sequence -/

/-- Whether the rows of tree `t` form one block of the fill sequence: once
the first stretch of rows of `t` has ended, no row of `t` follows. -/
def isContiguous (t : TreeIndex) (rows : List Row) : Bool :=
  ((rows.dropWhile (fun r => !decide (r.tree = t))).dropWhile
    (fun r => decide (r.tree = t))).all (fun r => !decide (r.tree = t))

/-- The V0 candidates that are not null and not on-the-fly, in list order. -/
def offlineV0s (v0s : List (Option AliESDv0)) : List AliESDv0 :=
  v0s.filterMap (fun v => match v with
    | some v0 => if v0.fOnFlyStatus then none else some v0
    | none => none)

/-- The V0 row of a candidate at track offset `o`, as the source computes it
when nothing overflows. -/
def v0Row (o : Int) (v0 : AliESDv0) : Row :=
  Row.v0s (TMath.Sign (TMath.Abs v0.fPindex + o) v0.fPindex)
    (TMath.Sign (TMath.Abs v0.fNindex + o) v0.fNindex)

/-! ## Further sample inputs -/

/-- A build with the MC blocks compiled in. -/
def sampleMCBuild : Build := ⟨false, true, stableSort⟩

/-- The input `sampleInput` with an MC event of the given particles. -/
def sampleMCInput (ntrk : Nat) (particles : List MCParticle) : Input :=
  { sampleInput ntrk [] [] with
    MCtruthEventHandler := some (some ⟨true, ⟨[true], 0⟩, particles⟩) }

/-- An accepted input whose event has one EMCAL cell, one calorimeter trigger
entry, one PHOS cell and two muon tracks with one cluster each. -/
def sampleCaloInput : Input :=
  { sampleInput 1 [] [] with
    InputEvent := some { sampleEvent 1 [] [] with
      emcalCells := ⟨[⟨7, true⟩], 1⟩, caloTrigger := [⟨5, 0, 0, 0⟩],
      phosCells := ⟨[⟨9, true⟩], 0⟩, muonTracks := [⟨1⟩, ⟨1⟩] } }

/-! ## Calorimeter-trigger members and a cocktail sample -/

/-- The two members of `calotrigger` that hold the trigger bits and the L1 time
sum of a calorimeter-trigger row. `fL1TimeSum` is a `Float_t` column, an exact
rational here. -/
structure CaloTriggerMembers where
  fTriggerBits : Int
  fL1TimeSum : ℚ
deriving DecidableEq

/-- What the body of the calorimeter-trigger loop does to these members for
one record: `GetTriggerBits` writes `fTriggerBits`, then `GetL1TimeSum` is
handed the same member and writes it again; nothing is assigned to
`fL1TimeSum`. -/
def caloTriggerMembers (calotrigger : CaloTriggerMembers) (e : CaloTriggerEntry) :
    CaloTriggerMembers :=
  let calotrigger := { calotrigger with fTriggerBits := e.triggerBits }
  let calotrigger := { calotrigger with fTriggerBits := e.l1TimeSum }
  calotrigger

/-- The input `sampleInput` with an MC event whose generator header is a
cocktail header (kinds `AliGenEventHeader` and `AliGenCocktailEventHeader`)
with one sub-header. -/
def sampleCocktailInput : Input :=
  { sampleInput 1 [] [] with
    MCtruthEventHandler := some (some ⟨true, ⟨[true, true], 1⟩, []⟩) }

/-! ## `std::sort` as libstdc++ has it

`TMath::Sort(n, a, index, kFALSE)` fills `index` with `0 .. n-1` and runs
`std::sort(index, index + n, CompareAsc(a))`. This is the `std::sort` of
libstdc++ (`bits/stl_algo.h`, `bits/stl_heap.h`): introsort with a
median-of-three pivot down to ranges of 16 elements, heap sort when the depth
limit is used up, and a final insertion sort. Iterators are positions in the
index array, as natural numbers; the loops that the library writes as `while`
carry a bound that they never reach. -/

namespace libstdcxx

/-- `CompareAsc`: `a[i1] < a[i2]`. -/
def CompareAsc (a : List Nat) (i1 i2 : Nat) : Bool := decide (a.getD i1 0 < a.getD i2 0)

/-- `std::iter_swap(p, q)`. -/
def iter_swap (index : List Nat) (p q : Nat) : List Nat :=
  (index.set p (index.getD q 0)).set q (index.getD p 0)

/-- `std::__lg(n)`: the position of the highest set bit. -/
def lg : Nat → Nat → Nat
  | 0, _ => 0
  | fuel + 1, n => if n < 2 then 0 else 1 + lg fuel (n / 2)

/-- `__move_median_to_first(result, a, b, c, comp)`. -/
def move_median_to_first (a index : List Nat) (result pa pb pc : Nat) : List Nat :=
  let comp := fun p q => CompareAsc a (index.getD p 0) (index.getD q 0)
  if comp pa pb then
    if comp pb pc then iter_swap index result pb
    else if comp pa pc then iter_swap index result pc
    else iter_swap index result pa
  else if comp pa pc then iter_swap index result pa
  else if comp pb pc then iter_swap index result pc
  else iter_swap index result pb

/-- `while (comp(first, pivot)) ++first;` of `__unguarded_partition`. -/
def partitionUp (a index : List Nat) (pivot : Nat) : Nat → Nat → Nat
  | 0, first => first
  | fuel + 1, first =>
    if CompareAsc a (index.getD first 0) (index.getD pivot 0) then
      partitionUp a index pivot fuel (first + 1)
    else first

/-- `while (comp(pivot, last)) --last;` of `__unguarded_partition`. -/
def partitionDown (a index : List Nat) (pivot : Nat) : Nat → Nat → Nat
  | 0, last => last
  | fuel + 1, last =>
    if CompareAsc a (index.getD pivot 0) (index.getD last 0) then
      partitionDown a index pivot fuel (last - 1)
    else last

/-- `__unguarded_partition(first, last, pivot, comp)`: the array after the
swaps and the cut position. -/
def unguarded_partition (a : List Nat) (pivot : Nat) :
    Nat → List Nat → Nat → Nat → List Nat × Nat
  | 0, index, first, _ => (index, first)
  | fuel + 1, index, first, last =>
    let first := partitionUp a index pivot index.length first
    let last := last - 1
    let last := partitionDown a index pivot index.length last
    if !decide (first < last) then (index, first)
    else unguarded_partition a pivot fuel (iter_swap index first last) (first + 1) last

/-- `__unguarded_partition_pivot(first, last, comp)`. -/
def unguarded_partition_pivot (a index : List Nat) (first last : Nat) : List Nat × Nat :=
  let mid := first + (last - first) / 2
  let index := move_median_to_first a index first (first + 1) mid (last - 1)
  unguarded_partition a first index.length index (first + 1) last

/-- The loop of `__unguarded_linear_insert(last, comp)` for the value `val`
taken from position `last`. -/
def unguarded_linear_insert_loop (a : List Nat) (val : Nat) :
    Nat → List Nat → Nat → List Nat
  | 0, index, last => index.set last val
  | fuel + 1, index, last =>
    let next := last - 1
    if CompareAsc a val (index.getD next 0) then
      unguarded_linear_insert_loop a val fuel (index.set last (index.getD next 0)) next
    else index.set last val

/-- `__unguarded_linear_insert(last, comp)`. -/
def unguarded_linear_insert (a index : List Nat) (last : Nat) : List Nat :=
  unguarded_linear_insert_loop a (index.getD last 0) index.length index last

/-- The body of the loop of `__insertion_sort(first, last, comp)` at `i`:
an element below `*first` is moved to the front with the range `[first, i)`
shifted up by one; any other is inserted by `__unguarded_linear_insert`. -/
def insertion_sort_step (a : List Nat) (first : Nat) (index : List Nat) (i : Nat) :
    List Nat :=
  if CompareAsc a (index.getD i 0) (index.getD first 0) then
    let val := index.getD i 0
    index.take first ++ val :: (index.drop first).take (i - first) ++ index.drop (i + 1)
  else unguarded_linear_insert a index i

/-- `__insertion_sort(first, last, comp)`. -/
def insertion_sort (a index : List Nat) (first last : Nat) : List Nat :=
  if first = last then index
  else (List.range' (first + 1) (last - (first + 1))).foldl (insertion_sort_step a first) index

/-- `__unguarded_insertion_sort(first, last, comp)`. -/
def unguarded_insertion_sort (a index : List Nat) (first last : Nat) : List Nat :=
  (List.range' first (last - first)).foldl (unguarded_linear_insert a) index

/-- `_S_threshold`. -/
def S_threshold : Nat := 16

/-- `__final_insertion_sort(first, last, comp)`. -/
def final_insertion_sort (a index : List Nat) (first last : Nat) : List Nat :=
  if last - first > S_threshold then
    let index := insertion_sort a index first (first + S_threshold)
    unguarded_insertion_sort a index (first + S_threshold) last
  else insertion_sort a index first last

/-- `__push_heap(first, holeIndex, topIndex, value, comp)`. -/
def push_heap (a : List Nat) (first topIndex value : Nat) : Nat → List Nat → Nat → List Nat
  | 0, index, holeIndex => index.set (first + holeIndex) value
  | fuel + 1, index, holeIndex =>
    let parent := (holeIndex - 1) / 2
    if holeIndex > topIndex ∧ CompareAsc a (index.getD (first + parent) 0) value then
      push_heap a first topIndex value fuel
        (index.set (first + holeIndex) (index.getD (first + parent) 0)) parent
    else index.set (first + holeIndex) value

/-- The `while` loop of `__adjust_heap`: the array, `holeIndex` and
`secondChild` when it ends. -/
def adjust_heap_loop (a : List Nat) (first len : Nat) :
    Nat → List Nat → Nat → Nat → List Nat × Nat × Nat
  | 0, index, holeIndex, secondChild => (index, holeIndex, secondChild)
  | fuel + 1, index, holeIndex, secondChild =>
    if secondChild < (len - 1) / 2 then
      let secondChild := 2 * (secondChild + 1)
      let secondChild :=
        if CompareAsc a (index.getD (first + secondChild) 0)
            (index.getD (first + (secondChild - 1)) 0) then secondChild - 1
        else secondChild
      let index := index.set (first + holeIndex) (index.getD (first + secondChild) 0)
      adjust_heap_loop a first len fuel index secondChild secondChild
    else (index, holeIndex, secondChild)

/-- `__adjust_heap(first, holeIndex, len, value, comp)`. -/
def adjust_heap (a index : List Nat) (first holeIndex len value : Nat) : List Nat :=
  let topIndex := holeIndex
  let r := adjust_heap_loop a first len len index holeIndex holeIndex
  let index := r.1
  let holeIndex := r.2.1
  let secondChild := r.2.2
  if len % 2 = 0 ∧ secondChild = (len - 2) / 2 then
    let secondChild := 2 * (secondChild + 1)
    let index := index.set (first + holeIndex) (index.getD (first + (secondChild - 1)) 0)
    push_heap a first topIndex value len index (secondChild - 1)
  else push_heap a first topIndex value len index holeIndex

/-- `__pop_heap(first, last, result, comp)`. -/
def pop_heap (a index : List Nat) (first last result : Nat) : List Nat :=
  let value := index.getD result 0
  let index := index.set result (index.getD first 0)
  adjust_heap a index first 0 (last - first) value

/-- `__make_heap(first, last, comp)`: `__adjust_heap` for the parents
`(len - 2) / 2` down to `0`. -/
def make_heap (a index : List Nat) (first last : Nat) : List Nat :=
  if last - first < 2 then index
  else
    let len := last - first
    ((List.range ((len - 2) / 2 + 1)).reverse).foldl
      (fun index parent => adjust_heap a index first parent len
        (index.getD (first + parent) 0)) index

/-- `__heap_select(first, middle, last, comp)`. -/
def heap_select (a index : List Nat) (first middle last : Nat) : List Nat :=
  (List.range' middle (last - middle)).foldl
    (fun index i =>
      if CompareAsc a (index.getD i 0) (index.getD first 0) then
        pop_heap a index first middle i
      else index)
    (make_heap a index first middle)

/-- `__sort_heap(first, last, comp)`: `__pop_heap(first, last, last)` for
`last` going down while more than one element is left. -/
def sort_heap (a index : List Nat) (first last : Nat) : List Nat :=
  ((List.range' (first + 1) (last - (first + 1))).reverse).foldl
    (fun index last => pop_heap a index first last last) index

/-- `__partial_sort(first, middle, last, comp)`. -/
def partial_sort (a index : List Nat) (first middle last : Nat) : List Nat :=
  sort_heap a (heap_select a index first middle last) first middle

/-- `__introsort_loop(first, last, depth_limit, comp)`: the recursive call
takes the upper part, the loop goes on with the lower part. -/
def introsort_loop (a : List Nat) : Nat → List Nat → Nat → Nat → List Nat
  | 0, index, first, last =>
    if last - first > S_threshold then partial_sort a index first last last else index
  | depth_limit + 1, index, first, last =>
    if last - first > S_threshold then
      let r := unguarded_partition_pivot a index first last
      let index := introsort_loop a depth_limit r.1 r.2 last
      introsort_loop a depth_limit index first r.2
    else index

/-- `std::sort(index, index + n, CompareAsc(a))`. -/
def sort (a index : List Nat) : List Nat :=
  let first := 0
  let last := index.length
  if first ≠ last then
    let index := introsort_loop a (lg (last - first) (last - first) * 2) index first last
    final_insertion_sort a index first last
  else index

end libstdcxx

/-- `TMath::Sort(n, a, index, kFALSE)` on libstdc++: the index array `0 .. n-1`
sorted by `std::sort` with `CompareAsc(a)`. -/
def TMathSort_libstdcxx (a : List Nat) : List Nat :=
  libstdcxx.sort a (List.range a.length)

/-- A build without the optional blocks, with the sort of libstdc++. -/
def libstdcxxBuild : Build := ⟨false, false, TMathSort_libstdcxx⟩

/-- 40 offline V0s whose daughter pairs `(2k+1, 9)` all differ and all have
the packed key of `(1, 9)`. -/
def sampleTiedV0s : List (Option AliESDv0) :=
  (List.range 40).map (fun k => some ⟨false, 2 * (k : Int) + 1, 9⟩)

/-! ## The trees `Prune` walks over -/

/-- The names of the branches `UserCreateOutputObjects` gives an active tree,
in the order of the `Branch` calls. The MC branches of the events tree are
compiled under `USE_MC` and added in MC mode; those of the track tree are
compiled under `USE_MC`. -/
def branchNames (b : Build) (fTaskMode : TaskModes) : TreeIndex → List String
  | .kEvents =>
    ["fEventId", "fX", "fY", "fZ", "fEventTime", "fEventTimeRes", "fEventTimeMask"]
      ++ (if b.USE_MC && decide (fTaskMode = .kMC) then
        ["fGeneratorID", "fMCVtxX", "fMCVtxY", "fMCVtxZ"] else [])
  | .kTracks =>
    ["fCollisionID", "fX", "fAlpha", "fY", "fZ", "fSnp", "fTgl", "fSigned1Pt", "fCYY",
     "fCZY", "fCZZ", "fCSnpY", "fCSnpZ", "fCSnpSnp", "fCTglY", "fCTglZ", "fCTglSnp",
     "fCTglTgl", "fC1PtY", "fC1PtZ", "fC1PtSnp", "fC1PtTgl", "fC1Pt21Pt2", "fTPCinnerP",
     "fFlags", "fITSClusterMap", "fTPCncls", "fTRDntracklets", "fITSchi2Ncl",
     "fTPCchi2Ncl", "fTRDchi2", "fTOFchi2", "fTPCsignal", "fTRDsignal", "fTOFsignal",
     "fLength"]
      ++ (if b.USE_MC then ["fLabel", "fTOFLabel"] else [])
  | .kCalo => ["fCollisionID", "fCellNumber", "fAmplitude", "fTime", "fCellType", "fType"]
  | .kCaloTrigger =>
    ["fCollisionID", "fFastOrAbsID", "fL0Amplitude", "fL1TimeSum", "fNL0Times",
     "fTriggerBits", "fType"]
  | .kMuon =>
    ["fCollisionID", "fInverseBendingMomentum", "fThetaX", "fThetaY", "fZ", "fBendingCoor",
     "fNonBendingCoor", "fCovariances", "fChi2", "fChi2MatchTrigger"]
  | .kMuonCls => ["fMuTrackID", "fX", "fY", "fZ", "fErrX", "fErrY", "fCharge", "fChi2"]
  | .kZdc =>
    ["fCollisionID", "fZEM1Energy", "fZEM2Energy", "fZNCTowerEnergy", "fZNATowerEnergy",
     "fZPCTowerEnergy", "fZPATowerEnergy", "fZNCTowerEnergyLR", "fZNATowerEnergyLR",
     "fZPCTowerEnergyLR", "fZPATowerEnergyLR", "fZDCTDCCorrected", "fFired"]
  | .kVzero => ["fCollisionID", "fAdc", "fTime", "fWidth"]
  | .kV0s => ["fPosTrackID", "fNegTrackID"]
  | .kCascades => ["fV0ID", "fBachelorID"]
  | .kTOF => ["fTOFChannel", "fTOFncls", "fDx", "fDz", "fToT"]
  | .kKinematics =>
    ["fPdgCode", "fMother", "fDaughter", "fPx", "fPy", "fPz", "fVx", "fVy", "fVz", "fVt"]

/-- The array `fTree[kTrees]` after the `CreateTree` calls of
`UserCreateOutputObjects`, slots in the order of `TreeIndex`, tree `t` with the
branches `branches t`. `CreateTree(kTOF)` is compiled only under
`USE_TOF_CLUST` and `CreateTree(kKinematics)` only under `USE_MC`; without the
macro the slot is never assigned. -/
def createdTrees (b : Build) (branches : TreeIndex → List TBranch) :
    List (Option (List TBranch)) :=
  [some (branches .kEvents), some (branches .kTracks), some (branches .kCalo),
   some (branches .kCaloTrigger), some (branches .kMuon), some (branches .kMuonCls),
   some (branches .kZdc), some (branches .kVzero), some (branches .kV0s),
   some (branches .kCascades),
   if b.USE_TOF_CLUST then some (branches .kTOF) else none,
   if b.USE_MC then some (branches .kKinematics) else none]

/-- The array `fTree` when `UserCreateOutputObjects`, entered with the task
`c`, reaches its call of `Prune`: a tree gets its branches when its
`fTreeStatus` is true, and none otherwise. For the kinematics tree the source
tests `fTreeStatus[kMC]`, with `kMC` the task mode; its value as an index is
fixed in the header, so the flag read there is the parameter `statusAtkMC`. -/
def fTreeBeforePrune (b : Build) (c : Converter) (statusAtkMC : Bool) :
    List (Option (List TBranch)) :=
  createdTrees b (fun t =>
    if (if t = .kKinematics then statusAtkMC else (UserCreateOutputObjects c).fTreeStatus t)
    then (branchNames b c.fTaskMode t).map (fun name => ⟨name, true⟩)
    else [])

/-- A build with both optional blocks compiled in. -/
def fullBuild : Build := ⟨true, true, stableSort⟩

/-! ## Theorems -/

/-- Inside the documented field widths the identifier is the plain sum of the
three shifted fields. -/
theorem GetEventIdAsLong_eq_sum (bc orbit period : Nat)
    (hbc : bc < 2 ^ 12) (horb : orbit < 2 ^ 24) (hper : period < 2 ^ 28) :
    GetEventIdAsLong ⟨bc, orbit, period⟩ = bc + orbit * 2 ^ 12 + period * 2 ^ 36 := by
  have h1 : toULong64 bc = bc := Nat.mod_eq_of_lt (by omega)
  have h2 : shlULong64 (toULong64 orbit) 12 = 2 ^ 12 * orbit := by
    unfold shlULong64 toULong64
    rw [Nat.mod_eq_of_lt (by omega : orbit < 2 ^ 64), Nat.shiftLeft_eq,
      Nat.mod_eq_of_lt (by omega), Nat.mul_comm]
  have h3 : shlULong64 (toULong64 period) 36 = 2 ^ 36 * period := by
    unfold shlULong64 toULong64
    rw [Nat.mod_eq_of_lt (by omega : period < 2 ^ 64), Nat.shiftLeft_eq,
      Nat.mod_eq_of_lt (by omega), Nat.mul_comm]
  have h4 : bc ||| 2 ^ 12 * orbit = 2 ^ 12 * orbit + bc := by
    rw [Nat.or_comm]; exact (Nat.mul_add_lt_is_or hbc orbit).symm
  have h5 : (2 ^ 12 * orbit + bc) ||| 2 ^ 36 * period
      = 2 ^ 36 * period + (2 ^ 12 * orbit + bc) := by
    rw [Nat.or_comm]
    exact (Nat.mul_add_lt_is_or (by omega : 2 ^ 12 * orbit + bc < 2 ^ 36) period).symm
  simp only [GetEventIdAsLong, h1, h2, h3, h4, h5]
  omega

/-! ### The tree of each kind of row -/

@[simp] theorem Row.tree_events (fEventId fEventTimeMask fGeneratorID : Nat) :
     (Row.events fEventId fEventTimeMask fGeneratorID).tree = .kEvents := rfl

@[simp] theorem Row.tree_tracks (fCollisionID : Int) :
     (Row.tracks fCollisionID).tree = .kTracks := rfl

@[simp] theorem Row.tree_calo (a b c d : Int) : (Row.calo a b c d).tree = .kCalo := rfl

@[simp] theorem Row.tree_caloTrigger (a b c d e : Int) :
     (Row.caloTrigger a b c d e).tree = .kCaloTrigger := rfl

@[simp] theorem Row.tree_muon (a : Int) : (Row.muon a).tree = .kMuon := rfl

@[simp] theorem Row.tree_muonCls (a : Int) : (Row.muonCls a).tree = .kMuonCls := rfl

@[simp] theorem Row.tree_zdc (a : Int) (f : Nat) : (Row.zdc a f).tree = .kZdc := rfl

@[simp] theorem Row.tree_vzero (a : Int) : (Row.vzero a).tree = .kVzero := rfl

@[simp] theorem Row.tree_v0s (a b : Int) : (Row.v0s a b).tree = .kV0s := rfl

@[simp] theorem Row.tree_cascades (a b : Int) : (Row.cascades a b).tree = .kCascades := rfl

@[simp] theorem Row.tree_tof : Row.tof.tree = .kTOF := rfl

@[simp] theorem Row.tree_kinematics (a b c d e : Int) :
     (Row.kinematics a b c d e).tree = .kKinematics := rfl

/-! ### Bookkeeping lemmas for `UserExec` -/

theorem foldl_FillTree (rows : List Row) (c : Converter) :
    rows.foldl FillTree c
      = { c with filled := c.filled ++ rows.filter (fun r => c.fTreeStatus r.tree) } := by
  induction rows generalizing c with
  | nil => simp
  | cons r rest ih =>
    rw [List.foldl_cons, ih]
    by_cases h : c.fTreeStatus r.tree = true
    · simp [FillTree, h]
    · simp [FillTree, h]

theorem addInt_t_eq_some {a b r : Int} (h : addInt_t a b = some r) :
    r = a + b ∧ -2 ^ 31 ≤ a + b ∧ a + b < 2 ^ 31 := by
  unfold addInt_t inInt_t at h
  split at h
  · rename_i hr
    simp only [decide_eq_true_eq] at hr
    simp only [Option.some.injEq] at h
    exact ⟨h.symm, hr.1, hr.2⟩
  · simp at h

theorem updateOffsets_ok {c : Converter} {ntrk nmu nv0 : Nat}
    (h : (updateOffsets c ntrk nmu nv0).abort = none) :
    (updateOffsets c ntrk nmu nv0).task =
      { c with fOffsetTrackID := c.fOffsetTrackID + ntrk,
               fOffsetMuTrackID := c.fOffsetMuTrackID + nmu,
               fOffsetV0ID := c.fOffsetV0ID + nv0 } := by
  unfold updateOffsets at h ⊢
  cases ht : addInt_t c.fOffsetTrackID ntrk with
  | none => simp [ht] at h
  | some t =>
    simp only [ht] at h ⊢
    cases hm : addInt_t c.fOffsetMuTrackID nmu with
    | none => simp [hm] at h
    | some m =>
      simp only [hm] at h ⊢
      cases hv : addInt_t c.fOffsetV0ID nv0 with
      | none => simp [hv] at h
      | some v =>
        simp only [hv]
        rw [(addInt_t_eq_some ht).1, (addInt_t_eq_some hm).1, (addInt_t_eq_some hv).1]

theorem prepareEvent_error {b : Build} {c : Converter} {inp : Input} {fESD : AliESDEvent}
    {out : Outcome} (h : prepareEvent b c inp fESD = .error out) :
    SameUpToMasks c out.task ∧ out.abort ≠ none := by
  unfold prepareEvent at h
  cases h1 : mcEvent c inp with
  | error a =>
    simp only [h1, Except.error.injEq] at h
    subst h
    exact ⟨⟨_, _, rfl⟩, by simp⟩
  | ok MCEvt =>
    simp only [h1] at h
    by_cases hv : fESD.hasPrimaryVertex = true
    · simp only [hv, Bool.not_true, Bool.false_eq_true, if_false] at h
      rcases h2 : eventTimeLoop 0 inp.startTimeMask c.fEventTimeMask with ⟨mask, _ | a⟩
      · simp only [h2] at h
        rcases h3 : generatorStage b c.fGeneratorID MCEvt with ⟨id, _ | a⟩
        · simp [h3] at h
        · simp only [h3, Except.error.injEq] at h
          subst h
          exact ⟨⟨_, _, rfl⟩, by simp⟩
      · simp only [h2, Except.error.injEq] at h
        subst h
        exact ⟨⟨_, _, rfl⟩, by simp⟩
    · simp only [hv, Bool.not_false, if_true, Except.error.injEq] at h
      subst h
      exact ⟨⟨_, _, rfl⟩, by simp⟩

theorem prepareEvent_ok {b : Build} {c c1 : Converter} {inp : Input} {fESD : AliESDEvent}
    {MCEvt : Option AliMCEvent} (h : prepareEvent b c inp fESD = .ok (c1, MCEvt)) :
    SameUpToMasks c c1 := by
  unfold prepareEvent at h
  cases h1 : mcEvent c inp with
  | error a => simp [h1] at h
  | ok MCEvt =>
    simp only [h1] at h
    by_cases hv : fESD.hasPrimaryVertex = true
    · simp only [hv, Bool.not_true, Bool.false_eq_true, if_false] at h
      rcases h2 : eventTimeLoop 0 inp.startTimeMask c.fEventTimeMask with ⟨mask, _ | a⟩
      · simp only [h2] at h
        rcases h3 : generatorStage b c.fGeneratorID MCEvt with ⟨id, _ | a⟩
        · simp only [h3, Except.ok.injEq, Prod.mk.injEq] at h
          exact ⟨_, _, h.1.symm⟩
        · simp [h3] at h
      · simp [h2] at h
    · simp [hv] at h

theorem updateOffsets_frame (c : Converter) (ntrk nmu nv0 : Nat) :
    (updateOffsets c ntrk nmu nv0).task.filled = c.filled ∧
    (updateOffsets c ntrk nmu nv0).task.fTreeStatus = c.fTreeStatus ∧
    (updateOffsets c ntrk nmu nv0).task.fUseEventCuts = c.fUseEventCuts ∧
    (updateOffsets c ntrk nmu nv0).task.fTaskMode = c.fTaskMode := by
  unfold updateOffsets
  cases addInt_t c.fOffsetTrackID ntrk with
  | none => simp
  | some t =>
    simp only
    cases addInt_t c.fOffsetMuTrackID nmu with
    | none => simp
    | some m =>
      simp only
      cases addInt_t c.fOffsetV0ID nv0 with
      | none => simp
      | some v => simp

/-- The rows `fillEvent` appends, abort or not: the active ones among the rows
of `eventRows`. -/
theorem fillEvent_filled (b : Build) (c : Converter) (fESD : AliESDEvent) (eventID : Int)
    (MCEvt : Option AliMCEvent) :
    (fillEvent b c fESD eventID MCEvt).task.filled = c.filled ++
      (eventRows b c fESD eventID MCEvt).rows.filter (fun r => c.fTreeStatus r.tree) := by
  unfold fillEvent
  simp only
  cases (eventRows b c fESD eventID MCEvt).abort with
  | some a => simp [foldl_FillTree]
  | none => simp [(updateOffsets_frame _ _ _ _).1, foldl_FillTree]

theorem fillEvent_frame (b : Build) (c : Converter) (fESD : AliESDEvent) (eventID : Int)
    (MCEvt : Option AliMCEvent) :
    (fillEvent b c fESD eventID MCEvt).task.fTreeStatus = c.fTreeStatus ∧
    (fillEvent b c fESD eventID MCEvt).task.fUseEventCuts = c.fUseEventCuts ∧
    (fillEvent b c fESD eventID MCEvt).task.fTaskMode = c.fTaskMode := by
  unfold fillEvent
  simp only
  cases (eventRows b c fESD eventID MCEvt).abort with
  | some a => simp [foldl_FillTree]
  | none =>
    simp [(updateOffsets_frame _ _ _ _).2.1, (updateOffsets_frame _ _ _ _).2.2.1,
      (updateOffsets_frame _ _ _ _).2.2.2, foldl_FillTree]

/-- A call of `fillEvent` that returns: no stretch aborted, and the three
offsets advanced by the numbers of tracks, muon tracks and V0s of the event. -/
theorem fillEvent_ok {b : Build} {c : Converter} {fESD : AliESDEvent} {eventID : Int}
    {MCEvt : Option AliMCEvent} (h : (fillEvent b c fESD eventID MCEvt).abort = none) :
    (eventRows b c fESD eventID MCEvt).abort = none ∧
    (fillEvent b c fESD eventID MCEvt).task.fOffsetTrackID
      = c.fOffsetTrackID + fESD.tracks.length ∧
    (fillEvent b c fESD eventID MCEvt).task.fOffsetMuTrackID
      = c.fOffsetMuTrackID + fESD.muonTracks.length ∧
    (fillEvent b c fESD eventID MCEvt).task.fOffsetV0ID
      = c.fOffsetV0ID + fESD.v0s.length := by
  unfold fillEvent at h ⊢
  simp only at h ⊢
  cases he : (eventRows b c fESD eventID MCEvt).abort with
  | some a => simp [he] at h
  | none =>
    simp only [he] at h ⊢
    rw [updateOffsets_ok h]
    simp [foldl_FillTree]

theorem SameUpToMasks.fields {c c1 : Converter} (h : SameUpToMasks c c1) :
    c1.filled = c.filled ∧ c1.fTreeStatus = c.fTreeStatus ∧
    c1.fUseEventCuts = c.fUseEventCuts ∧ c1.fTaskMode = c.fTaskMode ∧
    c1.fOffsetTrackID = c.fOffsetTrackID ∧ c1.fOffsetMuTrackID = c.fOffsetMuTrackID ∧
    c1.fOffsetV0ID = c.fOffsetV0ID := by
  obtain ⟨mask, id, rfl⟩ := h
  simp

/-- The shape of every call of `UserExec`: it stops before the first
`FillTree` with the trees and offsets as they were, or it runs `fillEvent`
on the event from a state that differs from the initial one in the two mask
members only. -/
theorem UserExec_cases (b : Build) (c : Converter) (inp : Input) :
    (SameUpToMasks c (UserExec b c inp).task ∧
      ((UserExec b c inp).abort = none →
        rejected c inp = true ∧ (UserExec b c inp).task = c ∧ inp.InputEvent ≠ none)) ∨
    (∃ fESD c1 MCEvt, inp.InputEvent = some fESD ∧ rejected c inp = false ∧
      SameUpToMasks c c1 ∧
      UserExec b c inp = fillEvent b c1 fESD inp.GetNcalls MCEvt) := by
  unfold UserExec
  cases hin : inp.InputEvent with
  | none => left; exact ⟨⟨_, _, rfl⟩, by simp⟩
  | some fESD =>
    simp only
    by_cases hr : (c.fUseEventCuts && !inp.AcceptEvent) = true
    · left
      rw [if_pos hr]
      exact ⟨⟨_, _, rfl⟩, fun _ => ⟨hr, rfl, by simp⟩⟩
    · rw [if_neg hr]
      unfold processEvent
      cases hp : prepareEvent b c inp fESD with
      | error out =>
        left
        have := prepareEvent_error hp
        exact ⟨this.1, fun h => absurd h this.2⟩
      | ok p =>
        obtain ⟨c1, MCEvt⟩ := p
        right
        exact ⟨fESD, c1, MCEvt, rfl, by simpa [rejected] using hr, prepareEvent_ok hp, rfl⟩

/-- No call of `UserExec` changes the tree switches, the event-cut switch or
the task mode. -/
theorem UserExec_frame (b : Build) (c : Converter) (inp : Input) :
    (UserExec b c inp).task.fTreeStatus = c.fTreeStatus ∧
    (UserExec b c inp).task.fUseEventCuts = c.fUseEventCuts ∧
    (UserExec b c inp).task.fTaskMode = c.fTaskMode := by
  rcases UserExec_cases b c inp with ⟨h, _⟩ | ⟨fESD, c1, MCEvt, _, _, h1, h2⟩
  · have := h.fields
    exact ⟨this.2.1, this.2.2.1, this.2.2.2.1⟩
  · rw [h2]
    have hf := fillEvent_frame b c1 fESD inp.GetNcalls MCEvt
    have := h1.fields
    exact ⟨hf.1.trans this.2.1, hf.2.1.trans this.2.2.1, hf.2.2.trans this.2.2.2.1⟩

/-- The number of tracks a call of `UserExec` adds to `fOffsetTrackID`: none
for a rejected event, `GetNumberOfTracks()` otherwise. -/
theorem UserExec_fOffsetTrackID {b : Build} {c : Converter} {inp : Input}
    (h : (UserExec b c inp).abort = none) :
    (UserExec b c inp).task.fOffsetTrackID
      = c.fOffsetTrackID + acceptedTracks c.fUseEventCuts inp := by
  rcases UserExec_cases b c inp with ⟨_, h1⟩ | ⟨fESD, c1, MCEvt, hin, hr, h1, h2⟩
  · obtain ⟨hr, ht, _⟩ := h1 h
    rw [ht]
    unfold rejected at hr
    simp [acceptedTracks, hr]
  · rw [h2] at h ⊢
    rw [(fillEvent_ok h).2.1, h1.fields.2.2.2.2.1]
    unfold rejected at hr
    simp [acceptedTracks, hr, hin]

/-! ### Runs over several events -/

theorem runEvents_cons (b : Build) (c : Converter) (inp : Input) (rest : List Input) :
    runEvents b c (inp :: rest) =
      if (UserExec b c inp).abort = none then runEvents b (UserExec b c inp).task rest
      else UserExec b c inp := by
  rw [runEvents]
  rcases h : UserExec b c inp with ⟨c1, _ | a⟩ <;> simp

theorem runEvents_append (b : Build) (l1 l2 : List Input) (c : Converter) :
    runEvents b c (l1 ++ l2) =
      if (runEvents b c l1).abort = none then runEvents b (runEvents b c l1).task l2
      else runEvents b c l1 := by
  induction l1 generalizing c with
  | nil => simp [runEvents]
  | cons inp rest ih =>
    rw [List.cons_append, runEvents_cons, runEvents_cons]
    by_cases h : (UserExec b c inp).abort = none
    · rw [if_pos h, if_pos h, ih]
    · rw [if_neg h, if_neg h, if_neg h]

/-- A run that completes also completes on every leading part of it. -/
theorem runEvents_take {b : Build} {c : Converter} {evs : List Input}
    (h : (runEvents b c evs).abort = none) (k : Nat) :
    (runEvents b c (evs.take k)).abort = none := by
  have := runEvents_append b (evs.take k) (evs.drop k) c
  rw [List.take_append_drop] at this
  by_contra hk
  rw [if_neg hk] at this
  exact hk (this ▸ h)

theorem runEvents_frame (b : Build) (evs : List Input) (c : Converter) :
    (runEvents b c evs).task.fTreeStatus = c.fTreeStatus ∧
    (runEvents b c evs).task.fUseEventCuts = c.fUseEventCuts ∧
    (runEvents b c evs).task.fTaskMode = c.fTaskMode := by
  induction evs generalizing c with
  | nil => simp [runEvents]
  | cons inp rest ih =>
    rw [runEvents_cons]
    have hf := UserExec_frame b c inp
    by_cases h : (UserExec b c inp).abort = none
    · rw [if_pos h]
      have := ih (UserExec b c inp).task
      exact ⟨this.1.trans hf.1, this.2.1.trans hf.2.1, this.2.2.trans hf.2.2⟩
    · rw [if_neg h]; exact hf

theorem runEvents_fOffsetTrackID (b : Build) (evs : List Input) (c : Converter)
    (h : (runEvents b c evs).abort = none) :
    (runEvents b c evs).task.fOffsetTrackID
      = c.fOffsetTrackID + ((evs.map (acceptedTracks c.fUseEventCuts)).sum : Nat) := by
  induction evs generalizing c with
  | nil => simp [runEvents]
  | cons inp rest ih =>
    rw [runEvents_cons] at h ⊢
    by_cases h1 : (UserExec b c inp).abort = none
    · rw [if_pos h1] at h ⊢
      rw [ih _ h, UserExec_fOffsetTrackID h1, (UserExec_frame b c inp).2.1]
      simp only [List.map_cons, List.sum_cons]
      push_cast
      ring
    · rw [if_neg h1] at h
      exact absurd h h1

/-- C1. Started from `UserCreateOutputObjects`, on every sequence of events the
run completes on, `fOffsetTrackID` after the first `k` events is the sum of
`GetNumberOfTracks()` over those of them that the acceptance filter did not
reject (event cuts enabled and `AcceptEvent` false). -/
theorem fOffsetTrackID_after_events (b : Build) (c : Converter) (evs : List Input)
    (h : (runEvents b (UserCreateOutputObjects c) evs).abort = none) (k : Nat) :
    (runEvents b (UserCreateOutputObjects c) (evs.take k)).task.fOffsetTrackID
      = (((evs.take k).map (acceptedTracks c.fUseEventCuts)).sum : Nat) := by
  have h0 : (UserCreateOutputObjects c).fOffsetTrackID = 0 := by
    unfold UserCreateOutputObjects; rfl
  have h1 : (UserCreateOutputObjects c).fUseEventCuts = c.fUseEventCuts := by
    unfold UserCreateOutputObjects DisableTree; cases c.fTaskMode <;> rfl
  rw [runEvents_fOffsetTrackID b _ _ (runEvents_take h k), h0, h1]
  simp

/-- C1, the scenario of the specification: a 3-track event followed by a
2-track event, none rejected, gives the offsets 0, 3 and 5. -/
theorem fOffsetTrackID_after_events_witness :
    (runEvents sampleBuild (UserCreateOutputObjects sampleTask)
        [sampleInput 3 [] [], sampleInput 2 [] []]).abort = none ∧
    (runEvents sampleBuild (UserCreateOutputObjects sampleTask)
        ([sampleInput 3 [] [], sampleInput 2 [] []].take 0)).task.fOffsetTrackID = 0 ∧
    (runEvents sampleBuild (UserCreateOutputObjects sampleTask)
        ([sampleInput 3 [] [], sampleInput 2 [] []].take 1)).task.fOffsetTrackID = 3 ∧
    (runEvents sampleBuild (UserCreateOutputObjects sampleTask)
        ([sampleInput 3 [] [], sampleInput 2 [] []].take 2)).task.fOffsetTrackID = 5 :=
  ⟨by decide,
   fOffsetTrackID_after_events sampleBuild sampleTask _ (by decide) 0,
   fOffsetTrackID_after_events sampleBuild sampleTask _ (by decide) 1,
   fOffsetTrackID_after_events sampleBuild sampleTask _ (by decide) 2⟩

/-! ### The event identifier (C10) -/

/-- C10. `GetEventIdAsLong` depends on the three header fields only, and for
a bunch crossing below `2^12`, an orbit below `2^24` and a period below `2^28`
it returns `bc + orbit*2^12 + period*2^36`; the fields are read back as
`id mod 2^12`, `(id / 2^12) mod 2^24` and `id / 2^36`, so the identifier is
injective on that domain. -/
theorem GetEventIdAsLong_packs (bc orbit period : Nat)
    (hbc : bc < 2 ^ 12) (horb : orbit < 2 ^ 24) (hper : period < 2 ^ 28) :
    GetEventIdAsLong ⟨bc, orbit, period⟩ = bc + orbit * 2 ^ 12 + period * 2 ^ 36 ∧
    GetEventIdAsLong ⟨bc, orbit, period⟩ % 2 ^ 12 = bc ∧
    (GetEventIdAsLong ⟨bc, orbit, period⟩ / 2 ^ 12) % 2 ^ 24 = orbit ∧
    GetEventIdAsLong ⟨bc, orbit, period⟩ / 2 ^ 36 = period ∧
    ∀ bc1 orbit1 period1 : Nat, bc1 < 2 ^ 12 → orbit1 < 2 ^ 24 → period1 < 2 ^ 28 →
      GetEventIdAsLong ⟨bc1, orbit1, period1⟩ = GetEventIdAsLong ⟨bc, orbit, period⟩ →
      bc1 = bc ∧ orbit1 = orbit ∧ period1 = period := by
  rw [GetEventIdAsLong_eq_sum bc orbit period hbc horb hper]
  refine ⟨rfl, by omega, by omega, by omega, ?_⟩
  intro bc1 orbit1 period1 h1 h2 h3 heq
  rw [GetEventIdAsLong_eq_sum bc1 orbit1 period1 h1 h2 h3] at heq
  omega

/-- C10 at bunch crossing 1, orbit 2, period 3. -/
theorem GetEventIdAsLong_packs_witness :
    GetEventIdAsLong ⟨1, 2, 3⟩ = 1 + 2 * 2 ^ 12 + 3 * 2 ^ 36 ∧
    GetEventIdAsLong ⟨1, 2, 3⟩ % 2 ^ 12 = 1 ∧
    (GetEventIdAsLong ⟨1, 2, 3⟩ / 2 ^ 12) % 2 ^ 24 = 2 ∧
    GetEventIdAsLong ⟨1, 2, 3⟩ / 2 ^ 36 = 3 ∧
    ∀ bc1 orbit1 period1 : Nat, bc1 < 2 ^ 12 → orbit1 < 2 ^ 24 → period1 < 2 ^ 28 →
      GetEventIdAsLong ⟨bc1, orbit1, period1⟩ = GetEventIdAsLong ⟨1, 2, 3⟩ →
      bc1 = 1 ∧ orbit1 = 2 ∧ period1 = 3 :=
  GetEventIdAsLong_packs 1 2 3 (by decide) (by decide) (by decide)

/-! ### The acceptance filter (C2) -/

/-- C2. With event cuts enabled, an event the acceptance filter rejects makes
`UserExec` return at once: the call does not abort and the task is left as it
was, so no tree gains a row and the three offsets keep their values. -/
theorem UserExec_rejected_event (b : Build) (c : Converter) (inp : Input) (fESD : AliESDEvent)
    (hin : inp.InputEvent = some fESD) (hcuts : c.fUseEventCuts = true)
    (hrej : inp.AcceptEvent = false) :
    (UserExec b c inp).abort = none ∧
    (UserExec b c inp).task = c ∧
    (∀ t : TreeIndex, (UserExec b c inp).task.fTree t = c.fTree t) ∧
    (UserExec b c inp).task.fOffsetTrackID = c.fOffsetTrackID ∧
    (UserExec b c inp).task.fOffsetMuTrackID = c.fOffsetMuTrackID ∧
    (UserExec b c inp).task.fOffsetV0ID = c.fOffsetV0ID := by
  have h : UserExec b c inp = ⟨c, none⟩ := by
    unfold UserExec
    rw [hin]
    simp [hcuts, hrej]
  rw [h]
  simp

/-- C2 on a task with event cuts enabled and a rejected three-track event. -/
theorem UserExec_rejected_event_witness :
    (UserExec sampleBuild { sampleTask with fUseEventCuts := true }
      { sampleInput 3 [] [] with AcceptEvent := false }).abort = none ∧
    (UserExec sampleBuild { sampleTask with fUseEventCuts := true }
      { sampleInput 3 [] [] with AcceptEvent := false }).task.filled = [] ∧
    (UserExec sampleBuild { sampleTask with fUseEventCuts := true }
      { sampleInput 3 [] [] with AcceptEvent := false }).task.fOffsetTrackID = 0 := by
  have h := UserExec_rejected_event sampleBuild { sampleTask with fUseEventCuts := true }
    { sampleInput 3 [] [] with AcceptEvent := false } _ rfl rfl rfl
  exact ⟨h.1, by rw [h.2.1]; rfl, by rw [h.2.1]; rfl⟩

/-! ### The rows of one event -/

theorem Emit.seq_abort_none {a b : Emit} (h : (a.seq b).abort = none) :
    a.abort = none ∧ b.abort = none ∧ (a.seq b).rows = a.rows ++ b.rows := by
  unfold Emit.seq at h ⊢
  cases ha : a.abort with
  | none => simp only [ha] at h ⊢; exact ⟨trivial, h, trivial⟩
  | some x => simp only [ha] at h ⊢; exact absurd h (by simp)

theorem Emit.mem_seq {a b : Emit} {r : Row} (h : r ∈ (a.seq b).rows) :
    r ∈ a.rows ∨ r ∈ b.rows := by
  unfold Emit.seq at h
  cases ha : a.abort with
  | none => simp only [ha] at h; exact List.mem_append.mp h
  | some x => simp only [ha] at h; exact Or.inl h

theorem filter_tree_eq_nil {l : List Row} {t : TreeIndex} (h : ∀ r ∈ l, r.tree ≠ t) :
    l.filter (fun r => decide (r.tree = t)) = [] := by
  rw [List.filter_eq_nil_iff]
  intro r hr
  simpa using h r hr

theorem trackRows_tree (b : Build) (eventID : Int) (tracks : List AliESDtrack) :
    ∀ r ∈ trackRows b eventID tracks, r = Row.tracks eventID ∨ r = Row.tof := by
  intro r hr
  unfold trackRows at hr
  simp only [List.mem_flatten, List.mem_map] at hr
  obtain ⟨l, ⟨track, _, rfl⟩, hr⟩ := hr
  rw [List.mem_append] at hr
  rcases hr with hr | hr
  · split at hr
    · exact Or.inr (List.eq_of_mem_replicate hr)
    · simp at hr
  · exact Or.inl (by simpa using hr)

theorem trackRows_count (b : Build) (eventID : Int) (tracks : List AliESDtrack) :
    ((trackRows b eventID tracks).filter (fun r => decide (r.tree = .kTracks))).length
      = tracks.length := by
  unfold trackRows
  induction tracks with
  | nil => rfl
  | cons track rest ih =>
    simp only [List.map_cons, List.flatten_cons, List.filter_append, List.length_append, ih,
      List.length_cons]
    have h : (if b.USE_TOF_CLUST = true then List.replicate track.fNTOFclusters Row.tof
        else []).filter (fun r => decide (r.tree = .kTracks)) = [] := by
      apply filter_tree_eq_nil
      intro r hr
      split at hr
      · rw [List.eq_of_mem_replicate hr]; simp
      · simp at hr
    rw [h]
    simp
    omega

theorem caloRows_tree (eventID : Int) (cells : AliESDCaloCells) :
    ∀ r ∈ caloRows eventID cells, r.tree = .kCalo := by
  intro r hr
  unfold caloRows at hr
  simp only [List.mem_map] at hr
  obtain ⟨c, _, rfl⟩ := hr
  rfl

theorem caloTriggerRows_tree (eventID : Int) (entries : List CaloTriggerEntry) :
    ∀ r ∈ caloTriggerRows eventID entries, r.tree = .kCaloTrigger := by
  intro r hr
  unfold caloTriggerRows at hr
  simp only [List.mem_map] at hr
  obtain ⟨c, _, rfl⟩ := hr
  rfl

theorem kinematicsRows_tree (MCEvt : AliMCEvent) :
    ∀ r ∈ kinematicsRows MCEvt, r.tree = .kKinematics := by
  intro r hr
  unfold kinematicsRows at hr
  simp only [List.mem_map] at hr
  obtain ⟨c, _, rfl⟩ := hr
  rfl

theorem muonRows_tree (eventID off : Int) (l : List AliESDMuonTrack) (imu : Nat) :
    ∀ r ∈ (muonRows eventID off imu l).rows, r.isMuonish = true := by
  induction l generalizing imu with
  | nil => intro r hr; simp [muonRows] at hr
  | cons mutrk rest ih =>
    intro r hr
    rw [muonRows] at hr
    cases h : addInt_t off imu with
    | none =>
      simp only [h, List.mem_singleton] at hr
      subst hr; rfl
    | some id =>
      simp only [h] at hr
      rcases Emit.mem_seq hr with hr | hr
      · simp only [List.mem_cons] at hr
        rcases hr with rfl | hr
        · rfl
        · rw [List.eq_of_mem_replicate hr]; rfl
      · exact ih _ r hr

theorem v0Rows_tree (off : Int) (l : List (Option AliESDv0)) :
    ∀ r ∈ (v0Rows off l).rows, r.tree = .kV0s := by
  induction l with
  | nil => intro r hr; simp [v0Rows] at hr
  | cons v rest ih =>
    intro r hr
    cases v with
    | none => rw [v0Rows] at hr; exact ih r hr
    | some v0 =>
      rw [v0Rows] at hr
      split at hr
      · split at hr
        · rcases Emit.mem_seq hr with hr | hr
          · simp only [List.mem_singleton] at hr
            subst hr; rfl
          · exact ih r hr
        · simp at hr
      · exact ih r hr

theorem cascadeRows_tree (offV0 offTrack : Int) (sorted sortIdx : List Nat)
    (l : List (Option AliESDcascade)) :
    ∀ r ∈ (cascadeRows offV0 offTrack sorted sortIdx l).rows, r.tree = .kCascades := by
  induction l with
  | nil => intro r hr; simp [cascadeRows] at hr
  | cons v rest ih =>
    intro r hr
    cases v with
    | none => rw [cascadeRows] at hr; exact ih r hr
    | some cas =>
      rw [cascadeRows] at hr
      split at hr
      · simp only at hr
        split at hr
        · simp at hr
        · split at hr
          · rcases Emit.mem_seq hr with hr | hr
            · simp only [List.mem_singleton] at hr
              subst hr; rfl
            · exact ih r hr
          · simp at hr
        · exact ih r hr
      · exact ih r hr

theorem cascadeBlock_tree (b : Build) (offV0 offTrack : Int) (fESD : AliESDEvent) :
    ∀ r ∈ (cascadeBlock b offV0 offTrack fESD).rows, r.tree = .kCascades := by
  intro r hr
  unfold cascadeBlock at hr
  simp only at hr
  split at hr
  · split at hr
    · simp at hr
    · exact cascadeRows_tree _ _ _ _ _ r hr
  · simp at hr

theorem kinematicsStage_tree (b : Build) (MCEvt : Option AliMCEvent) :
    ∀ r ∈ kinematicsStage b MCEvt, r.tree = .kKinematics := by
  intro r hr
  unfold kinematicsStage at hr
  split at hr
  · split at hr
    · exact kinematicsRows_tree _ r hr
    · simp at hr
  · simp at hr

/-- The rows of an event whose stretches all complete, stretch by stretch. -/
theorem eventRows_ok {b : Build} {c : Converter} {fESD : AliESDEvent} {eventID : Int}
    {MCEvt : Option AliMCEvent} (h : (eventRows b c fESD eventID MCEvt).abort = none) :
    (muonRows eventID c.fOffsetMuTrackID 0 fESD.muonTracks).abort = none ∧
    (v0Rows c.fOffsetTrackID fESD.v0s).abort = none ∧
    (cascadeBlock b c.fOffsetV0ID c.fOffsetTrackID fESD).abort = none ∧
    (eventRows b c fESD eventID MCEvt).rows =
      [Row.events (GetEventIdAsLong fESD.header) c.fEventTimeMask c.fGeneratorID]
      ++ trackRows b eventID fESD.tracks
      ++ caloRows eventID fESD.emcalCells
      ++ caloTriggerRows eventID fESD.caloTrigger
      ++ caloRows eventID fESD.phosCells
      ++ (muonRows eventID c.fOffsetMuTrackID 0 fESD.muonTracks).rows
      ++ [Row.zdc eventID (zdcFired fESD.zdc)]
      ++ [Row.vzero eventID]
      ++ (v0Rows c.fOffsetTrackID fESD.v0s).rows
      ++ (cascadeBlock b c.fOffsetV0ID c.fOffsetTrackID fESD).rows
      ++ kinematicsStage b MCEvt := by
  unfold eventRows at h ⊢
  obtain ⟨h10, _, e10⟩ := Emit.seq_abort_none h
  obtain ⟨h9, hc, e9⟩ := Emit.seq_abort_none h10
  obtain ⟨h8, hv, e8⟩ := Emit.seq_abort_none h9
  obtain ⟨h7, _, e7⟩ := Emit.seq_abort_none h8
  obtain ⟨h6, _, e6⟩ := Emit.seq_abort_none h7
  obtain ⟨h5, hm, e5⟩ := Emit.seq_abort_none h6
  obtain ⟨h4, _, e4⟩ := Emit.seq_abort_none h5
  obtain ⟨h3, _, e3⟩ := Emit.seq_abort_none h4
  obtain ⟨h2, _, e2⟩ := Emit.seq_abort_none h3
  obtain ⟨_, _, e1⟩ := Emit.seq_abort_none h2
  refine ⟨hm, hv, hc, ?_⟩
  rw [e10, e9, e8, e7, e6, e5, e4, e3, e2, e1]

/-- Every row of an event, complete or not, comes from one of the stretches. -/
theorem eventRows_mem {b : Build} {c : Converter} {fESD : AliESDEvent} {eventID : Int}
    {MCEvt : Option AliMCEvent} {r : Row} (h : r ∈ (eventRows b c fESD eventID MCEvt).rows) :
    r.tree = .kEvents ∨ r ∈ trackRows b eventID fESD.tracks ∨ r.tree = .kCalo ∨
    r.tree = .kCaloTrigger ∨
    r ∈ (muonRows eventID c.fOffsetMuTrackID 0 fESD.muonTracks).rows ∨
    r.tree = .kZdc ∨ r.tree = .kVzero ∨
    r ∈ (v0Rows c.fOffsetTrackID fESD.v0s).rows ∨
    r ∈ (cascadeBlock b c.fOffsetV0ID c.fOffsetTrackID fESD).rows ∨
    r.tree = .kKinematics := by
  unfold eventRows at h
  rcases Emit.mem_seq h with h | h
  · rcases Emit.mem_seq h with h | h
    · rcases Emit.mem_seq h with h | h
      · rcases Emit.mem_seq h with h | h
        · rcases Emit.mem_seq h with h | h
          · rcases Emit.mem_seq h with h | h
            · rcases Emit.mem_seq h with h | h
              · rcases Emit.mem_seq h with h | h
                · rcases Emit.mem_seq h with h | h
                  · rcases Emit.mem_seq h with h | h
                    · simp only [List.mem_singleton] at h
                      subst h; exact Or.inl rfl
                    · exact Or.inr (Or.inl h)
                  · exact Or.inr (Or.inr (Or.inl (caloRows_tree _ _ r h)))
                · exact Or.inr (Or.inr (Or.inr (Or.inl (caloTriggerRows_tree _ _ r h))))
              · exact Or.inr (Or.inr (Or.inl (caloRows_tree _ _ r h)))
            · exact Or.inr (Or.inr (Or.inr (Or.inr (Or.inl h))))
          · simp only [List.mem_singleton] at h
            subst h; exact Or.inr (Or.inr (Or.inr (Or.inr (Or.inr (Or.inl rfl)))))
        · simp only [List.mem_singleton] at h
          subst h; exact Or.inr (Or.inr (Or.inr (Or.inr (Or.inr (Or.inr (Or.inl rfl))))))
      · exact Or.inr (Or.inr (Or.inr (Or.inr (Or.inr (Or.inr (Or.inr (Or.inl h)))))))
    · exact Or.inr (Or.inr (Or.inr (Or.inr (Or.inr (Or.inr (Or.inr (Or.inr (Or.inl h))))))))
  · exact Or.inr (Or.inr (Or.inr (Or.inr (Or.inr (Or.inr (Or.inr (Or.inr (Or.inr
      (kinematicsStage_tree _ _ r h)))))))))

theorem filter_tree_eq_nil_of_tree {l : List Row} {t t1 : TreeIndex}
    (h : ∀ r ∈ l, r.tree = t1) (hne : t1 ≠ t) :
    l.filter (fun r => decide (r.tree = t)) = [] :=
  filter_tree_eq_nil (fun r hr => by rw [h r hr]; exact hne)

theorem isMuonish_iff (r : Row) :
    r.isMuonish = true ↔ r.tree = .kMuon ∨ r.tree = .kMuonCls := by
  simp [Row.isMuonish]

theorem muonRows_count (eventID off : Int) (l : List AliESDMuonTrack) (imu : Nat)
    (h : (muonRows eventID off imu l).abort = none) :
    ((muonRows eventID off imu l).rows.filter (fun r => decide (r.tree = .kMuon))).length
      = l.length := by
  induction l generalizing imu with
  | nil => simp [muonRows]
  | cons mutrk rest ih =>
    rw [muonRows] at h ⊢
    cases ha : addInt_t off imu with
    | none => simp [ha] at h
    | some id =>
      simp only [ha] at h ⊢
      obtain ⟨_, h2, e⟩ := Emit.seq_abort_none h
      rw [e]
      simp only [List.filter_append, List.length_append, ih _ h2, List.filter_cons]
      have : (List.replicate mutrk.fNClusters (Row.muonCls id)).filter
          (fun r => decide (r.tree = .kMuon)) = [] :=
        filter_tree_eq_nil (fun r hr => by rw [List.eq_of_mem_replicate hr]; simp)
      rw [this]
      simp
      omega

/-- In an event whose stretches all complete, the track rows handed to
`FillTree` are as many as the event has tracks. -/
theorem eventRows_tracks_count {b : Build} {c : Converter} {fESD : AliESDEvent}
    {eventID : Int} {MCEvt : Option AliMCEvent}
    (h : (eventRows b c fESD eventID MCEvt).abort = none) :
    ((eventRows b c fESD eventID MCEvt).rows.filter
      (fun r => decide (r.tree = .kTracks))).length = fESD.tracks.length := by
  obtain ⟨_, _, _, e⟩ := eventRows_ok h
  rw [e]
  simp only [List.filter_append, List.length_append, trackRows_count]
  rw [filter_tree_eq_nil_of_tree (caloRows_tree _ fESD.emcalCells) (by decide),
    filter_tree_eq_nil_of_tree (caloRows_tree _ fESD.phosCells) (by decide),
    filter_tree_eq_nil_of_tree (caloTriggerRows_tree _ _) (by decide),
    filter_tree_eq_nil_of_tree (v0Rows_tree _ _) (by decide),
    filter_tree_eq_nil_of_tree (cascadeBlock_tree _ _ _ _) (by decide),
    filter_tree_eq_nil_of_tree (kinematicsStage_tree _ _) (by decide),
    filter_tree_eq_nil (l := (muonRows _ _ _ _).rows) (fun r hr => by
      have := (isMuonish_iff r).mp (muonRows_tree _ _ _ _ r hr)
      rcases this with h | h <;> rw [h] <;> decide)]
  simp

/-- In an event whose stretches all complete, the muon rows handed to
`FillTree` are as many as the event has muon tracks. -/
theorem eventRows_muon_count {b : Build} {c : Converter} {fESD : AliESDEvent}
    {eventID : Int} {MCEvt : Option AliMCEvent}
    (h : (eventRows b c fESD eventID MCEvt).abort = none) :
    ((eventRows b c fESD eventID MCEvt).rows.filter
      (fun r => decide (r.tree = .kMuon))).length = fESD.muonTracks.length := by
  obtain ⟨hm, _, _, e⟩ := eventRows_ok h
  rw [e]
  simp only [List.filter_append, List.length_append, muonRows_count _ _ _ _ hm]
  rw [filter_tree_eq_nil_of_tree (caloRows_tree _ fESD.emcalCells) (by decide),
    filter_tree_eq_nil_of_tree (caloRows_tree _ fESD.phosCells) (by decide),
    filter_tree_eq_nil_of_tree (caloTriggerRows_tree _ _) (by decide),
    filter_tree_eq_nil_of_tree (v0Rows_tree _ _) (by decide),
    filter_tree_eq_nil_of_tree (cascadeBlock_tree _ _ _ _) (by decide),
    filter_tree_eq_nil_of_tree (kinematicsStage_tree _ _) (by decide),
    filter_tree_eq_nil (l := trackRows _ _ _) (fun r hr => by
      rcases trackRows_tree _ _ _ r hr with h | h <;> rw [h] <;> simp)]
  simp

/-! ### Muon clusters and their tracks -/

theorem clusterOwners_append (l1 l2 : List Row) (n : Nat) :
    clusterOwners n (l1 ++ l2) = clusterOwners n l1 ++
      clusterOwners (n + (l1.filter (fun r => decide (r.tree = .kMuon))).length) l2 := by
  induction l1 generalizing n with
  | nil => simp [clusterOwners]
  | cons r rest ih =>
    cases r <;> simp [clusterOwners, ih]
    congr 1
    omega

theorem filter_muon_eq_nil {l : List Row} (h : ∀ r ∈ l, r.isMuonish = false) :
    l.filter (fun r => decide (r.tree = .kMuon)) = [] :=
  filter_tree_eq_nil (fun r hr hm => by
    have := h r hr
    simp [Row.isMuonish, hm] at this)

theorem clusterOwners_eq_nil {l : List Row} (h : ∀ r ∈ l, r.isMuonish = false) (n : Nat) :
    clusterOwners n l = [] := by
  induction l generalizing n with
  | nil => simp [clusterOwners]
  | cons r rest ih =>
    have hr := h r (List.mem_cons_self _ _)
    have ih1 := ih (fun x hx => h x (List.mem_cons_of_mem _ hx))
    cases r <;> simp [Row.isMuonish] at hr <;> simp [clusterOwners, ih1]

theorem filter_tree_filter (act : TreeIndex → Bool) (t : TreeIndex) (ht : act t = true)
    (l : List Row) :
    (l.filter (fun r => act r.tree)).filter (fun r => decide (r.tree = t))
      = l.filter (fun r => decide (r.tree = t)) := by
  rw [List.filter_filter]
  congr 1
  funext r
  by_cases h : r.tree = t
  · simp [h, ht]
  · simp [h]

theorem muonRows_owners (act : TreeIndex → Bool) (hact : act .kMuon = true)
    (eventID off : Int) (l : List AliESDMuonTrack) (imu n : Nat)
    (h : (muonRows eventID off imu l).abort = none) (hn : (n : Int) = off + imu) :
    ∀ p ∈ clusterOwners n ((muonRows eventID off imu l).rows.filter (fun r => act r.tree)),
      p.1 = p.2 := by
  induction l generalizing imu n with
  | nil => simp [muonRows, clusterOwners]
  | cons mutrk rest ih =>
    rw [muonRows] at h ⊢
    cases ha : addInt_t off imu with
    | none => simp [ha] at h
    | some id =>
      simp only [ha] at h ⊢
      obtain ⟨_, h2, e⟩ := Emit.seq_abort_none h
      rw [e]
      have hid : id = (n : Int) := by rw [hn]; exact (addInt_t_eq_some ha).1
      subst hid
      have ih1 := ih (imu + 1) (n + 1) h2 (by push_cast; omega)
      simp only [List.cons_append, List.filter_cons, Row.tree_muon, hact, if_true, clusterOwners,
        List.filter_append]
      rw [clusterOwners_append]
      intro p hp
      rw [List.mem_append] at hp
      rcases hp with hp | hp
      · have hsub : ∀ (k : Nat) (q : Int × Int),
            q ∈ clusterOwners (n + 1) ((List.replicate k (Row.muonCls (n : Int))).filter
              (fun r => act r.tree)) → q.1 = q.2 := by
          intro k
          induction k with
          | zero => simp [clusterOwners]
          | succ k ihk =>
            intro q hq
            rw [List.replicate_succ, List.filter_cons] at hq
            split at hq
            · simp only [clusterOwners, List.mem_cons] at hq
              rcases hq with rfl | hq
              · simp
              · exact ihk q hq
            · exact ihk q hq
        exact hsub _ p hp
      · have hz : ((List.replicate mutrk.fNClusters (Row.muonCls (n : Int))).filter
            (fun r => act r.tree)).filter (fun r => decide (r.tree = .kMuon)) = [] :=
          filter_tree_eq_nil (fun r hr => by
            rw [List.eq_of_mem_replicate (List.mem_filter.mp hr).1]; simp)
        rw [hz] at hp
        exact ih1 p hp

theorem isMuonish_false_of_tree {r : Row} {t : TreeIndex} (h : r.tree = t)
    (h1 : t ≠ .kMuon) (h2 : t ≠ .kMuonCls) : r.isMuonish = false := by
  simp [Row.isMuonish, h, h1, h2]

theorem filter_isMuonish_eq_nil {l : List Row} (h : ∀ r ∈ l, r.isMuonish = false) :
    l.filter Row.isMuonish = [] := by
  rw [List.filter_eq_nil_iff]
  intro r hr
  simp [h r hr]

theorem clusterOwners_filter_isMuonish (l : List Row) (n : Nat) :
    clusterOwners n (l.filter Row.isMuonish) = clusterOwners n l := by
  induction l generalizing n with
  | nil => rfl
  | cons r rest ih =>
    cases r <;> simp [List.filter_cons, Row.isMuonish, clusterOwners, ih]

/-- Among the rows of an event whose stretches all complete, those of the
muon and muon-cluster trees are exactly the rows of the muon loop. -/
theorem eventRows_filter_isMuonish {b : Build} {c : Converter} {fESD : AliESDEvent}
    {eventID : Int} {MCEvt : Option AliMCEvent}
    (h : (eventRows b c fESD eventID MCEvt).abort = none) :
    (eventRows b c fESD eventID MCEvt).rows.filter Row.isMuonish
      = (muonRows eventID c.fOffsetMuTrackID 0 fESD.muonTracks).rows := by
  obtain ⟨_, _, _, e⟩ := eventRows_ok h
  rw [e]
  simp only [List.filter_append]
  rw [filter_isMuonish_eq_nil (l := caloRows _ fESD.emcalCells) (fun r hr =>
      isMuonish_false_of_tree (caloRows_tree _ _ r hr) (by decide) (by decide)),
    filter_isMuonish_eq_nil (l := caloRows _ fESD.phosCells) (fun r hr =>
      isMuonish_false_of_tree (caloRows_tree _ _ r hr) (by decide) (by decide)),
    filter_isMuonish_eq_nil (l := caloTriggerRows _ _) (fun r hr =>
      isMuonish_false_of_tree (caloTriggerRows_tree _ _ r hr) (by decide) (by decide)),
    filter_isMuonish_eq_nil (l := (v0Rows _ _).rows) (fun r hr =>
      isMuonish_false_of_tree (v0Rows_tree _ _ r hr) (by decide) (by decide)),
    filter_isMuonish_eq_nil (l := (cascadeBlock _ _ _ _).rows) (fun r hr =>
      isMuonish_false_of_tree (cascadeBlock_tree _ _ _ _ r hr) (by decide) (by decide)),
    filter_isMuonish_eq_nil (l := kinematicsStage _ _) (fun r hr =>
      isMuonish_false_of_tree (kinematicsStage_tree _ _ r hr) (by decide) (by decide)),
    filter_isMuonish_eq_nil (l := trackRows _ _ _) (fun r hr => by
      rcases trackRows_tree _ _ _ r hr with h | h <;> rw [h] <;> rfl),
    List.filter_eq_self.mpr (muonRows_tree _ _ _ _)]
  simp [Row.isMuonish]

theorem eventRows_owners (act : TreeIndex → Bool) (hact : act .kMuon = true)
    {b : Build} {c : Converter} {fESD : AliESDEvent} {eventID : Int}
    {MCEvt : Option AliMCEvent} (h : (eventRows b c fESD eventID MCEvt).abort = none)
    (n : Nat) (hn : (n : Int) = c.fOffsetMuTrackID) :
    ∀ p ∈ clusterOwners n ((eventRows b c fESD eventID MCEvt).rows.filter
      (fun r => act r.tree)), p.1 = p.2 := by
  rw [← clusterOwners_filter_isMuonish, List.filter_filter]
  have hcomm : (eventRows b c fESD eventID MCEvt).rows.filter
      (fun a => Row.isMuonish a && act a.tree)
      = ((eventRows b c fESD eventID MCEvt).rows.filter Row.isMuonish).filter
        (fun r => act r.tree) := by
    rw [List.filter_filter]
    congr 1
    funext a
    exact Bool.and_comm _ _
  rw [hcomm, eventRows_filter_isMuonish h]
  exact muonRows_owners act hact _ _ _ 0 n (eventRows_ok h).1 (by simpa using hn)

/-- One completed call of `UserExec` keeps `OffsetsCountRows` when the track
and muon trees are active. -/
theorem UserExec_OffsetsCountRows {b : Build} {c : Converter} {inp : Input}
    (hT : c.fTreeStatus .kTracks = true) (hM : c.fTreeStatus .kMuon = true)
    (hinv : OffsetsCountRows c) (h : (UserExec b c inp).abort = none) :
    OffsetsCountRows (UserExec b c inp).task := by
  rcases UserExec_cases b c inp with ⟨_, h1⟩ | ⟨fESD, c1, MCEvt, _, _, h1, h2⟩
  · rw [(h1 h).2.1]; exact hinv
  · rw [h2] at h ⊢
    obtain ⟨he, hoT, hoM, _⟩ := fillEvent_ok h
    have hf := fillEvent_filled b c1 fESD inp.GetNcalls MCEvt
    obtain ⟨f1, f2, _, _, f5, f6, _⟩ := h1.fields
    obtain ⟨i1, i2, i3⟩ := hinv
    unfold OffsetsCountRows Converter.fTree
    rw [hf, f1, f2, hoT, hoM, f5, f6]
    simp only [List.filter_append, List.length_append,
      filter_tree_filter c.fTreeStatus _ hT, filter_tree_filter c.fTreeStatus _ hM,
      eventRows_tracks_count he, eventRows_muon_count he]
    refine ⟨?_, ?_, ?_⟩
    · unfold Converter.fTree at i1; rw [i1]; push_cast; rfl
    · unfold Converter.fTree at i2; rw [i2]; push_cast; rfl
    · intro p hp
      rw [clusterOwners_append, List.mem_append] at hp
      rcases hp with hp | hp
      · exact i3 p hp
      · refine eventRows_owners c.fTreeStatus hM he _ ?_ p hp
        rw [f6, i2]
        unfold Converter.fTree
        simp

theorem runEvents_OffsetsCountRows (b : Build) (evs : List Input) (c : Converter)
    (hT : c.fTreeStatus .kTracks = true) (hM : c.fTreeStatus .kMuon = true)
    (hinv : OffsetsCountRows c) (h : (runEvents b c evs).abort = none) :
    OffsetsCountRows (runEvents b c evs).task := by
  induction evs generalizing c with
  | nil => simpa [runEvents] using hinv
  | cons inp rest ih =>
    rw [runEvents_cons] at h ⊢
    by_cases h1 : (UserExec b c inp).abort = none
    · rw [if_pos h1] at h ⊢
      have hf := UserExec_frame b c inp
      exact ih _ (by rw [hf.1]; exact hT) (by rw [hf.1]; exact hM)
        (UserExec_OffsetsCountRows hT hM hinv h1) h
    · rw [if_neg h1] at h
      exact absurd h h1

theorem UserCreateOutputObjects_fields (c : Converter) :
    (UserCreateOutputObjects c).filled = [] ∧
    (UserCreateOutputObjects c).fOffsetTrackID = 0 ∧
    (UserCreateOutputObjects c).fOffsetMuTrackID = 0 ∧
    (UserCreateOutputObjects c).fOffsetV0ID = 0 ∧
    (UserCreateOutputObjects c).fTreeStatus .kTracks = c.fTreeStatus .kTracks ∧
    (UserCreateOutputObjects c).fTreeStatus .kMuon = c.fTreeStatus .kMuon := by
  unfold UserCreateOutputObjects DisableTree
  cases c.fTaskMode <;> simp

/-- C4. With the track tree and the muon tree active from the start, after
any number `k` of events of a run that completes (so at the end of call `k`
and at the start of call `k + 1`) `fOffsetTrackID` is the number of entries of
the track tree and `fOffsetMuTrackID` the number of entries of the muon tree.
Each call appends as many track rows as it advances the offset by, so local
index `i` plus the offset before the call is the row of that track; and every
muon-cluster entry carries in `fMuTrackID` the position in the muon tree of
the muon track whose loop body filled it. -/
theorem offsets_count_rows (b : Build) (c : Converter) (evs : List Input)
    (hT : c.fTreeStatus .kTracks = true) (hM : c.fTreeStatus .kMuon = true)
    (h : (runEvents b (UserCreateOutputObjects c) evs).abort = none) (k : Nat) :
    (runEvents b (UserCreateOutputObjects c) (evs.take k)).task.fOffsetTrackID =
      ((runEvents b (UserCreateOutputObjects c) (evs.take k)).task.fTree .kTracks).length ∧
    (runEvents b (UserCreateOutputObjects c) (evs.take k)).task.fOffsetMuTrackID =
      ((runEvents b (UserCreateOutputObjects c) (evs.take k)).task.fTree .kMuon).length ∧
    ∀ p ∈ clusterOwners 0 (runEvents b (UserCreateOutputObjects c) (evs.take k)).task.filled,
      p.1 = p.2 := by
  obtain ⟨f1, f2, f3, _, f5, f6⟩ := UserCreateOutputObjects_fields c
  have h0 : OffsetsCountRows (UserCreateOutputObjects c) := by
    unfold OffsetsCountRows Converter.fTree
    rw [f1, f2, f3]
    simp [clusterOwners]
  exact runEvents_OffsetsCountRows b _ _ (f5.trans hT) (f6.trans hM) h0 (runEvents_take h k)

/-- C4 on two events with 3 and 2 tracks, each with one muon track of two
clusters: offsets 5 and 2, five track entries, two muon entries, and the
clusters keyed 0, 0, 1, 1. -/
theorem offsets_count_rows_witness :
    (runEvents sampleBuild (UserCreateOutputObjects sampleTask)
      ([sampleInput 3 [] [], sampleInput 2 [] []].take 2)).task.fOffsetTrackID = 5 ∧
    (runEvents sampleBuild (UserCreateOutputObjects sampleTask)
      ([sampleInput 3 [] [], sampleInput 2 [] []].take 2)).task.fOffsetMuTrackID = 2 ∧
    clusterOwners 0 (runEvents sampleBuild (UserCreateOutputObjects sampleTask)
      ([sampleInput 3 [] [], sampleInput 2 [] []].take 2)).task.filled
        = [(0, 0), (0, 0), (1, 1), (1, 1)] ∧
    (runEvents sampleBuild (UserCreateOutputObjects sampleTask)
      ([sampleInput 3 [] [], sampleInput 2 [] []].take 2)).task.fOffsetTrackID =
      ((runEvents sampleBuild (UserCreateOutputObjects sampleTask)
        ([sampleInput 3 [] [], sampleInput 2 [] []].take 2)).task.fTree .kTracks).length :=
  ⟨by decide, by decide, by decide,
   (offsets_count_rows sampleBuild sampleTask [sampleInput 3 [] [], sampleInput 2 [] []]
      rfl rfl (by decide) 2).1⟩

/-! ### V0 identifiers (C3) -/

theorem TMath.Abs_eq_abs (d : Int) : TMath.Abs d = |d| := by
  unfold TMath.Abs
  split
  · rw [abs_of_nonneg (by assumption)]
  · rw [abs_of_neg (by omega)]

theorem v0TrackID_spec {o x id : Int} (ho : 0 ≤ o) (h : v0TrackID o x = some id) :
    IsOffsetId o x id := by
  unfold v0TrackID at h
  split at h
  · cases ha : addInt_t (TMath.Abs x) o with
    | none => simp [ha] at h
    | some a =>
      simp only [ha] at h
      split at h
      · simp only [Option.some.injEq] at h
        have ha1 := (addInt_t_eq_some ha).1
        rw [TMath.Abs_eq_abs] at ha1
        have hx := abs_nonneg x
        unfold TMath.Sign at h
        rw [TMath.Abs_eq_abs, abs_of_nonneg (by omega : (0:Int) ≤ a)] at h
        unfold IsOffsetId
        rcases lt_trichotomy x 0 with hneg | hzero | hpos
        · have hax : |x| = -x := abs_of_neg hneg
          rw [if_neg (by omega)] at h
          subst h
          have hid : -a < 0 := by omega
          refine ⟨by constructor <;> intro <;> assumption, ?_, ?_, by omega, ?_⟩
          · rw [abs_of_neg hid]; omega
          · intro _; rw [Int.sign_eq_neg_one_of_neg hneg]; omega
          · rw [if_pos hid]; omega
        · subst hzero
          rw [if_pos (by omega)] at h
          subst h
          simp only [abs_zero] at ha1 hx ⊢
          refine ⟨by constructor <;> intro <;> omega, ?_, by simp, by omega, ?_⟩
          · rw [abs_of_nonneg (by omega)]; omega
          · rw [if_neg (by omega)]; omega
        · have hax : |x| = x := abs_of_pos hpos
          rw [if_pos (by omega)] at h
          subst h
          refine ⟨by constructor <;> intro <;> omega, ?_, ?_, by omega, ?_⟩
          · rw [abs_of_nonneg (by omega)]; omega
          · intro _; rw [Int.sign_eq_one_of_pos hpos]; omega
          · rw [if_neg (by omega)]; omega
      · simp at h
  · simp at h

theorem v0Rows_spec (o : Int) (l : List (Option AliESDv0)) :
    ∀ r ∈ (v0Rows o l).rows, ∃ v0, some v0 ∈ l ∧ v0.fOnFlyStatus = false ∧
      ∃ p n, r = Row.v0s p n ∧ v0TrackID o v0.fPindex = some p ∧
        v0TrackID o v0.fNindex = some n := by
  induction l with
  | nil => intro r hr; simp [v0Rows] at hr
  | cons v rest ih =>
    intro r hr
    have lift : (∃ v0, some v0 ∈ rest ∧ v0.fOnFlyStatus = false ∧
        ∃ p n, r = Row.v0s p n ∧ v0TrackID o v0.fPindex = some p ∧
          v0TrackID o v0.fNindex = some n) →
        ∃ v0, some v0 ∈ v :: rest ∧ v0.fOnFlyStatus = false ∧
        ∃ p n, r = Row.v0s p n ∧ v0TrackID o v0.fPindex = some p ∧
          v0TrackID o v0.fNindex = some n := by
      rintro ⟨v0, hm, hrest⟩
      exact ⟨v0, List.mem_cons_of_mem _ hm, hrest⟩
    cases v with
    | none => rw [v0Rows] at hr; exact lift (ih r hr)
    | some v0 =>
      rw [v0Rows] at hr
      by_cases hfly : v0.fOnFlyStatus = true
      · simp only [hfly, Bool.not_true, Bool.false_eq_true, if_false] at hr
        exact lift (ih r hr)
      · simp only [hfly, Bool.not_false, if_true] at hr
        cases hp : v0TrackID o v0.fPindex with
        | none => simp [hp] at hr
        | some p =>
          cases hn : v0TrackID o v0.fNindex with
          | none => simp [hp, hn] at hr
          | some n =>
            simp only [hp, hn] at hr
            rcases Emit.mem_seq hr with hr | hr
            · simp only [List.mem_singleton] at hr
              exact ⟨v0, List.mem_cons_self _ _, by simpa using hfly, p, n, hr, hp, hn⟩
            · exact lift (ih r hr)

/-- The V0 rows of one call of `UserExec` started with a non-negative track
offset. -/
theorem UserExec_v0_rows (b : Build) (c : Converter) (inp : Input)
    (ho : 0 ≤ c.fOffsetTrackID) :
    ∃ rows, (UserExec b c inp).task.filled = c.filled ++ rows ∧
      ∀ r ∈ rows, r.tree = .kV0s →
        ∃ fESD v0, inp.InputEvent = some fESD ∧ some v0 ∈ fESD.v0s ∧
          v0.fOnFlyStatus = false ∧
          ∃ p n, r = Row.v0s p n ∧ IsOffsetId c.fOffsetTrackID v0.fPindex p ∧
            IsOffsetId c.fOffsetTrackID v0.fNindex n := by
  rcases UserExec_cases b c inp with ⟨h1, _⟩ | ⟨fESD, c1, MCEvt, hin, _, h1, h2⟩
  · exact ⟨[], by rw [h1.fields.1]; simp, by simp⟩
  · refine ⟨(eventRows b c1 fESD inp.GetNcalls MCEvt).rows.filter
      (fun r => c1.fTreeStatus r.tree), ?_, ?_⟩
    · rw [h2, fillEvent_filled, h1.fields.1]
    · intro r hr ht
      have hr1 := (List.mem_filter.mp hr).1
      obtain ⟨_, _, _, _, f5, _, _⟩ := h1.fields
      have hv : r ∈ (v0Rows c.fOffsetTrackID fESD.v0s).rows := by
        rcases eventRows_mem hr1 with h | h | h | h | h | h | h | h | h | h
        · rw [h] at ht; exact absurd ht (by decide)
        · rcases trackRows_tree _ _ _ r h with h | h <;> rw [h] at ht <;> simp at ht
        · rw [h] at ht; exact absurd ht (by decide)
        · rw [h] at ht; exact absurd ht (by decide)
        · have := (isMuonish_iff r).mp (muonRows_tree _ _ _ _ r h)
          rcases this with h | h <;> rw [h] at ht <;> exact absurd ht (by decide)
        · rw [h] at ht; exact absurd ht (by decide)
        · rw [h] at ht; exact absurd ht (by decide)
        · rw [← f5]; exact h
        · rw [cascadeBlock_tree _ _ _ _ r h] at ht; exact absurd ht (by decide)
        · rw [h] at ht; exact absurd ht (by decide)
      obtain ⟨v0, hm, hfly, p, n, hrow, hp, hn⟩ := v0Rows_spec _ _ r hv
      exact ⟨fESD, v0, hin, hm, hfly, p, n, hrow, v0TrackID_spec ho hp, v0TrackID_spec ho hn⟩

/-- C3, as the code has it. In a run started from `UserCreateOutputObjects`,
after any events the run completed on, every V0 row the next call of
`UserExec` appends comes from an offline V0 candidate of its event, and each
of its two identifiers is related to the original daughter index `x`
(`GetPindex()` for `fPosTrackID`, `GetNindex()` for `fNegTrackID`) and the
track offset `o` before the call by `IsOffsetId`: the identifier is negative
exactly when `x` is, its absolute value is `|x| + o`, it equals
`sign(x) * (|x| + o)` for `x ≠ 0` and `o` for `x = 0`, and `x` is recovered
from it and `o`. -/
theorem v0_row_identifiers (b : Build) (c : Converter) (evs : List Input) (inp : Input)
    (h : (runEvents b (UserCreateOutputObjects c) evs).abort = none) :
    ∃ rows, (UserExec b (runEvents b (UserCreateOutputObjects c) evs).task inp).task.filled
        = (runEvents b (UserCreateOutputObjects c) evs).task.filled ++ rows ∧
      ∀ r ∈ rows, r.tree = .kV0s →
        ∃ fESD v0, inp.InputEvent = some fESD ∧ some v0 ∈ fESD.v0s ∧
          v0.fOnFlyStatus = false ∧
          ∃ p n, r = Row.v0s p n ∧
            IsOffsetId (runEvents b (UserCreateOutputObjects c) evs).task.fOffsetTrackID
              v0.fPindex p ∧
            IsOffsetId (runEvents b (UserCreateOutputObjects c) evs).task.fOffsetTrackID
              v0.fNindex n := by
  apply UserExec_v0_rows
  rw [runEvents_fOffsetTrackID b evs _ h, (UserCreateOutputObjects_fields c).2.1]
  omega

/-- C3 after a first event with 3 tracks: the offline V0 with daughters
`(-2, 1)` of the second event is written as `(-5, 4)`. -/
theorem v0_row_identifiers_witness :
    (runEvents sampleBuild (UserCreateOutputObjects sampleTask)
      [sampleInput 3 [] []]).abort = none ∧
    Converter.fTree (UserExec sampleBuild
      (runEvents sampleBuild (UserCreateOutputObjects sampleTask) [sampleInput 3 [] []]).task
      (sampleInput 2 [some ⟨false, -2, 1⟩] [])).task .kV0s = [Row.v0s (-5) 4] ∧
    ∃ rows, (UserExec sampleBuild (runEvents sampleBuild (UserCreateOutputObjects sampleTask)
        [sampleInput 3 [] []]).task (sampleInput 2 [some ⟨false, -2, 1⟩] [])).task.filled
      = (runEvents sampleBuild (UserCreateOutputObjects sampleTask)
        [sampleInput 3 [] []]).task.filled ++ rows :=
  ⟨by decide, by decide,
   (v0_row_identifiers sampleBuild sampleTask [sampleInput 3 [] []]
      (sampleInput 2 [some ⟨false, -2, 1⟩] []) (by decide)).imp (fun _ h => h.1)⟩

/-- C3 as stated fails at a daughter index of zero: after a first event with
3 tracks, the offline V0 with daughters `(0, 1)` is written as `(3, 4)`, while
`sign(0) * (|0| + 3)` is `0`. -/
theorem v0_identifier_of_index_zero :
    (runEvents sampleBuild (UserCreateOutputObjects sampleTask)
      [sampleInput 3 [] []]).task.fOffsetTrackID = 3 ∧
    Converter.fTree (runEvents sampleBuild (UserCreateOutputObjects sampleTask)
      [sampleInput 3 [] [], sampleInput 2 [some ⟨false, 0, 1⟩] []]).task .kV0s
      = [Row.v0s 3 4] ∧
    Int.sign 0 * (|(0 : Int)| + 3) ≠ 3 := by
  refine ⟨by decide, by decide, by decide⟩

/-! ### The packed key and the cascade lookup at concrete events (C5 to C8) -/

/-- What the packing keeps of a pair in the 31-bit domain: the lowest bit of
the positive index (as bit 31, sign-extended to the bits above) and the
negative index. -/
theorem packPosNeg_eq (p n : Nat) (hp : p < 2 ^ 31) (hn : n < 2 ^ 31) :
    packPosNeg p n = if p % 2 = 0 then n else 2 ^ 64 - 2 ^ 31 + n := by
  have hbp : bitsInt_t (p : Int) = p := by unfold bitsInt_t; omega
  have hbn : bitsInt_t (n : Int) = n := by unfold bitsInt_t; omega
  have hsh : (p <<< 31) % 2 ^ 32 = 2 ^ 31 * (p % 2) := by
    rw [Nat.shiftLeft_eq, Nat.mul_comm p, show (2 : Nat) ^ 32 = 2 ^ 31 * 2 from rfl,
      Nat.mul_mod_mul_left]
  have hor : 2 ^ 31 * (p % 2) ||| n = 2 ^ 31 * (p % 2) + n :=
    (Nat.mul_add_lt_is_or hn (p % 2)).symm
  unfold packPosNeg
  simp only [hbp, hbn, hsh, hor]
  rcases Nat.mod_two_eq_zero_or_one p with h | h
  · rw [h, if_pos rfl, if_pos (by omega)]; omega
  · rw [h, if_neg (by omega), if_neg (by omega)]; omega

/-- Two pairs of the 31-bit domain get the same key exactly when their
negative indices agree and their positive indices have the same parity. -/
theorem packPosNeg_eq_iff (p n p1 n1 : Nat) (hp : p < 2 ^ 31) (hn : n < 2 ^ 31)
    (hp1 : p1 < 2 ^ 31) (hn1 : n1 < 2 ^ 31) :
    packPosNeg p n = packPosNeg p1 n1 ↔ p % 2 = p1 % 2 ∧ n = n1 := by
  rw [packPosNeg_eq p n hp hn, packPosNeg_eq p1 n1 hp1 hn1]
  rcases Nat.mod_two_eq_zero_or_one p with h | h <;>
    rcases Nat.mod_two_eq_zero_or_one p1 with h1 | h1 <;>
    simp only [h, h1] <;> constructor <;> intro hh <;> simp_all <;> omega

/-- C8, evaluated. The shift is done in 32 bits, so of the positive index only
the lowest bit survives: the pairs `(2, 5)` and `(0, 5)` get the same key `5`,
whereas the 64-bit packing `(p << 31) | n` would give `2 * 2^31 + 5` and `5`;
and the pair `(1, 9)` gets the sign-extended key `2^64 - 2^31 + 9`. -/
theorem packPosNeg_collision :
    packPosNeg 2 5 = 5 ∧ packPosNeg 0 5 = 5 ∧ ((2 <<< 31) ||| 5 : Nat) = 2 * 2 ^ 31 + 5 ∧
    packPosNeg 1 9 = 2 ^ 64 - 2 ^ 31 + 9 := by
  decide

/-- C5, evaluated. The V0 list `[(0,5), (2,5)]` has pairwise distinct pairs
with indices in range; the offline cascade with the pair `(2,5)` of the V0 at
position 1 gets `fV0ID = 0`, not `1 + fOffsetV0ID = 1`. -/
theorem cascade_of_colliding_pairs :
    (UserCreateOutputObjects sampleTask).fOffsetV0ID = 0 ∧
    Converter.fTree (runEvents sampleBuild (UserCreateOutputObjects sampleTask)
      [sampleInput 3 [some ⟨false, 0, 5⟩, some ⟨false, 2, 5⟩]
        [some ⟨false, 2, 5, 1⟩]]).task .kCascades = [Row.cascades 0 1] := by
  decide

/-- C6, evaluated. A cascade row is written although no offline V0 of the
event has the cascade's daughter pair: the cascade `(2,5)` is matched to the
V0 `(0,5)`, whose key is the same, and the cascade `(1,9)` is matched to an
on-the-fly V0. -/
theorem cascade_without_exact_match :
    Converter.fTree (runEvents sampleBuild (UserCreateOutputObjects sampleTask)
      [sampleInput 3 [some ⟨false, 0, 5⟩]
        [some ⟨false, 2, 5, 1⟩]]).task .kCascades = [Row.cascades 0 1] ∧
    Converter.fTree (runEvents sampleBuild (UserCreateOutputObjects sampleTask)
      [sampleInput 3 [some ⟨true, 1, 9⟩]
        [some ⟨false, 1, 9, 1⟩]]).task .kCascades = [Row.cascades 0 1] := by
  decide

/-- C7, evaluated. With an on-the-fly V0 ahead of the offline V0 `(3,4)`, the
V0 tree holds one entry (row 0) but the cascade built on `(3,4)` carries
`fV0ID = 1`, and `fOffsetV0ID` ends at 2. -/
theorem fV0ID_with_on_the_fly_V0 :
    (runEvents sampleBuild (UserCreateOutputObjects sampleTask)
      [sampleInput 3 [some ⟨true, 1, 2⟩, some ⟨false, 3, 4⟩]
        [some ⟨false, 3, 4, 0⟩]]).abort = none ∧
    Converter.fTree (runEvents sampleBuild (UserCreateOutputObjects sampleTask)
      [sampleInput 3 [some ⟨true, 1, 2⟩, some ⟨false, 3, 4⟩]
        [some ⟨false, 3, 4, 0⟩]]).task .kV0s = [Row.v0s 3 4] ∧
    Converter.fTree (runEvents sampleBuild (UserCreateOutputObjects sampleTask)
      [sampleInput 3 [some ⟨true, 1, 2⟩, some ⟨false, 3, 4⟩]
        [some ⟨false, 3, 4, 0⟩]]).task .kCascades = [Row.cascades 1 0] ∧
    (runEvents sampleBuild (UserCreateOutputObjects sampleTask)
      [sampleInput 3 [some ⟨true, 1, 2⟩, some ⟨false, 3, 4⟩]
        [some ⟨false, 3, 4, 0⟩]]).task.fOffsetV0ID = 2 := by
  decide

/-! ### The sort behind `TMath::Sort` -/

theorem insertionSort_SortSpec (a pre : List Nat) (hpre : pre.Perm (List.range a.length)) :
    (pre.insertionSort (fun i j => a.getD i 0 ≤ a.getD j 0)).Perm (List.range a.length) ∧
    List.Pairwise (fun x y => x ≤ y)
      ((pre.insertionSort (fun i j => a.getD i 0 ≤ a.getD j 0)).map (fun i => a.getD i 0)) := by
  haveI : IsTotal Nat (fun i j => a.getD i 0 ≤ a.getD j 0) := ⟨fun i j => Nat.le_total _ _⟩
  haveI : IsTrans Nat (fun i j => a.getD i 0 ≤ a.getD j 0) :=
    ⟨fun i j k h1 h2 => Nat.le_trans h1 h2⟩
  refine ⟨(List.perm_insertionSort _ pre).trans hpre, ?_⟩
  rw [List.pairwise_map]
  exact List.sorted_insertionSort (fun i j => a.getD i 0 ≤ a.getD j 0) pre

/-- The order-keeping sort does what `TMath::Sort` promises. -/
theorem stableSort_SortSpec : SortSpec stableSort :=
  fun a => insertionSort_SortSpec a _ (List.Perm.refl _)

theorem map_getD_range (l : List Nat) :
    (List.range l.length).map (fun i => l.getD i 0) = l := by
  apply List.ext_getElem
  · simp
  · intro i h1 h2
    simp [List.getD_eq_getElem?_getD, List.getElem?_eq_getElem h2]

theorem SortSpec.length {srt : List Nat → List Nat} (hs : SortSpec srt) (a : List Nat) :
    (srt a).length = a.length := by
  rw [(hs a).1.length_eq, List.length_range]

/-- Under the promise of `TMath::Sort`, `sortedPosNeg` is the key list read
along the index array. -/
theorem sortedKeys_eq_map {srt : List Nat → List Nat} (hs : SortSpec srt) (packed : List Nat) :
    sortedKeys packed (srt packed) = (srt packed).map (fun i => packed.getD i 0) := by
  unfold sortedKeys
  rw [← hs.length packed]
  conv_rhs => rw [← map_getD_range (srt packed)]
  rw [List.map_map]
  rfl

theorem sortedKeys_perm {srt : List Nat → List Nat} (hs : SortSpec srt) (packed : List Nat) :
    (sortedKeys packed (srt packed)).Perm packed := by
  rw [sortedKeys_eq_map hs]
  have := (hs packed).1.map (fun i => packed.getD i 0)
  rw [map_getD_range] at this
  exact this

theorem sortedKeys_sorted {srt : List Nat → List Nat} (hs : SortSpec srt) (packed : List Nat) :
    List.Pairwise (fun x y => x ≤ y) (sortedKeys packed (srt packed)) := by
  rw [sortedKeys_eq_map hs]
  exact (hs packed).2

/-! ### `TMath::BinarySearch` on ascending keys -/

theorem lower_bound_of_mem {l : List Nat} (hl : List.Pairwise (fun x y => x ≤ y) l) {k : Nat}
    (hk : k ∈ l) :
    TMath.lower_bound l k < l.length ∧ l.getD (TMath.lower_bound l k) 0 = k ∧
    ∀ i < TMath.lower_bound l k, l.getD i 0 < k := by
  induction l with
  | nil => simp at hk
  | cons x xs ih =>
    rw [List.pairwise_cons] at hl
    unfold TMath.lower_bound
    by_cases hx : x < k
    · have hk1 : k ∈ xs := by
        rcases List.mem_cons.mp hk with h | h
        · omega
        · exact h
      obtain ⟨i1, i2, i3⟩ := ih hl.2 hk1
      unfold TMath.lower_bound at i1 i2 i3
      rw [List.takeWhile_cons_of_pos (by simpa using hx)]
      refine ⟨by simpa using i1, by simpa using i2, ?_⟩
      intro i hi
      cases i with
      | zero => simpa using hx
      | succ j => simpa using i3 j (by simpa using hi)
    · have hxk : x = k := by
        rcases List.mem_cons.mp hk with h | h
        · exact h.symm
        · have := hl.1 k h
          omega
      rw [List.takeWhile_cons_of_neg (by simpa using hx)]
      simp [hxk]

theorem BinarySearch_of_mem {l : List Nat} (hl : List.Pairwise (fun x y => x ≤ y) l) {k : Nat}
    (hk : k ∈ l) : TMath.BinarySearch l k = (TMath.lower_bound l k : Int) := by
  obtain ⟨h1, h2, _⟩ := lower_bound_of_mem hl hk
  unfold TMath.BinarySearch
  simp only
  rw [if_pos ⟨by omega, h2⟩]

theorem lookupV0_of_mem {sorted : List Nat} (hl : List.Pairwise (fun x y => x ≤ y) sorted)
    (sortIdx : List Nat) {k : Nat} (hk : k ∈ sorted) :
    lookupV0 sorted sortIdx k = some (some (sortIdx.getD (TMath.lower_bound sorted k) 0)) := by
  obtain ⟨_, h2, _⟩ := lower_bound_of_mem hl hk
  unfold lookupV0
  simp only [BinarySearch_of_mem hl hk]
  rw [if_neg (by omega), Int.toNat_ofNat, if_pos h2]

/-! ### Which V0 a cascade key is resolved to (C9) -/

theorem getD_map_of_lt (l : List Nat) (f : Nat → Nat) {i : Nat} (h : i < l.length) :
    (l.map f).getD i 0 = f (l.getD i 0) := by
  rw [List.getD_eq_getElem _ _ (by simpa using h), List.getD_eq_getElem _ _ h]
  simp

theorem pair_sublist_positions {L : List Nat} {m j : Nat} (h : List.Sublist [m, j] L) :
    ∃ i1 i2, i1 < i2 ∧ i2 < L.length ∧ L.getD i1 0 = m ∧ L.getD i2 0 = j := by
  obtain ⟨r1, r2, rfl, hm, hj⟩ := List.cons_sublist_iff.mp h
  rw [List.singleton_sublist] at hj
  obtain ⟨n1, hn1, e1⟩ := List.mem_iff_getElem.mp hm
  obtain ⟨n2, hn2, e2⟩ := List.mem_iff_getElem.mp hj
  refine ⟨n1, r1.length + n2, by omega, by simp; omega, ?_, ?_⟩
  · rw [List.getD_append _ _ _ _ hn1, List.getD_eq_getElem _ _ hn1, e1]
  · rw [List.getD_append_right _ _ _ _ (by omega), Nat.add_sub_cancel_left,
      List.getD_eq_getElem _ _ hn2, e2]

theorem pair_sublist_range {m j : Nat} (n : Nat) (h1 : m < j) (h2 : j < n) :
    List.Sublist [m, j] (List.range n) := by
  induction n with
  | zero => omega
  | succ n ih =>
    rw [List.range_succ]
    by_cases hj : j < n
    · exact (ih hj).trans (List.sublist_append_left _ _)
    · have hjn : j = n := by omega
      subst hjn
      have hm : List.Sublist [m] (List.range j) := List.singleton_sublist.mpr (List.mem_range.mpr h1)
      exact hm.append (List.Sublist.refl [j])

theorem sortedKeys_getD {srt : List Nat → List Nat} (hs : SortSpec srt) (packed : List Nat)
    {i : Nat} (h : i < packed.length) :
    (sortedKeys packed (srt packed)).getD i 0 = packed.getD ((srt packed).getD i 0) 0 := by
  rw [sortedKeys_eq_map hs]
  exact getD_map_of_lt _ _ (by rw [hs.length]; exact h)

/-- Under the promise of `TMath::Sort`, a key that occurs among the V0 keys is
resolved to the V0 which the sort put first among those holding it: every
V0 earlier in the sorted order has a smaller key. -/
theorem lookupV0_first_in_sort_order {srt : List Nat → List Nat} (hs : SortSpec srt)
    (packed : List Nat) {k : Nat} (hk : k ∈ packed) :
    ∃ pos, pos < packed.length ∧
      lookupV0 (sortedKeys packed (srt packed)) (srt packed) k
        = some (some ((srt packed).getD pos 0)) ∧
      (srt packed).getD pos 0 < packed.length ∧
      packed.getD ((srt packed).getD pos 0) 0 = k ∧
      ∀ i < pos, packed.getD ((srt packed).getD i 0) 0 < k := by
  have hsorted := sortedKeys_sorted hs packed
  have hmem : k ∈ sortedKeys packed (srt packed) := (sortedKeys_perm hs packed).mem_iff.mpr hk
  obtain ⟨h1, h2, h3⟩ := lower_bound_of_mem hsorted hmem
  have hlen : (sortedKeys packed (srt packed)).length = packed.length :=
    (sortedKeys_perm hs packed).length_eq
  have hlen2 := hs.length packed
  rw [hlen] at h1
  refine ⟨TMath.lower_bound (sortedKeys packed (srt packed)) k, h1,
    lookupV0_of_mem hsorted _ hmem, ?_, ?_, ?_⟩
  · have : (srt packed).getD (TMath.lower_bound (sortedKeys packed (srt packed)) k) 0
        ∈ srt packed := by
      rw [List.getD_eq_getElem _ _ (by omega)]
      exact List.getElem_mem _
    have := (hs packed).1.mem_iff.mp this
    simpa using this
  · rw [sortedKeys_getD hs packed h1] at h2
    exact h2
  · intro i hi
    have := h3 i hi
    rw [sortedKeys_getD hs packed (by omega)] at this
    exact this

/-- With the order-keeping sort the V0 a key is resolved to is the one with
the smallest list position among those holding the key. -/
theorem lookupV0_stableSort (packed : List Nat) {k : Nat} (hk : k ∈ packed) :
    ∃ j, j < packed.length ∧
      lookupV0 (sortedKeys packed (stableSort packed)) (stableSort packed) k = some (some j) ∧
      packed.getD j 0 = k ∧ ∀ i < j, packed.getD i 0 ≠ k := by
  obtain ⟨pos, hpos, hlook, hj, hkey, hbefore⟩ :=
    lookupV0_first_in_sort_order stableSort_SortSpec packed hk
  refine ⟨_, hj, hlook, hkey, ?_⟩
  intro i hi hik
  have hsub : List.Sublist [i, (stableSort packed).getD pos 0] (stableSort packed) :=
    List.pair_sublist_insertionSort (r := fun i j => packed.getD i 0 ≤ packed.getD j 0)
      (by simp only [hik, hkey]; exact Nat.le_refl k) (pair_sublist_range _ hi hj)
  obtain ⟨i1, i2, h12, h2, e1, e2⟩ := pair_sublist_positions hsub
  have hlen := stableSort_SortSpec.length packed
  have hnodup : (stableSort packed).Nodup :=
    (stableSort_SortSpec packed).1.nodup_iff.mpr (List.nodup_range _)
  have hi2 : i2 = pos := by
    rw [List.getD_eq_getElem _ _ h2, List.getD_eq_getElem _ _ (by omega : pos < _)] at e2
    exact (hnodup.getElem_inj_iff).mp e2
  have := hbefore i1 (by omega)
  rw [e1, hik] at this
  omega

theorem lower_bound_le_length (l : List Nat) (k : Nat) : TMath.lower_bound l k ≤ l.length := by
  unfold TMath.lower_bound
  exact (List.takeWhile_sublist _).length_le

/-- A matched lookup means the key is among the sorted keys. -/
theorem lookupV0_some_mem {sorted sortIdx : List Nat} {k j : Nat}
    (h : lookupV0 sorted sortIdx k = some (some j)) : k ∈ sorted := by
  unfold lookupV0 at h
  simp only at h
  split at h
  · simp at h
  · rename_i hneg
    split at h
    · rename_i heq
      have hlt : (TMath.BinarySearch sorted k).toNat < sorted.length := by
        have hle := lower_bound_le_length sorted k
        unfold TMath.BinarySearch at hneg ⊢
        simp only at hneg ⊢
        split
        · rename_i hc
          rw [Int.toNat_ofNat]
          omega
        · rename_i hc
          rw [if_neg hc] at hneg
          omega
      rw [List.getD_eq_getElem _ _ hlt] at heq
      rw [← heq]
      exact List.getElem_mem _
    · simp at h

theorem cascadeRows_spec (offV0 offTrack : Int) (sorted sortIdx : List Nat)
    (l : List (Option AliESDcascade)) :
    ∀ r ∈ (cascadeRows offV0 offTrack sorted sortIdx l).rows,
      ∃ cas j, some cas ∈ l ∧ cas.fOnFlyStatus = false ∧
        lookupV0 sorted sortIdx (packPosNeg cas.fPindex cas.fNindex) = some (some j) ∧
        r = Row.cascades ((j : Int) + offV0) (cas.fBindex + offTrack) := by
  induction l with
  | nil => intro r hr; simp [cascadeRows] at hr
  | cons v rest ih =>
    intro r hr
    have lift : (∃ cas j, some cas ∈ rest ∧ cas.fOnFlyStatus = false ∧
        lookupV0 sorted sortIdx (packPosNeg cas.fPindex cas.fNindex) = some (some j) ∧
        r = Row.cascades ((j : Int) + offV0) (cas.fBindex + offTrack)) →
        ∃ cas j, some cas ∈ v :: rest ∧ cas.fOnFlyStatus = false ∧
        lookupV0 sorted sortIdx (packPosNeg cas.fPindex cas.fNindex) = some (some j) ∧
        r = Row.cascades ((j : Int) + offV0) (cas.fBindex + offTrack) := by
      rintro ⟨cas, j, hm, hrest⟩
      exact ⟨cas, j, List.mem_cons_of_mem _ hm, hrest⟩
    cases v with
    | none => rw [cascadeRows] at hr; exact lift (ih r hr)
    | some cas =>
      rw [cascadeRows] at hr
      by_cases hfly : cas.fOnFlyStatus = true
      · simp only [hfly, Bool.not_true, Bool.false_eq_true, if_false] at hr
        exact lift (ih r hr)
      · simp only [hfly, Bool.not_false, if_true] at hr
        cases hlook : lookupV0 sorted sortIdx (packPosNeg cas.fPindex cas.fNindex) with
        | none => simp [hlook] at hr
        | some res =>
          cases res with
          | none => simp only [hlook] at hr; exact lift (ih r hr)
          | some j =>
            simp only [hlook] at hr
            cases h1 : addInt_t j offV0 with
            | none => simp [h1] at hr
            | some a =>
              cases h2 : addInt_t cas.fBindex offTrack with
              | none => simp [h1, h2] at hr
              | some c =>
                simp only [h1, h2] at hr
                rcases Emit.mem_seq hr with hr | hr
                · simp only [List.mem_singleton] at hr
                  refine ⟨cas, j, List.mem_cons_self _ _, by simpa using hfly, hlook, ?_⟩
                  rw [hr, (addInt_t_eq_some h1).1, (addInt_t_eq_some h2).1]
                · exact lift (ih r hr)

/-- Every cascade row carries the answer of the lookup for the key of an
offline cascade of the event. -/
theorem cascade_resolution_rows {b : Build} (hs : SortSpec b.TMathSort) (fOffsetV0ID
    fOffsetTrackID : Int) (fESD : AliESDEvent) (packed : List Nat)
    (hp : packedPosNeg fESD.v0s = some packed) :
    ∀ r ∈ (cascadeBlock b fOffsetV0ID fOffsetTrackID fESD).rows,
      ∃ cas j, some cas ∈ fESD.cascades ∧ cas.fOnFlyStatus = false ∧
        packPosNeg cas.fPindex cas.fNindex ∈ packed ∧
        lookupV0 (sortedKeys packed (b.TMathSort packed)) (b.TMathSort packed)
          (packPosNeg cas.fPindex cas.fNindex) = some (some j) ∧
        r = Row.cascades ((j : Int) + fOffsetV0ID) (cas.fBindex + fOffsetTrackID) := by
  intro r hr
  unfold cascadeBlock at hr
  simp only [hp] at hr
  split at hr
  · obtain ⟨cas, j, hm, hfly, hlook, hrow⟩ := cascadeRows_spec _ _ _ _ _ r hr
    exact ⟨cas, j, hm, hfly,
      (sortedKeys_perm hs packed).mem_iff.mp (lookupV0_some_mem hlook), hlook, hrow⟩
  · simp at hr

/-- C9, as the code has it. Whatever conforming sort stands behind
`TMath::Sort`, the lookup is a function of the V0 keys, the cascade key and
the sort: a key that occurs among the V0 keys is resolved to the V0 which the
sort put first among those holding it (all V0s before it in the sorted order
have smaller keys), and every cascade row comes from an offline cascade and
carries `fOffsetV0ID` plus the list position the lookup returned for the
cascade's key. When the sort leaves equal keys in their original order, the V0
returned is the one with the smallest list position among those holding the
key. -/
theorem cascade_resolution (b : Build) (hs : SortSpec b.TMathSort) (fOffsetV0ID
    fOffsetTrackID : Int) (fESD : AliESDEvent) (packed : List Nat)
    (hp : packedPosNeg fESD.v0s = some packed) :
    (∀ k ∈ packed, ∃ pos, pos < packed.length ∧
      lookupV0 (sortedKeys packed (b.TMathSort packed)) (b.TMathSort packed) k
        = some (some ((b.TMathSort packed).getD pos 0)) ∧
      packed.getD ((b.TMathSort packed).getD pos 0) 0 = k ∧
      (∀ i < pos, packed.getD ((b.TMathSort packed).getD i 0) 0 < k) ∧
      (b.TMathSort packed = stableSort packed →
        ∀ i < (b.TMathSort packed).getD pos 0, packed.getD i 0 ≠ k)) ∧
    ∀ r ∈ (cascadeBlock b fOffsetV0ID fOffsetTrackID fESD).rows,
      ∃ cas j, some cas ∈ fESD.cascades ∧ cas.fOnFlyStatus = false ∧
        packPosNeg cas.fPindex cas.fNindex ∈ packed ∧
        lookupV0 (sortedKeys packed (b.TMathSort packed)) (b.TMathSort packed)
          (packPosNeg cas.fPindex cas.fNindex) = some (some j) ∧
        r = Row.cascades ((j : Int) + fOffsetV0ID) (cas.fBindex + fOffsetTrackID) := by
  constructor
  · intro k hk
    obtain ⟨pos, hpos, hlook, _, hkey, hbefore⟩ := lookupV0_first_in_sort_order hs packed hk
    refine ⟨pos, hpos, hlook, hkey, hbefore, ?_⟩
    intro hst
    obtain ⟨j2, _, hl2, _, hmin⟩ := lookupV0_stableSort packed hk
    rw [← hst, hlook] at hl2
    simp only [Option.some.injEq] at hl2
    rw [hl2]
    exact hmin
  · exact cascade_resolution_rows hs _ _ _ _ hp

/-- C9 on the V0 list `[(1,9), (5,2), (1,9)]` with the order-keeping sort: the
cascade `(1,9)` is resolved to position 0. -/
theorem cascade_resolution_witness :
    SortSpec sampleBuild.TMathSort ∧
    packedPosNeg [some ⟨false, 1, 9⟩, some ⟨false, 5, 2⟩, some ⟨false, 1, 9⟩]
      = some [2 ^ 64 - 2 ^ 31 + 9, 2 ^ 64 - 2 ^ 31 + 2, 2 ^ 64 - 2 ^ 31 + 9] ∧
    (cascadeBlock sampleBuild 0 0 (sampleEvent 3
      [some ⟨false, 1, 9⟩, some ⟨false, 5, 2⟩, some ⟨false, 1, 9⟩]
      [some ⟨false, 1, 9, 4⟩])).rows = [Row.cascades 0 4] ∧
    ∀ r ∈ (cascadeBlock sampleBuild 0 0 (sampleEvent 3
      [some ⟨false, 1, 9⟩, some ⟨false, 5, 2⟩, some ⟨false, 1, 9⟩]
      [some ⟨false, 1, 9, 4⟩])).rows, ∃ cas, some cas ∈ [some (⟨false, 1, 9, 4⟩ : AliESDcascade)] ∧
        cas.fOnFlyStatus = false :=
  ⟨stableSort_SortSpec, by decide, by decide, fun r hr =>
    ((cascade_resolution sampleBuild stableSort_SortSpec 0 0 (sampleEvent 3
      [some ⟨false, 1, 9⟩, some ⟨false, 5, 2⟩, some ⟨false, 1, 9⟩]
      [some ⟨false, 1, 9, 4⟩])
      [2 ^ 64 - 2 ^ 31 + 9, 2 ^ 64 - 2 ^ 31 + 2, 2 ^ 64 - 2 ^ 31 + 9] (by decide)).2 r hr).imp
      (fun _ h => h.elim (fun _ h => ⟨h.1, h.2.1⟩))⟩

set_option maxRecDepth 100000 in
/-- C9 as stated fails with the `std::sort` of libstdc++ behind `TMath::Sort`:
the 40 V0s `(2k+1, 9)` share the packed key of `(1, 9)`; on 40 equal keys the
sort leaves the index array starting with `30` (on two equal keys it leaves
`[0, 1]`), and the cascade `(1, 9)` gets `fV0ID = 30`, not the smallest list
position `0`. -/
theorem tie_break_of_std_sort :
    packedPosNeg sampleTiedV0s = some (List.replicate 40 (2 ^ 64 - 2 ^ 31 + 9)) ∧
    TMathSort_libstdcxx (List.replicate 40 (2 ^ 64 - 2 ^ 31 + 9))
      = [30, 21, 22, 23, 24, 25, 26, 27, 28, 29, 20, 31, 32, 33, 34, 35, 36, 37, 38, 39,
         10, 1, 2, 3, 4, 5, 6, 7, 8, 9, 0, 11, 12, 13, 14, 15, 16, 17, 18, 19] ∧
    TMathSort_libstdcxx [2 ^ 64 - 2 ^ 31 + 9, 2 ^ 64 - 2 ^ 31 + 9] = [0, 1] ∧
    Converter.fTree (runEvents libstdcxxBuild (UserCreateOutputObjects sampleTask)
      [sampleInput 3 sampleTiedV0s [some ⟨false, 1, 9, 4⟩]]).task .kCascades
      = [Row.cascades 30 4] := by
  refine ⟨by decide, by decide, by decide, by decide⟩

/-- Whatever conforming sort stands behind `TMath::Sort`, the two cascades
built on the V0s `(0,5)` and `(2,5)` of the list `[(0,5), (2,5)]` cannot both
be resolved to their own V0: both keys are 5, and one key has one answer. -/
theorem colliding_pairs_any_sort (b : Build) (hs : SortSpec b.TMathSort) :
    (cascadeBlock b 0 0 (sampleEvent 3 [some ⟨false, 0, 5⟩, some ⟨false, 2, 5⟩]
      [some ⟨false, 0, 5, 1⟩, some ⟨false, 2, 5, 1⟩])).rows
      ≠ [Row.cascades 0 1, Row.cascades 1 1] := by
  intro hrows
  have hres := (cascade_resolution_rows hs 0 0 (sampleEvent 3
    [some ⟨false, 0, 5⟩, some ⟨false, 2, 5⟩]
    [some ⟨false, 0, 5, 1⟩, some ⟨false, 2, 5, 1⟩]) [5, 5] (by decide))
  rw [hrows] at hres
  have key5 : ∀ cas : AliESDcascade, some cas ∈ (sampleEvent 3
      [some ⟨false, 0, 5⟩, some ⟨false, 2, 5⟩]
      [some ⟨false, 0, 5, 1⟩, some ⟨false, 2, 5, 1⟩]).cascades →
      packPosNeg cas.fPindex cas.fNindex = 5 := by
    intro cas hc
    simp only [sampleEvent, List.mem_cons, Option.some.injEq, List.mem_singleton,
      List.not_mem_nil, or_false] at hc
    rcases hc with rfl | rfl <;> decide
  obtain ⟨c0, j0, hm0, _, _, hl0, hr0⟩ := hres (Row.cascades 0 1) (by simp)
  obtain ⟨c1, j1, hm1, _, _, hl1, hr1⟩ := hres (Row.cascades 1 1) (by simp)
  rw [key5 c0 hm0] at hl0
  rw [key5 c1 hm1, hl0] at hl1
  simp only [Option.some.injEq] at hl1
  simp only [Row.cascades.injEq] at hr0 hr1
  omega

/-! ### The ZDC flags (C19) -/

/-- C19. The ZDC row never has a bit of `fFired` set: the member is zeroed and
the six `zdc.fFired | (0x1 << k)` expressions are evaluated without being
stored, so `fFired` is `0` whatever the hits are. For an event whose only hit
is ZNA, the ZDC row carries `fFired = 0`, where bit 0 was to be set. -/
theorem zdc_fFired_is_zero :
    (∀ esdzdc, zdcFired esdzdc = 0) ∧
    Converter.fTree (UserExec sampleBuild (UserCreateOutputObjects sampleTask)
      { sampleInput 0 [] [] with
        InputEvent := some { sampleEvent 0 [] [] with
          zdc := ⟨true, false, false, false, false, false⟩ } }).task .kZdc
      = [Row.zdc 1 0] ∧
    (zdcFired ⟨true, false, false, false, false, false⟩).testBit 0 = false :=
  ⟨fun _ => rfl, by decide, by decide⟩

/-! ### The packed covariance matrix (C20) -/

theorem covarianceIndex_injective :
    ∀ i j i1 j1, j ≤ i → i < 5 → j1 ≤ i1 → i1 < 5 →
      covarianceIndex i j = covarianceIndex i1 j1 → i = i1 ∧ j = j1 := by
  intro i j i1 j1 hj hi hj1 hi1 h
  unfold covarianceIndex at h
  interval_cases i <;> interval_cases i1 <;> simp at h <;> omega

theorem covarianceIndex_image (k : Nat) :
    k < 15 ↔ ∃ i j, j ≤ i ∧ i < 5 ∧ covarianceIndex i j = k := by
  constructor
  · intro hk
    interval_cases k
    · exact ⟨0, 0, by decide⟩
    · exact ⟨1, 0, by decide⟩
    · exact ⟨1, 1, by decide⟩
    · exact ⟨2, 0, by decide⟩
    · exact ⟨2, 1, by decide⟩
    · exact ⟨2, 2, by decide⟩
    · exact ⟨3, 0, by decide⟩
    · exact ⟨3, 1, by decide⟩
    · exact ⟨3, 2, by decide⟩
    · exact ⟨3, 3, by decide⟩
    · exact ⟨4, 0, by decide⟩
    · exact ⟨4, 1, by decide⟩
    · exact ⟨4, 2, by decide⟩
    · exact ⟨4, 3, by decide⟩
    · exact ⟨4, 4, by decide⟩
  · rintro ⟨i, j, hj, hi, rfl⟩
    unfold covarianceIndex
    interval_cases i <;> simp <;> omega

/-- Writing the values `vals` one after the other at the positions
`pre.length, pre.length + 1, ..` replaces that stretch of the array. -/
theorem foldl_set_range {α : Type} (vals pre arr : List α) (h : vals.length ≤ arr.length) :
    ((List.range' pre.length vals.length).zip vals).foldl
      (fun a kv => a.set kv.1 kv.2) (pre ++ arr) = pre ++ vals ++ arr.drop vals.length := by
  induction vals generalizing pre arr with
  | nil => simp
  | cons v vs ih =>
    cases arr with
    | nil => simp at h
    | cons a as =>
      simp only [List.length_cons, List.range'_succ, List.zip_cons_cons, List.foldl_cons,
        List.drop_succ_cons]
      have : (pre ++ a :: as).set pre.length v = (pre ++ [v]) ++ as := by
        simp [List.set_append]
      rw [this]
      have := ih (pre ++ [v]) as (by simpa using h)
      simp only [List.length_append, List.length_singleton] at this
      rw [this]
      simp

/-- After the covariance loop the array holds the values `cov(i, j)` in the
order the loop visited them. -/
theorem packCovariances_eq {α : Type} (cov : Nat → Nat → α) (fCovariances : List α)
    (h : fCovariances.length = 15) :
    packCovariances cov fCovariances = covarianceLoop.map (fun ij => cov ij.1 ij.2) := by
  have e : covarianceLoop.map (fun ij => (covarianceIndex ij.1 ij.2, cov ij.1 ij.2))
      = (List.range' 0 15).zip (covarianceLoop.map (fun ij => cov ij.1 ij.2)) := by
    rfl
  have hl : (covarianceLoop.map (fun ij => cov ij.1 ij.2)).length = 15 := by
    rw [List.length_map]; rfl
  have := foldl_set_range (covarianceLoop.map (fun ij => cov ij.1 ij.2)) [] fCovariances
    (by rw [h, hl])
  rw [hl] at this
  simp only [List.length_nil, List.nil_append] at this
  rw [← e, List.foldl_map] at this
  unfold packCovariances
  rw [this, List.drop_of_length_le (by omega)]
  simp

/-- C20. The covariance packing of a muon track: on `0 ≤ j ≤ i < 5` the index
map `(i, j) ↦ i*(i+1)/2 + j` is injective and its image is exactly
`{0, .., 14}`; the loop writes the positions `0, 1, .., 14` in this order, each
once; and after the loop the array has its 15 entries with `cov(i, j)` at
position `i*(i+1)/2 + j`, whatever it held before. -/
theorem covariance_packing {α : Type} (cov : Nat → Nat → α) (fCovariances : List α)
    (h : fCovariances.length = 15) :
    (∀ i j i1 j1, j ≤ i → i < 5 → j1 ≤ i1 → i1 < 5 →
      covarianceIndex i j = covarianceIndex i1 j1 → i = i1 ∧ j = j1) ∧
    (∀ k, k < 15 ↔ ∃ i j, j ≤ i ∧ i < 5 ∧ covarianceIndex i j = k) ∧
    covarianceLoop.map (fun ij => covarianceIndex ij.1 ij.2) = List.range 15 ∧
    (packCovariances cov fCovariances).length = 15 ∧
    ∀ i j, j ≤ i → i < 5 →
      (packCovariances cov fCovariances)[covarianceIndex i j]? = some (cov i j) := by
  refine ⟨covarianceIndex_injective, covarianceIndex_image, by decide, ?_, ?_⟩
  · rw [packCovariances_eq cov _ h, List.length_map]; rfl
  · intro i j hj hi
    rw [packCovariances_eq cov _ h]
    unfold covarianceIndex
    interval_cases i <;> interval_cases j <;> rfl

/-- C20 on an array of zeros and `cov(i, j) = 10*i + j`: position
`3*4/2 + 1 = 7` holds `cov(3, 1) = 31`. -/
theorem covariance_packing_witness :
    (List.replicate 15 (0 : Nat)).length = 15 ∧
    covarianceIndex 3 1 = 7 ∧
    (packCovariances (fun i j => 10 * i + j) (List.replicate 15 0))[covarianceIndex 3 1]?
      = some 31 :=
  ⟨by decide, by decide, (covariance_packing (fun i j => 10 * i + j) (List.replicate 15 0)
    (by decide)).2.2.2.2 3 1 (by decide) (by decide)⟩

/-! ### Where a call of `UserExec` can stop -/

theorem UserExec_eq_processEvent {b : Build} {c : Converter} {inp : Input}
    {fESD : AliESDEvent} (hin : inp.InputEvent = some fESD) (hr : rejected c inp = false) :
    UserExec b c inp = processEvent b c inp fESD := by
  unfold rejected at hr
  simp [UserExec, hin, hr]

theorem Emit.seq_abort_some {a b : Emit} {x : Abort} (h : (a.seq b).abort = some x) :
    a.abort = some x ∨ b.abort = some x := by
  unfold Emit.seq at h
  cases ha : a.abort with
  | none => simp only [ha] at h; exact Or.inr h
  | some y => simp only [ha] at h; exact Or.inl h

theorem muonRows_abort (eventID off : Int) (l : List AliESDMuonTrack) (imu : Nat) (x : Abort)
    (h : (muonRows eventID off imu l).abort = some x) : x = .undefinedBehaviour := by
  induction l generalizing imu with
  | nil => simp [muonRows] at h
  | cons mutrk rest ih =>
    rw [muonRows] at h
    cases ha : addInt_t off imu with
    | none => simp only [ha, Option.some.injEq] at h; exact h.symm
    | some id =>
      simp only [ha] at h
      rcases Emit.seq_abort_some h with h | h
      · simp at h
      · exact ih _ h

theorem v0Rows_abort (off : Int) (l : List (Option AliESDv0)) (x : Abort)
    (h : (v0Rows off l).abort = some x) : x = .undefinedBehaviour := by
  induction l with
  | nil => simp [v0Rows] at h
  | cons v rest ih =>
    cases v with
    | none => rw [v0Rows] at h; exact ih h
    | some v0 =>
      rw [v0Rows] at h
      by_cases hfly : v0.fOnFlyStatus = true
      · simp only [hfly, Bool.not_true, Bool.false_eq_true, if_false] at h
        exact ih h
      · simp only [hfly, Bool.not_false, if_true] at h
        cases hp : v0TrackID off v0.fPindex with
        | none => simp only [hp, Option.some.injEq] at h; exact h.symm
        | some p =>
          cases hn : v0TrackID off v0.fNindex with
          | none => simp only [hp, hn, Option.some.injEq] at h; exact h.symm
          | some n =>
            simp only [hp, hn] at h
            rcases Emit.seq_abort_some h with h | h
            · simp at h
            · exact ih h

theorem cascadeRows_abort (offV0 offTrack : Int) (sorted sortIdx : List Nat)
    (l : List (Option AliESDcascade)) (x : Abort)
    (h : (cascadeRows offV0 offTrack sorted sortIdx l).abort = some x) :
    x = .undefinedBehaviour := by
  induction l with
  | nil => simp [cascadeRows] at h
  | cons v rest ih =>
    cases v with
    | none => rw [cascadeRows] at h; exact ih h
    | some cas =>
      rw [cascadeRows] at h
      by_cases hfly : cas.fOnFlyStatus = true
      · simp only [hfly, Bool.not_true, Bool.false_eq_true, if_false] at h
        exact ih h
      · simp only [hfly, Bool.not_false, if_true] at h
        rcases hl : lookupV0 sorted sortIdx (packPosNeg cas.fPindex cas.fNindex)
          with _ | _ | pos
        · simp only [hl, Option.some.injEq] at h; exact h.symm
        · simp only [hl] at h; exact ih h
        · simp only [hl] at h
          cases h1 : addInt_t pos offV0 with
          | none => simp only [h1, Option.some.injEq] at h; exact h.symm
          | some id =>
            cases h2 : addInt_t cas.fBindex offTrack with
            | none => simp only [h1, h2, Option.some.injEq] at h; exact h.symm
            | some bid =>
              simp only [h1, h2] at h
              rcases Emit.seq_abort_some h with h | h
              · simp at h
              · exact ih h

theorem cascadeBlock_abort (b : Build) (offV0 offTrack : Int) (fESD : AliESDEvent) (x : Abort)
    (h : (cascadeBlock b offV0 offTrack fESD).abort = some x) : x = .undefinedBehaviour := by
  unfold cascadeBlock at h
  simp only at h
  split at h
  · cases hp : packedPosNeg fESD.v0s with
    | none => simp only [hp, Option.some.injEq] at h; exact h.symm
    | some packed => simp only [hp] at h; exact cascadeRows_abort _ _ _ _ _ _ h
  · simp at h

/-- The stretches from the first `FillTree` on stop only where the source has
undefined behaviour. -/
theorem eventRows_abort {b : Build} {c : Converter} {fESD : AliESDEvent} {eventID : Int}
    {MCEvt : Option AliMCEvent} {x : Abort}
    (h : (eventRows b c fESD eventID MCEvt).abort = some x) : x = .undefinedBehaviour := by
  unfold eventRows at h
  rcases Emit.seq_abort_some h with h | h
  · rcases Emit.seq_abort_some h with h | h
    · rcases Emit.seq_abort_some h with h | h
      · rcases Emit.seq_abort_some h with h | h
        · rcases Emit.seq_abort_some h with h | h
          · rcases Emit.seq_abort_some h with h | h
            · rcases Emit.seq_abort_some h with h | h
              · rcases Emit.seq_abort_some h with h | h
                · rcases Emit.seq_abort_some h with h | h
                  · rcases Emit.seq_abort_some h with h | h
                    · simp at h
                    · simp at h
                  · simp at h
                · simp at h
              · simp at h
            · exact muonRows_abort _ _ _ _ _ h
          · simp at h
        · simp at h
      · exact v0Rows_abort _ _ _ h
    · exact cascadeBlock_abort _ _ _ _ _ h
  · simp at h

theorem updateOffsets_abort {c : Converter} {ntrk nmu nv0 : Nat} {x : Abort}
    (h : (updateOffsets c ntrk nmu nv0).abort = some x) : x = .undefinedBehaviour := by
  unfold updateOffsets at h
  cases ht : addInt_t c.fOffsetTrackID ntrk with
  | none => simp only [ht, Option.some.injEq] at h; exact h.symm
  | some t =>
    simp only [ht] at h
    cases hm : addInt_t c.fOffsetMuTrackID nmu with
    | none => simp only [hm, Option.some.injEq] at h; exact h.symm
    | some m =>
      simp only [hm] at h
      cases hv : addInt_t c.fOffsetV0ID nv0 with
      | none => simp only [hv, Option.some.injEq] at h; exact h.symm
      | some v => simp [hv] at h

theorem fillEvent_abort {b : Build} {c : Converter} {fESD : AliESDEvent} {eventID : Int}
    {MCEvt : Option AliMCEvent} {x : Abort}
    (h : (fillEvent b c fESD eventID MCEvt).abort = some x) : x = .undefinedBehaviour := by
  unfold fillEvent at h
  simp only at h
  cases he : (eventRows b c fESD eventID MCEvt).abort with
  | some a =>
    simp only [he, Option.some.injEq] at h
    subst h
    exact eventRows_abort he
  | none =>
    simp only [he] at h
    exact updateOffsets_abort h

theorem generatorStage_abort {b : Build} {id : Nat} {MCEvt : Option AliMCEvent} {x : Abort}
    (h : (generatorStage b id MCEvt).2 = some x) :
    x = .fatalMCVertex ∨ x = .undefinedBehaviour := by
  unfold generatorStage at h
  cases MCEvt with
  | none => simp at h
  | some ev =>
    simp only at h
    split at h
    · unfold generatorBlock at h
      split at h
      · simp only [Option.some.injEq] at h; exact Or.inl h.symm
      · simp only at h
        split at h
        · split at h
          · simp only [Option.some.injEq] at h; exact Or.inr h.symm
          · simp at h
        · simp at h
    · simp at h

/-! ### The vertex test and the momentum-bin loop (C15, C16) -/

theorem eventTimeLoop_abort_iff (masks : List Nat) (i m : Nat) (hi : i ≤ 10) :
    (eventTimeLoop i masks m).2 = some .fatalIndexTooHigh ↔ 10 < i + masks.length := by
  induction masks generalizing i m with
  | nil => simp [eventTimeLoop]; omega
  | cons x rest ih =>
    rw [eventTimeLoop]
    by_cases h : i ≥ 10
    · rw [if_pos h]
      simp only [List.length_cons]
      exact ⟨fun _ => by omega, fun _ => trivial⟩
    · rw [if_neg h, ih _ _ (by omega)]
      simp only [List.length_cons]
      omega

theorem eventTimeLoop_abort_cases (masks : List Nat) (i m : Nat) (x : Abort)
    (h : (eventTimeLoop i masks m).2 = some x) : x = .fatalIndexTooHigh := by
  induction masks generalizing i m with
  | nil => simp [eventTimeLoop] at h
  | cons y rest ih =>
    rw [eventTimeLoop] at h
    by_cases hi : i ≥ 10
    · simp only [hi, if_true, Option.some.injEq] at h; exact h.symm
    · simp only [hi, if_false] at h
      exact ih _ _ h

/-- The mask the loop leaves is the mask after the bins below 10. -/
theorem eventTimeLoop_take (masks : List Nat) (i m : Nat) (hi : i ≤ 10) :
    (eventTimeLoop i masks m).1 = (eventTimeLoop i (masks.take (10 - i)) m).1 := by
  induction masks generalizing i m with
  | nil => simp
  | cons y rest ih =>
    by_cases h : i ≥ 10
    · have : 10 - i = 0 := by omega
      simp [this, eventTimeLoop, h]
    · have : 10 - i = (10 - (i + 1)) + 1 := by omega
      rw [this, List.take_succ_cons]
      simp only [eventTimeLoop, h, if_false]
      exact ih _ _ (by omega)

/-- The bins below 10 never stop the loop. -/
theorem eventTimeLoop_take_ok (masks : List Nat) (i m : Nat) (hi : i ≤ 10) :
    (eventTimeLoop i (masks.take (10 - i)) m).2 = none := by
  cases h : (eventTimeLoop i (masks.take (10 - i)) m).2 with
  | none => rfl
  | some x =>
    have hx := eventTimeLoop_abort_cases _ _ _ _ h
    subst hx
    rw [eventTimeLoop_abort_iff _ _ _ hi, List.length_take] at h
    omega

/-- The momentum-bin loop writes no array entry at an index of 10 or more. -/
theorem fillEventTime_high (bins : List (ℚ × ℚ)) (i : Nat) (a : EventTimeArrays) (k : Nat)
    (hk : 10 ≤ k) :
    (fillEventTime i bins a).eventTime[k]? = a.eventTime[k]? ∧
    (fillEventTime i bins a).eventTimeRes[k]? = a.eventTimeRes[k]? ∧
    (fillEventTime i bins a).eventTimeWeight[k]? = a.eventTimeWeight[k]? := by
  induction bins generalizing i a with
  | nil => simp [fillEventTime]
  | cons p rest ih =>
    obtain ⟨t, r⟩ := p
    rw [fillEventTime]
    by_cases h : i ≥ 10
    · simp [h]
    · simp only [h, if_false]
      obtain ⟨h1, h2, h3⟩ := ih (i + 1)
        { eventTime := a.eventTime.set i t, eventTimeRes := a.eventTimeRes.set i r,
          eventTimeWeight := a.eventTimeWeight.set i (1 / (r * r)) }
      rw [h1, h2, h3]
      have hne : i ≠ k := by omega
      simp [List.getElem?_set_ne hne]

/-- An accepted event without a primary vertex stops `prepareEvent` with the
state untouched: at the vertex test, or before it for want of the MC event. -/
theorem prepareEvent_no_vertex (b : Build) (c : Converter) (inp : Input) (fESD : AliESDEvent)
    (hv : fESD.hasPrimaryVertex = false) :
    prepareEvent b c inp fESD = .error ⟨c, some (match mcEvent c inp with
      | .error a => a
      | .ok _ => .fatalVertex)⟩ := by
  unfold prepareEvent
  cases mcEvent c inp with
  | error a => rfl
  | ok MCEvt => simp [hv]

theorem mcEvent_error {c : Converter} {inp : Input} {a : Abort}
    (h : mcEvent c inp = .error a) : a = .fatalMCHandler ∨ a = .fatalMCEvent := by
  unfold mcEvent at h
  split at h
  · rcases hm : inp.MCtruthEventHandler with _ | _ | ev
    · simp only [hm, Except.error.injEq] at h; exact Or.inl h.symm
    · simp only [hm, Except.error.injEq] at h; exact Or.inr h.symm
    · simp [hm] at h
  · simp at h

/-- C15. For an event that is present and not rejected by the acceptance
filter, without a primary vertex: `UserExec` aborts with a fatal message (the
one of the vertex test, or in MC mode the one for a missing MC handler or MC
event, which are tested first) and leaves the task as it was, so no row has
been appended to any tree and the three offsets are unchanged. -/
theorem UserExec_without_vertex (b : Build) (c : Converter) (inp : Input)
    (fESD : AliESDEvent) (hin : inp.InputEvent = some fESD) (hr : rejected c inp = false)
    (hv : fESD.hasPrimaryVertex = false) :
    ((UserExec b c inp).abort = some .fatalVertex ∨
      (UserExec b c inp).abort = some .fatalMCHandler ∨
      (UserExec b c inp).abort = some .fatalMCEvent) ∧
    (∀ MCEvt, mcEvent c inp = .ok MCEvt → (UserExec b c inp).abort = some .fatalVertex) ∧
    (UserExec b c inp).task = c ∧
    (∀ t, (UserExec b c inp).task.fTree t = c.fTree t) ∧
    (UserExec b c inp).task.fOffsetTrackID = c.fOffsetTrackID ∧
    (UserExec b c inp).task.fOffsetMuTrackID = c.fOffsetMuTrackID ∧
    (UserExec b c inp).task.fOffsetV0ID = c.fOffsetV0ID := by
  rw [UserExec_eq_processEvent hin hr]
  unfold processEvent
  rw [prepareEvent_no_vertex b c inp fESD hv]
  refine ⟨?_, ?_, rfl, fun _ => rfl, rfl, rfl, rfl⟩
  · cases hm : mcEvent c inp with
    | error a =>
      rcases mcEvent_error hm with h | h
      · subst h; exact Or.inr (Or.inl rfl)
      · subst h; exact Or.inr (Or.inr rfl)
    | ok MCEvt => exact Or.inl rfl
  · intro MCEvt hm
    simp [hm]

/-- C15 on an event without a vertex after a first event with 3 tracks: the
call aborts at the vertex test, and the trees and offsets stay as the first
event left them. -/
theorem UserExec_without_vertex_witness :
    (UserExec sampleBuild
      (runEvents sampleBuild (UserCreateOutputObjects sampleTask) [sampleInput 3 [] []]).task
      { sampleInput 2 [] [] with
        InputEvent := some { sampleEvent 2 [] [] with hasPrimaryVertex := false } }).abort
      = some .fatalVertex ∧
    (UserExec sampleBuild
      (runEvents sampleBuild (UserCreateOutputObjects sampleTask) [sampleInput 3 [] []]).task
      { sampleInput 2 [] [] with
        InputEvent := some { sampleEvent 2 [] [] with hasPrimaryVertex := false } }).task
      = (runEvents sampleBuild (UserCreateOutputObjects sampleTask)
          [sampleInput 3 [] []]).task :=
  have h := UserExec_without_vertex sampleBuild
    (runEvents sampleBuild (UserCreateOutputObjects sampleTask) [sampleInput 3 [] []]).task
    { sampleInput 2 [] [] with
      InputEvent := some { sampleEvent 2 [] [] with hasPrimaryVertex := false } }
    { sampleEvent 2 [] [] with hasPrimaryVertex := false } rfl (by decide) rfl
  ⟨h.2.1 none rfl, h.2.2.1⟩

/-- C16, as the code has it. For an event that is present, not rejected and
has a primary vertex, and with the MC event at hand when the task is in MC
mode: `UserExec` aborts with "Index is too high!" exactly when the TOF
response has more than 10 momentum bins. It then stops at bin 10: the task is
left as it was except for `fEventTimeMask`, which is the mask after bins
0 to 9, so no row has been appended and the offsets are unchanged; and the
loop never writes an entry of `eventTime`, `eventTimeRes` or
`eventTimeWeight` at an index of 10 or more. -/
theorem UserExec_too_many_bins (b : Build) (c : Converter) (inp : Input)
    (fESD : AliESDEvent) (MCEvt : Option AliMCEvent)
    (hin : inp.InputEvent = some fESD) (hr : rejected c inp = false)
    (hv : fESD.hasPrimaryVertex = true) (hmc : mcEvent c inp = .ok MCEvt) :
    ((UserExec b c inp).abort = some .fatalIndexTooHigh ↔ 10 < inp.startTimeMask.length) ∧
    (10 < inp.startTimeMask.length →
      (eventTimeLoop 0 (inp.startTimeMask.take 10) c.fEventTimeMask).2 = none ∧
      (UserExec b c inp).task = { c with fEventTimeMask :=
        (eventTimeLoop 0 (inp.startTimeMask.take 10) c.fEventTimeMask).1 } ∧
      (UserExec b c inp).task.filled = c.filled ∧
      (UserExec b c inp).task.fOffsetTrackID = c.fOffsetTrackID ∧
      (UserExec b c inp).task.fOffsetMuTrackID = c.fOffsetMuTrackID ∧
      (UserExec b c inp).task.fOffsetV0ID = c.fOffsetV0ID) ∧
    (∀ (bins : List (ℚ × ℚ)) (stack : EventTimeArrays) (k : Nat), 10 ≤ k →
      (fillEventTime 0 bins stack).eventTime[k]? = stack.eventTime[k]? ∧
      (fillEventTime 0 bins stack).eventTimeRes[k]? = stack.eventTimeRes[k]? ∧
      (fillEventTime 0 bins stack).eventTimeWeight[k]? = stack.eventTimeWeight[k]?) := by
  have hiff := eventTimeLoop_abort_iff inp.startTimeMask 0 c.fEventTimeMask (by omega)
  have htake := eventTimeLoop_take inp.startTimeMask 0 c.fEventTimeMask (by omega)
  have hok := eventTimeLoop_take_ok inp.startTimeMask 0 c.fEventTimeMask (by omega)
  simp only [Nat.zero_add, Nat.sub_zero] at hiff htake hok
  refine ⟨?_, ?_, fun bins stack k hk => fillEventTime_high bins 0 stack k hk⟩
  · rw [← hiff, UserExec_eq_processEvent hin hr]
    unfold processEvent prepareEvent
    simp only [hmc, hv, Bool.not_true, Bool.false_eq_true, if_false]
    rcases h2 : eventTimeLoop 0 inp.startTimeMask c.fEventTimeMask with ⟨mask, _ | a⟩
    · simp only
      rcases h3 : generatorStage b c.fGeneratorID MCEvt with ⟨id, _ | a⟩
      · simp only
        constructor
        · intro h
          exact absurd (fillEvent_abort h) (by decide)
        · intro h
          exact absurd h (by simp)
      · simp only
        have : (generatorStage b c.fGeneratorID MCEvt).2 = some a := by rw [h3]
        rcases generatorStage_abort this with h | h
        · subst h; simp
        · subst h; simp
    · have := eventTimeLoop_abort_cases _ _ _ a (by rw [h2])
      subst this
      simp
  · intro hlen
    have h2 := hiff.mpr hlen
    rw [UserExec_eq_processEvent hin hr]
    unfold processEvent prepareEvent
    simp only [hmc, hv, Bool.not_true, Bool.false_eq_true, if_false]
    rcases h3 : eventTimeLoop 0 inp.startTimeMask c.fEventTimeMask with ⟨mask, _ | a⟩
    · rw [h3] at h2; simp at h2
    · rw [h3] at htake
      simp only at htake
      subst htake
      exact ⟨hok, rfl, rfl, rfl, rfl, rfl⟩

/-- C16 on an event with 11 momentum bins after a first event with 3 tracks:
the call aborts with "Index is too high!" and the track offset is still 3. -/
theorem UserExec_too_many_bins_witness :
    (UserExec sampleBuild
      (runEvents sampleBuild (UserCreateOutputObjects sampleTask) [sampleInput 3 [] []]).task
      { sampleInput 2 [] [] with startTimeMask := List.replicate 11 1 }).abort
      = some .fatalIndexTooHigh ∧
    (UserExec sampleBuild
      (runEvents sampleBuild (UserCreateOutputObjects sampleTask) [sampleInput 3 [] []]).task
      { sampleInput 2 [] [] with startTimeMask := List.replicate 11 1 }).task.fOffsetTrackID
      = 3 :=
  have h := UserExec_too_many_bins sampleBuild
    (runEvents sampleBuild (UserCreateOutputObjects sampleTask) [sampleInput 3 [] []]).task
    { sampleInput 2 [] [] with startTimeMask := List.replicate 11 1 }
    (sampleEvent 2 [] []) none rfl (by decide) rfl rfl
  ⟨h.1.mpr (by decide), (h.2.1 (by decide)).2.2.2.1.trans (by decide)⟩

/-- C16 as stated fails in MC mode without an MC handler: for an accepted
event with a primary vertex and 11 momentum bins, `UserExec` aborts with
"Could not retrieve MC event handler", before the momentum-bin loop. -/
theorem too_many_bins_without_MC_handler :
    (sampleEvent 2 [] []).hasPrimaryVertex = true ∧
    rejected { sampleTask with fTaskMode := .kMC }
      { sampleInput 2 [] [] with startTimeMask := List.replicate 11 1 } = false ∧
    ({ sampleInput 2 [] [] with startTimeMask := List.replicate 11 1 } : Input).startTimeMask.length
      = 11 ∧
    (UserExec sampleBuild (UserCreateOutputObjects { sampleTask with fTaskMode := .kMC })
      { sampleInput 2 [] [] with startTimeMask := List.replicate 11 1 }).abort
      = some .fatalMCHandler := by
  refine ⟨by decide, by decide, by decide, by decide⟩

/-! ### The rows of each tree in one call -/

theorem filter_tree_of_tree {l : List Row} {t1 : TreeIndex} (h : ∀ r ∈ l, r.tree = t1)
    (t : TreeIndex) :
    l.filter (fun r => decide (r.tree = t)) = if t1 = t then l else [] := by
  by_cases ht : t1 = t
  · rw [if_pos ht, List.filter_eq_self]
    intro r hr
    simp [h r hr, ht]
  · rw [if_neg ht]
    exact filter_tree_eq_nil_of_tree h ht

theorem filter_active_tree (act : TreeIndex → Bool) (t : TreeIndex) (l : List Row) :
    (l.filter (fun r => act r.tree)).filter (fun r => decide (r.tree = t))
      = if act t then l.filter (fun r => decide (r.tree = t)) else [] := by
  by_cases ht : act t = true
  · rw [if_pos ht, filter_tree_filter act t ht]
  · rw [if_neg ht, List.filter_filter, List.filter_eq_nil_iff]
    intro r _
    by_cases h : r.tree = t
    · simp [h, ht]
    · simp [h]

/-- What `fillEvent` adds to tree `t`: the rows of `t` among those of
`eventRows` when the tree is active, nothing otherwise. -/
theorem fillEvent_fTree (b : Build) (c : Converter) (fESD : AliESDEvent) (eventID : Int)
    (MCEvt : Option AliMCEvent) (t : TreeIndex) :
    (fillEvent b c fESD eventID MCEvt).task.fTree t = c.fTree t ++
      if c.fTreeStatus t then
        (eventRows b c fESD eventID MCEvt).rows.filter (fun r => decide (r.tree = t))
      else [] := by
  unfold Converter.fTree
  rw [fillEvent_filled, List.filter_append, filter_active_tree]

theorem prepareEvent_ok_mc {b : Build} {c c1 : Converter} {inp : Input} {fESD : AliESDEvent}
    {MCEvt : Option AliMCEvent} (h : prepareEvent b c inp fESD = .ok (c1, MCEvt)) :
    mcEvent c inp = .ok MCEvt := by
  unfold prepareEvent at h
  cases h1 : mcEvent c inp with
  | error a => simp [h1] at h
  | ok MCEvt1 =>
    simp only [h1] at h
    by_cases hv : fESD.hasPrimaryVertex = true
    · simp only [hv, Bool.not_true, Bool.false_eq_true, if_false] at h
      rcases h2 : eventTimeLoop 0 inp.startTimeMask c.fEventTimeMask with ⟨mask, _ | a⟩
      · simp only [h2] at h
        rcases h3 : generatorStage b c.fGeneratorID MCEvt1 with ⟨id, _ | a⟩
        · simp only [h3, Except.ok.injEq, Prod.mk.injEq] at h
          rw [h.2]
        · simp [h3] at h
      · simp [h2] at h
    · simp [hv] at h

/-- Every call of `UserExec` either appends nothing, or runs `fillEvent` on
its event with the MC event `mcEvent` delivers, from a state that differs from
the initial one in the two mask members only. -/
theorem UserExec_rows (b : Build) (c : Converter) (inp : Input) :
    (UserExec b c inp).task.filled = c.filled ∨
    ∃ fESD c1 MCEvt, inp.InputEvent = some fESD ∧ rejected c inp = false ∧
      SameUpToMasks c c1 ∧ mcEvent c inp = .ok MCEvt ∧
      UserExec b c inp = fillEvent b c1 fESD inp.GetNcalls MCEvt := by
  cases hin : inp.InputEvent with
  | none => left; simp [UserExec, hin]
  | some fESD =>
    by_cases hr : rejected c inp = true
    · left
      unfold rejected at hr
      simp [UserExec, hin, hr]
    · have hr : rejected c inp = false := by simpa using hr
      rw [UserExec_eq_processEvent hin hr]
      unfold processEvent
      cases hp : prepareEvent b c inp fESD with
      | error out => left; exact (prepareEvent_error hp).1.fields.1
      | ok p =>
        obtain ⟨c1, MCEvt⟩ := p
        right
        exact ⟨fESD, c1, MCEvt, rfl, hr, prepareEvent_ok hp, prepareEvent_ok_mc hp, rfl⟩

/-- A call of `UserExec` on an event that is present and not rejected, when it
returns: every stretch completed, and each tree grew by its rows among those
of `eventRows` if it is active, and by nothing otherwise. -/
theorem UserExec_accepted_ok {b : Build} {c : Converter} {inp : Input} {fESD : AliESDEvent}
    (hin : inp.InputEvent = some fESD) (hr : rejected c inp = false)
    (h : (UserExec b c inp).abort = none) :
    ∃ c1 MCEvt, SameUpToMasks c c1 ∧ mcEvent c inp = .ok MCEvt ∧
      (eventRows b c1 fESD inp.GetNcalls MCEvt).abort = none ∧
      ∀ t, (UserExec b c inp).task.fTree t = c.fTree t ++
        if c.fTreeStatus t then
          (eventRows b c1 fESD inp.GetNcalls MCEvt).rows.filter (fun r => decide (r.tree = t))
        else [] := by
  rw [UserExec_eq_processEvent hin hr] at h ⊢
  unfold processEvent at h ⊢
  cases hp : prepareEvent b c inp fESD with
  | error out =>
    rw [hp] at h
    exact absurd h (prepareEvent_error hp).2
  | ok p =>
    obtain ⟨c1, MCEvt⟩ := p
    rw [hp] at h
    simp only at h ⊢
    have hs := prepareEvent_ok hp
    refine ⟨c1, MCEvt, hs, prepareEvent_ok_mc hp, (fillEvent_ok h).1, fun t => ?_⟩
    rw [fillEvent_fTree, hs.fields.2.1]
    unfold Converter.fTree
    rw [hs.fields.1]

/-- An inactive tree is left as it is by every call of `UserExec`. -/
theorem UserExec_fTree_inactive (b : Build) (c : Converter) (inp : Input) (t : TreeIndex)
    (ht : c.fTreeStatus t = false) : (UserExec b c inp).task.fTree t = c.fTree t := by
  rcases UserExec_rows b c inp with h | ⟨fESD, c1, MCEvt, _, _, hs, _, h⟩
  · unfold Converter.fTree; rw [h]
  · rw [h, fillEvent_fTree, hs.fields.2.1, ht]
    unfold Converter.fTree
    rw [hs.fields.1]
    simp

/-- The rows of a tree other than the track, TOF, muon and muon-cluster trees
among the rows of a complete event. -/
theorem eventRows_filter {b : Build} {c : Converter} {fESD : AliESDEvent} {eventID : Int}
    {MCEvt : Option AliMCEvent} (h : (eventRows b c fESD eventID MCEvt).abort = none)
    (t : TreeIndex) (h1 : t ≠ .kTracks) (h2 : t ≠ .kTOF) (h3 : t ≠ .kMuon)
    (h4 : t ≠ .kMuonCls) :
    (eventRows b c fESD eventID MCEvt).rows.filter (fun r => decide (r.tree = t)) =
      (if TreeIndex.kEvents = t then
        [Row.events (GetEventIdAsLong fESD.header) c.fEventTimeMask c.fGeneratorID] else [])
      ++ (if TreeIndex.kCalo = t then caloRows eventID fESD.emcalCells else [])
      ++ (if TreeIndex.kCaloTrigger = t then caloTriggerRows eventID fESD.caloTrigger else [])
      ++ (if TreeIndex.kCalo = t then caloRows eventID fESD.phosCells else [])
      ++ (if TreeIndex.kZdc = t then [Row.zdc eventID (zdcFired fESD.zdc)] else [])
      ++ (if TreeIndex.kVzero = t then [Row.vzero eventID] else [])
      ++ (if TreeIndex.kV0s = t then (v0Rows c.fOffsetTrackID fESD.v0s).rows else [])
      ++ (if TreeIndex.kCascades = t then
        (cascadeBlock b c.fOffsetV0ID c.fOffsetTrackID fESD).rows else [])
      ++ (if TreeIndex.kKinematics = t then kinematicsStage b MCEvt else []) := by
  obtain ⟨_, _, _, e⟩ := eventRows_ok h
  have s0 : ∀ r ∈ [Row.events (GetEventIdAsLong fESD.header) c.fEventTimeMask
      c.fGeneratorID], r.tree = .kEvents := by simp
  have s6 : ∀ r ∈ [Row.zdc eventID (zdcFired fESD.zdc)], r.tree = .kZdc := by simp
  have s7 : ∀ r ∈ [Row.vzero eventID], r.tree = .kVzero := by simp
  rw [e]
  simp only [List.filter_append]
  rw [filter_tree_of_tree (caloRows_tree _ fESD.emcalCells),
    filter_tree_of_tree (caloRows_tree _ fESD.phosCells),
    filter_tree_of_tree (caloTriggerRows_tree _ _),
    filter_tree_of_tree (v0Rows_tree _ _),
    filter_tree_of_tree (cascadeBlock_tree _ _ _ _),
    filter_tree_of_tree (kinematicsStage_tree _ _),
    filter_tree_of_tree s0, filter_tree_of_tree s6, filter_tree_of_tree s7,
    filter_tree_eq_nil (l := (muonRows _ _ _ _).rows) (fun r hr => by
      rcases (isMuonish_iff r).mp (muonRows_tree _ _ _ _ r hr) with h | h
      · rw [h]; exact fun x => h3 x.symm
      · rw [h]; exact fun x => h4 x.symm),
    filter_tree_eq_nil (l := trackRows _ _ _) (fun r hr => by
      rcases trackRows_tree _ _ _ r hr with h | h
      · rw [h]; exact fun x => h1 x.symm
      · rw [h]; exact fun x => h2 x.symm)]
  simp

theorem muonRows_cls_count (eventID off : Int) (l : List AliESDMuonTrack) (imu : Nat)
    (h : (muonRows eventID off imu l).abort = none) :
    ((muonRows eventID off imu l).rows.filter (fun r => decide (r.tree = .kMuonCls))).length
      = (l.map (fun mutrk => mutrk.fNClusters)).sum := by
  induction l generalizing imu with
  | nil => simp [muonRows]
  | cons mutrk rest ih =>
    rw [muonRows] at h ⊢
    cases ha : addInt_t off imu with
    | none => simp [ha] at h
    | some id =>
      simp only [ha] at h ⊢
      obtain ⟨_, h2, e⟩ := Emit.seq_abort_none h
      rw [e]
      simp only [List.filter_append, List.length_append, ih _ h2, List.filter_cons,
        List.map_cons, List.sum_cons]
      have : (List.replicate mutrk.fNClusters (Row.muonCls id)).filter
          (fun r => decide (r.tree = .kMuonCls))
          = List.replicate mutrk.fNClusters (Row.muonCls id) := by
        rw [List.filter_eq_self]
        intro r hr
        rw [List.eq_of_mem_replicate hr]
        simp
      rw [this]
      simp

/-- In an event whose stretches all complete, the muon-cluster rows handed to
`FillTree` are as many as the muon tracks have clusters in total. -/
theorem eventRows_muonCls_count {b : Build} {c : Converter} {fESD : AliESDEvent}
    {eventID : Int} {MCEvt : Option AliMCEvent}
    (h : (eventRows b c fESD eventID MCEvt).abort = none) :
    ((eventRows b c fESD eventID MCEvt).rows.filter
      (fun r => decide (r.tree = .kMuonCls))).length
      = (fESD.muonTracks.map (fun mutrk => mutrk.fNClusters)).sum := by
  obtain ⟨hm, _, _, e⟩ := eventRows_ok h
  rw [e]
  simp only [List.filter_append, List.length_append, muonRows_cls_count _ _ _ _ hm]
  rw [filter_tree_eq_nil_of_tree (caloRows_tree _ fESD.emcalCells) (by decide),
    filter_tree_eq_nil_of_tree (caloRows_tree _ fESD.phosCells) (by decide),
    filter_tree_eq_nil_of_tree (caloTriggerRows_tree _ _) (by decide),
    filter_tree_eq_nil_of_tree (v0Rows_tree _ _) (by decide),
    filter_tree_eq_nil_of_tree (cascadeBlock_tree _ _ _ _) (by decide),
    filter_tree_eq_nil_of_tree (kinematicsStage_tree _ _) (by decide),
    filter_tree_eq_nil (l := trackRows _ _ _) (fun r hr => by
      rcases trackRows_tree _ _ _ r hr with h | h <;> rw [h] <;> simp)]
  simp

/-! ### Fan-out counts (C13) -/

/-- C13. For an event that is present and not rejected, on a call of
`UserExec` that returns: a tree whose `fTreeStatus` is false is left as it is;
every tree keeps its old entries; and each of these trees, when active, grows
by exactly: events 1, tracks `GetNumberOfTracks()`, calorimeter cells the
number of EMCAL cells plus the number of PHOS cells, muon tracks
`GetNumberOfMuonTracks()`, muon clusters the sum of `GetNClusters()` over the
muon tracks, ZDC 1, VZERO 1. With no muon track the muon loop hands nothing to
`FillTree` and does not stop, and the muon and muon-cluster trees are left as
they are. -/
theorem fan_out_counts (b : Build) (c : Converter) (inp : Input) (fESD : AliESDEvent)
    (hin : inp.InputEvent = some fESD) (hr : rejected c inp = false)
    (h : (UserExec b c inp).abort = none) :
    (∀ t, c.fTreeStatus t = false → (UserExec b c inp).task.fTree t = c.fTree t) ∧
    (∀ t, ∃ rows, (UserExec b c inp).task.fTree t = c.fTree t ++ rows) ∧
    (c.fTreeStatus .kEvents = true → ((UserExec b c inp).task.fTree .kEvents).length
      = (c.fTree .kEvents).length + 1) ∧
    (c.fTreeStatus .kTracks = true → ((UserExec b c inp).task.fTree .kTracks).length
      = (c.fTree .kTracks).length + fESD.tracks.length) ∧
    (c.fTreeStatus .kCalo = true → ((UserExec b c inp).task.fTree .kCalo).length
      = (c.fTree .kCalo).length
        + (fESD.emcalCells.cells.length + fESD.phosCells.cells.length)) ∧
    (c.fTreeStatus .kMuon = true → ((UserExec b c inp).task.fTree .kMuon).length
      = (c.fTree .kMuon).length + fESD.muonTracks.length) ∧
    (c.fTreeStatus .kMuonCls = true → ((UserExec b c inp).task.fTree .kMuonCls).length
      = (c.fTree .kMuonCls).length
        + (fESD.muonTracks.map (fun mutrk => mutrk.fNClusters)).sum) ∧
    (c.fTreeStatus .kZdc = true → ((UserExec b c inp).task.fTree .kZdc).length
      = (c.fTree .kZdc).length + 1) ∧
    (c.fTreeStatus .kVzero = true → ((UserExec b c inp).task.fTree .kVzero).length
      = (c.fTree .kVzero).length + 1) ∧
    (fESD.muonTracks = [] →
      muonRows inp.GetNcalls c.fOffsetMuTrackID 0 fESD.muonTracks = ⟨[], none⟩ ∧
      (UserExec b c inp).task.fTree .kMuon = c.fTree .kMuon ∧
      (UserExec b c inp).task.fTree .kMuonCls = c.fTree .kMuonCls) := by
  obtain ⟨c1, MCEvt, hs, _, he, hT⟩ := UserExec_accepted_ok hin hr h
  have hmu := eventRows_muon_count he
  have hcls := eventRows_muonCls_count he
  refine ⟨fun t ht => UserExec_fTree_inactive b c inp t ht, fun t => ⟨_, hT t⟩,
    ?_, ?_, ?_, ?_, ?_, ?_, ?_, ?_⟩
  · intro ht
    rw [hT, ht, if_pos rfl, eventRows_filter he _ (by decide) (by decide) (by decide)
      (by decide)]
    simp
  · intro ht
    rw [hT, ht, if_pos rfl, List.length_append, eventRows_tracks_count he]
  · intro ht
    rw [hT, ht, if_pos rfl, eventRows_filter he _ (by decide) (by decide) (by decide)
      (by decide)]
    simp [caloRows]
  · intro ht
    rw [hT, ht, if_pos rfl, List.length_append, hmu]
  · intro ht
    rw [hT, ht, if_pos rfl, List.length_append, hcls]
  · intro ht
    rw [hT, ht, if_pos rfl, eventRows_filter he _ (by decide) (by decide) (by decide)
      (by decide)]
    simp
  · intro ht
    rw [hT, ht, if_pos rfl, eventRows_filter he _ (by decide) (by decide) (by decide)
      (by decide)]
    simp
  · intro hnil
    rw [hnil] at hmu hcls
    simp only [List.length_nil, List.map_nil, List.sum_nil, List.length_eq_zero] at hmu hcls
    refine ⟨by rw [hnil]; rfl, ?_, ?_⟩
    · rw [hT, hmu]; simp
    · rw [hT, hcls]; simp

/-- C13 on an event with 3 tracks and one muon track with two clusters, after
a first event with 2 tracks: the track tree has 5 entries, the muon-cluster
tree 4. -/
theorem fan_out_counts_witness :
    ((UserExec sampleBuild
      (runEvents sampleBuild (UserCreateOutputObjects sampleTask) [sampleInput 2 [] []]).task
      (sampleInput 3 [] [])).task.fTree .kTracks).length = 5 ∧
    ((UserExec sampleBuild
      (runEvents sampleBuild (UserCreateOutputObjects sampleTask) [sampleInput 2 [] []]).task
      (sampleInput 3 [] [])).task.fTree .kMuonCls).length = 4 :=
  have h := fan_out_counts sampleBuild
    (runEvents sampleBuild (UserCreateOutputObjects sampleTask) [sampleInput 2 [] []]).task
    (sampleInput 3 [] []) (sampleEvent 3 [] []) rfl (by decide) (by decide)
  ⟨(h.2.2.2.1 (by decide)).trans (by decide),
    (h.2.2.2.2.2.2.1 (by decide)).trans (by decide)⟩

/-! ### The V0 rows of an event (C12) -/

theorem v0TrackID_eq {o idx x : Int} (h : v0TrackID o idx = some x) :
    x = TMath.Sign (TMath.Abs idx + o) idx := by
  unfold v0TrackID at h
  split at h
  · cases ha : addInt_t (TMath.Abs idx) o with
    | none => simp [ha] at h
    | some a =>
      simp only [ha] at h
      split at h
      · simp only [Option.some.injEq] at h
        rw [← h, (addInt_t_eq_some ha).1]
      · simp at h
  · simp at h

/-- When the V0 loop completes, it hands to `FillTree` one row for each
candidate that is neither null nor on-the-fly, in the order of the list. -/
theorem v0Rows_eq (o : Int) (l : List (Option AliESDv0)) (h : (v0Rows o l).abort = none) :
    (v0Rows o l).rows = (offlineV0s l).map (v0Row o) := by
  induction l with
  | nil => simp [v0Rows, offlineV0s]
  | cons v rest ih =>
    cases v with
    | none =>
      rw [v0Rows] at h ⊢
      rw [ih h]
      simp [offlineV0s]
    | some v0 =>
      rw [v0Rows] at h ⊢
      by_cases hfly : v0.fOnFlyStatus = true
      · simp only [hfly, Bool.not_true, Bool.false_eq_true, if_false] at h ⊢
        rw [ih h]
        simp [offlineV0s, hfly]
      · simp only [hfly, Bool.not_false, if_true] at h ⊢
        cases hp : v0TrackID o v0.fPindex with
        | none => simp [hp] at h
        | some p =>
          cases hn : v0TrackID o v0.fNindex with
          | none => simp [hp, hn] at h
          | some n =>
            simp only [hp, hn] at h ⊢
            obtain ⟨_, h2, e⟩ := Emit.seq_abort_none h
            rw [e, ih h2, v0TrackID_eq hp, v0TrackID_eq hn]
            simp [offlineV0s, hfly, v0Row]

theorem mem_offlineV0s (l : List (Option AliESDv0)) (v0 : AliESDv0) :
    v0 ∈ offlineV0s l ↔ some v0 ∈ l ∧ v0.fOnFlyStatus = false := by
  unfold offlineV0s
  rw [List.mem_filterMap]
  constructor
  · rintro ⟨v, hv, h⟩
    cases v with
    | none => simp at h
    | some w =>
      simp only at h
      split at h
      · simp at h
      · simp only [Option.some.injEq] at h
        subst h
        exact ⟨hv, by simpa using ‹¬ w.fOnFlyStatus = true›⟩
  · rintro ⟨hv, hfly⟩
    exact ⟨some v0, hv, by simp [hfly]⟩

/-- C12. For an event that is present and not rejected, on a call of
`UserExec` that returns: the V0 loop hands to `FillTree` exactly one row for
each V0 candidate that is not null and has `GetOnFlyStatus()` false, in the
order of the V0 list, and the V0 tree grows by these rows when it is active
(and by nothing when it is not). An on-the-fly candidate is passed over: the
loop goes on with the next candidate without a row and without stopping. -/
theorem v0_rows_appended (b : Build) (c : Converter) (inp : Input) (fESD : AliESDEvent)
    (hin : inp.InputEvent = some fESD) (hr : rejected c inp = false)
    (h : (UserExec b c inp).abort = none) :
    v0Rows c.fOffsetTrackID fESD.v0s
      = ⟨(offlineV0s fESD.v0s).map (v0Row c.fOffsetTrackID), none⟩ ∧
    (UserExec b c inp).task.fTree .kV0s = c.fTree .kV0s ++
      (if c.fTreeStatus .kV0s then (offlineV0s fESD.v0s).map (v0Row c.fOffsetTrackID)
        else []) ∧
    (∀ v0, v0 ∈ offlineV0s fESD.v0s ↔ some v0 ∈ fESD.v0s ∧ v0.fOnFlyStatus = false) ∧
    List.Sublist ((offlineV0s fESD.v0s).map some) fESD.v0s ∧
    (∀ o v0 rest, v0.fOnFlyStatus = true → v0Rows o (some v0 :: rest) = v0Rows o rest) := by
  obtain ⟨c1, MCEvt, hs, _, he, hT⟩ := UserExec_accepted_ok hin hr h
  have hv := (eventRows_ok he).2.1
  rw [hs.fields.2.2.2.2.1] at hv
  have hrows := v0Rows_eq _ _ hv
  refine ⟨?_, ?_, mem_offlineV0s _, ?_, ?_⟩
  · rw [← hrows, ← hv]
  · rw [hT, eventRows_filter he _ (by decide) (by decide) (by decide) (by decide),
      hs.fields.2.2.2.2.1, hrows]
    simp
  · unfold offlineV0s
    generalize fESD.v0s = l
    induction l with
    | nil => simp
    | cons v rest ih =>
      cases v with
      | none => simpa using List.Sublist.cons _ ih
      | some w =>
        by_cases hw : w.fOnFlyStatus = true
        · simpa [List.filterMap_cons, hw] using List.Sublist.cons _ ih
        · simpa [List.filterMap_cons, hw] using ih
  · intro o v0 rest hfly
    rw [v0Rows]
    simp [hfly]

/-- C12 on an event with an offline, an on-the-fly and another offline
candidate, after a first event with 3 tracks: two V0 rows, in list order. -/
theorem v0_rows_appended_witness :
    (UserExec sampleBuild
      (runEvents sampleBuild (UserCreateOutputObjects sampleTask) [sampleInput 3 [] []]).task
      (sampleInput 2 [some ⟨false, 0, 1⟩, some ⟨true, 1, 0⟩, some ⟨false, -1, 0⟩]
        [])).task.fTree .kV0s = [Row.v0s 3 4, Row.v0s (-4) 3] :=
  ((v0_rows_appended sampleBuild
    (runEvents sampleBuild (UserCreateOutputObjects sampleTask) [sampleInput 3 [] []]).task
    (sampleInput 2 [some ⟨false, 0, 1⟩, some ⟨true, 1, 0⟩, some ⟨false, -1, 0⟩] [])
    (sampleEvent 2 [some ⟨false, 0, 1⟩, some ⟨true, 1, 0⟩, some ⟨false, -1, 0⟩] [])
    rfl (by decide) (by decide)).2.1).trans (by decide)

/-! ### Kinematics rows (C18) -/

/-- A kinematics row among the rows of an event, complete or not, comes from
the kinematics loop. -/
theorem eventRows_mem_kinematics {b : Build} {c : Converter} {fESD : AliESDEvent}
    {eventID : Int} {MCEvt : Option AliMCEvent} {r : Row}
    (h : r ∈ (eventRows b c fESD eventID MCEvt).rows) (ht : r.tree = .kKinematics) :
    r ∈ kinematicsStage b MCEvt := by
  have hx : ∀ {t : TreeIndex}, r.tree = t → t ≠ .kKinematics → False :=
    fun h1 h2 => h2 (h1.symm.trans ht)
  unfold eventRows at h
  rcases Emit.mem_seq h with h | h
  · exfalso
    rcases Emit.mem_seq h with h | h
    · rcases Emit.mem_seq h with h | h
      · rcases Emit.mem_seq h with h | h
        · rcases Emit.mem_seq h with h | h
          · rcases Emit.mem_seq h with h | h
            · rcases Emit.mem_seq h with h | h
              · rcases Emit.mem_seq h with h | h
                · rcases Emit.mem_seq h with h | h
                  · rcases Emit.mem_seq h with h | h
                    · simp only [List.mem_singleton] at h
                      subst h; simp at ht
                    · rcases trackRows_tree _ _ _ r h with h | h
                      · subst h; simp at ht
                      · subst h; simp at ht
                  · exact hx (caloRows_tree _ _ r h) (by decide)
                · exact hx (caloTriggerRows_tree _ _ r h) (by decide)
              · exact hx (caloRows_tree _ _ r h) (by decide)
            · rcases (isMuonish_iff r).mp (muonRows_tree _ _ _ _ r h) with h | h
              · exact hx h (by decide)
              · exact hx h (by decide)
          · simp only [List.mem_singleton] at h
            subst h; simp at ht
        · simp only [List.mem_singleton] at h
          subst h; simp at ht
      · exact hx (v0Rows_tree _ _ r h) (by decide)
    · exact hx (cascadeBlock_tree _ _ _ _ r h) (by decide)
  · exact h

theorem mcEvent_ok_some {c : Converter} {inp : Input} {ev : AliMCEvent}
    (h : mcEvent c inp = .ok (some ev)) :
    c.fTaskMode = .kMC ∧ inp.MCtruthEventHandler = some (some ev) := by
  unfold mcEvent at h
  split at h
  · rename_i hm
    rcases hh : inp.MCtruthEventHandler with _ | _ | ev1
    · simp [hh] at h
    · simp [hh] at h
    · simp only [hh, Except.ok.injEq, Option.some.injEq] at h
      rw [h]
      exact ⟨hm, rfl⟩
  · simp at h

theorem runEvents_fTree_inactive (b : Build) (evs : List Input) (c : Converter)
    (t : TreeIndex) (ht : c.fTreeStatus t = false) :
    (runEvents b c evs).task.fTree t = c.fTree t := by
  induction evs generalizing c with
  | nil => simp [runEvents]
  | cons inp rest ih =>
    rw [runEvents_cons]
    have h1 := UserExec_fTree_inactive b c inp t ht
    by_cases h : (UserExec b c inp).abort = none
    · rw [if_pos h, ih _ (by rw [(UserExec_frame b c inp).1]; exact ht), h1]
    · rw [if_neg h]; exact h1

/-- C18. In a run started from `UserCreateOutputObjects` with
`fTaskMode = kStandard`, the kinematics tree is empty after any sequence of
events. In any call of `UserExec`, a kinematics row among the appended rows
occurs only with `fTaskMode = kMC` (and the MC blocks compiled in), and it is
the row of a particle of the MC event of the call: both mother slots hold
`GetMother()` and both daughter slots `GetDaughterFirst()` of that particle,
as they are, with no offset. In an MC run, after a first event with 3 tracks
and one particle, the two particles of the second event are written with
their own indices. -/
theorem kinematics_rows (b : Build) (c : Converter) :
    (c.fTaskMode = .kStandard →
      ∀ evs, (runEvents b (UserCreateOutputObjects c) evs).task.fTree .kKinematics = []) ∧
    (∀ inp, ∃ rows, (UserExec b c inp).task.filled = c.filled ++ rows ∧
      ∀ r ∈ rows, r.tree = .kKinematics →
        c.fTaskMode = .kMC ∧ b.USE_MC = true ∧
        ∃ MCEvt particle, inp.MCtruthEventHandler = some (some MCEvt) ∧
          particle ∈ MCEvt.particles ∧
          r = Row.kinematics particle.pdgCode particle.mother particle.mother
            particle.daughterFirst particle.daughterFirst) ∧
    (runEvents sampleMCBuild (UserCreateOutputObjects { sampleTask with fTaskMode := .kMC })
      [sampleMCInput 3 [⟨2212, -1, -1⟩],
       sampleMCInput 2 [⟨211, -1, 1⟩, ⟨22, 0, -1⟩]]).task.fTree .kKinematics
      = [Row.kinematics 2212 (-1) (-1) (-1) (-1), Row.kinematics 211 (-1) (-1) 1 1,
         Row.kinematics 22 0 0 (-1) (-1)] := by
  refine ⟨?_, ?_, by decide⟩
  · intro hmode evs
    rw [runEvents_fTree_inactive]
    · unfold Converter.fTree
      rw [(UserCreateOutputObjects_fields c).1]
      rfl
    · simp [UserCreateOutputObjects, DisableTree, hmode]
  · intro inp
    rcases UserExec_rows b c inp with h | ⟨fESD, c1, MCEvt, _, _, hs, hmc, h⟩
    · exact ⟨[], by rw [h]; simp, by simp⟩
    · refine ⟨(eventRows b c1 fESD inp.GetNcalls MCEvt).rows.filter
        (fun r => c1.fTreeStatus r.tree), ?_, ?_⟩
      · rw [h, fillEvent_filled, hs.fields.1]
      · intro r hr ht
        have hk := eventRows_mem_kinematics (List.mem_filter.mp hr).1 ht
        unfold kinematicsStage at hk
        cases MCEvt with
        | none => simp at hk
        | some ev =>
          simp only at hk
          split at hk
          · rename_i hb
            obtain ⟨hmode, hh⟩ := mcEvent_ok_some hmc
            unfold kinematicsRows at hk
            rw [List.mem_map] at hk
            obtain ⟨particle, hp, rfl⟩ := hk
            exact ⟨hmode, hb, ev, particle, hh, hp, rfl⟩
          · simp at hk

/-! ### The order of the `FillTree` calls (C14) -/

theorem dropWhile_append_all {p : Row → Bool} {l1 : List Row} (l2 : List Row)
    (h : ∀ r ∈ l1, p r = true) : (l1 ++ l2).dropWhile p = l2.dropWhile p := by
  induction l1 with
  | nil => rfl
  | cons x xs ih =>
    rw [List.cons_append, List.dropWhile_cons, h x (List.mem_cons_self _ _), if_pos rfl]
    exact ih (fun r hr => h r (List.mem_cons_of_mem _ hr))

theorem isContiguous_append_left {t : TreeIndex} {pre : List Row} (l : List Row)
    (h : ∀ r ∈ pre, r.tree ≠ t) : isContiguous t (pre ++ l) = isContiguous t l := by
  unfold isContiguous
  rw [dropWhile_append_all l (fun r hr => by simpa using h r hr)]

theorem isContiguous_block {t : TreeIndex} {blk post : List Row}
    (h2 : ∀ r ∈ blk, r.tree = t) (h3 : ∀ r ∈ post, r.tree ≠ t) :
    isContiguous t (blk ++ post) = true := by
  unfold isContiguous
  rw [List.all_eq_true]
  intro r hr
  have hsub : r ∈ post := by
    cases blk with
    | nil =>
      rw [List.nil_append] at hr
      exact (List.dropWhile_sublist _).subset ((List.dropWhile_sublist _).subset hr)
    | cons x xs =>
      rw [List.cons_append, List.dropWhile_cons, h2 x (List.mem_cons_self _ _)] at hr
      simp only [decide_True, Bool.not_true, Bool.false_eq_true, if_false] at hr
      rw [← List.cons_append, dropWhile_append_all post (fun r hr => by simpa using h2 r hr)]
        at hr
      exact (List.dropWhile_sublist _).subset hr
  simpa using h3 r hsub

theorem isContiguous_all {t : TreeIndex} {blk : List Row} (h2 : ∀ r ∈ blk, r.tree = t) :
    isContiguous t blk = true := by
  have := @isContiguous_block t blk [] h2 (by simp)
  rwa [List.append_nil] at this

theorem ne_of_tree {l : List Row} {t1 t : TreeIndex} (h : ∀ r ∈ l, r.tree = t1)
    (hne : t1 ≠ t) : ∀ r ∈ l, r.tree ≠ t :=
  fun r hr => by rw [h r hr]; exact hne

theorem no_tree_append {t : TreeIndex} {l1 l2 : List Row} (h1 : ∀ r ∈ l1, r.tree ≠ t)
    (h2 : ∀ r ∈ l2, r.tree ≠ t) : ∀ r ∈ l1 ++ l2, r.tree ≠ t := by
  intro r hr
  rcases List.mem_append.mp hr with h | h
  · exact h1 r h
  · exact h2 r h

theorem trackRows_ne (b : Build) (eventID : Int) (tracks : List AliESDtrack) (t : TreeIndex)
    (h1 : TreeIndex.kTracks ≠ t) (h2 : TreeIndex.kTOF ≠ t) :
    ∀ r ∈ trackRows b eventID tracks, r.tree ≠ t := by
  intro r hr
  rcases trackRows_tree _ _ _ r hr with h | h
  · rw [h]; exact h1
  · rw [h]; exact h2

theorem muonRows_ne (eventID off : Int) (l : List AliESDMuonTrack) (imu : Nat) (t : TreeIndex)
    (h1 : TreeIndex.kMuon ≠ t) (h2 : TreeIndex.kMuonCls ≠ t) :
    ∀ r ∈ (muonRows eventID off imu l).rows, r.tree ≠ t := by
  intro r hr
  rcases (isMuonish_iff r).mp (muonRows_tree _ _ _ _ r hr) with h | h
  · rw [h]; exact h1
  · rw [h]; exact h2

theorem trackRows_no_tof (b : Build) (eventID : Int) (tracks : List AliESDtrack)
    (hb : b.USE_TOF_CLUST = false) : ∀ r ∈ trackRows b eventID tracks, r.tree = .kTracks := by
  intro r hr
  unfold trackRows at hr
  simp only [List.mem_flatten, List.mem_map] at hr
  obtain ⟨l, ⟨track, _, rfl⟩, hr⟩ := hr
  simp only [hb, Bool.false_eq_true, if_false, List.nil_append, List.mem_singleton] at hr
  rw [hr]
  rfl

/-- C14, as the code has it. The `FillTree` calls of `UserExec` for an event
whose stretches all complete are, in this order: the event row; the track rows
in track order (under `USE_TOF_CLUST` each preceded by the TOF rows of its
track); the EMCAL cells; the calorimeter trigger entries; the PHOS cells; for
each muon track its muon row followed by its cluster rows; the ZDC row; the
VZERO row; the V0 rows; the cascade rows; the kinematics rows. The event row
is the first call, and the rows of each of the events, calorimeter-trigger,
ZDC, VZERO, V0, cascade and kinematics trees form one contiguous block, as do
the track rows when `USE_TOF_CLUST` is not defined. -/
theorem fill_sequence_order (b : Build) (c : Converter) (fESD : AliESDEvent) (eventID : Int)
    (MCEvt : Option AliMCEvent) (h : (eventRows b c fESD eventID MCEvt).abort = none) :
    (eventRows b c fESD eventID MCEvt).rows =
      [Row.events (GetEventIdAsLong fESD.header) c.fEventTimeMask c.fGeneratorID]
      ++ trackRows b eventID fESD.tracks
      ++ caloRows eventID fESD.emcalCells
      ++ caloTriggerRows eventID fESD.caloTrigger
      ++ caloRows eventID fESD.phosCells
      ++ (muonRows eventID c.fOffsetMuTrackID 0 fESD.muonTracks).rows
      ++ [Row.zdc eventID (zdcFired fESD.zdc)]
      ++ [Row.vzero eventID]
      ++ (v0Rows c.fOffsetTrackID fESD.v0s).rows
      ++ (cascadeBlock b c.fOffsetV0ID c.fOffsetTrackID fESD).rows
      ++ kinematicsStage b MCEvt ∧
    (eventRows b c fESD eventID MCEvt).rows.head?
      = some (Row.events (GetEventIdAsLong fESD.header) c.fEventTimeMask c.fGeneratorID) ∧
    (∀ t ∈ [TreeIndex.kEvents, .kCaloTrigger, .kZdc, .kVzero, .kV0s, .kCascades,
        .kKinematics], isContiguous t (eventRows b c fESD eventID MCEvt).rows = true) ∧
    (b.USE_TOF_CLUST = false →
      isContiguous .kTracks (eventRows b c fESD eventID MCEvt).rows = true) := by
  obtain ⟨_, _, _, e⟩ := eventRows_ok h
  have s0 : ∀ r ∈ [Row.events (GetEventIdAsLong fESD.header) c.fEventTimeMask
      c.fGeneratorID], r.tree = .kEvents := by simp
  have s6 : ∀ r ∈ [Row.zdc eventID (zdcFired fESD.zdc)], r.tree = .kZdc := by simp
  have s7 : ∀ r ∈ [Row.vzero eventID], r.tree = .kVzero := by simp
  refine ⟨e, by rw [e]; simp, ?_, ?_⟩
  · intro t ht
    rw [e]
    simp only [List.append_assoc]
    simp only [List.mem_cons, List.mem_singleton, List.not_mem_nil, or_false] at ht
    rcases ht with rfl | rfl | rfl | rfl | rfl | rfl | rfl
    · exact isContiguous_block (s0)
        (no_tree_append (trackRows_ne _ _ _ _ (by decide) (by decide))
          (no_tree_append (ne_of_tree (caloRows_tree _ fESD.emcalCells) (by decide))
          (no_tree_append (ne_of_tree (caloTriggerRows_tree _ _) (by decide))
          (no_tree_append (ne_of_tree (caloRows_tree _ fESD.phosCells) (by decide))
          (no_tree_append (muonRows_ne _ _ _ _ _ (by decide) (by decide))
          (no_tree_append (ne_of_tree s6 (by decide))
          (no_tree_append (ne_of_tree s7 (by decide))
          (no_tree_append (ne_of_tree (v0Rows_tree _ _) (by decide))
          (no_tree_append (ne_of_tree (cascadeBlock_tree _ _ _ _) (by decide))
          (ne_of_tree (kinematicsStage_tree _ _) (by decide)))))))))))
    · rw [isContiguous_append_left _ (ne_of_tree s0 (by decide)),
        isContiguous_append_left _ (trackRows_ne _ _ _ _ (by decide) (by decide)),
        isContiguous_append_left _ (ne_of_tree (caloRows_tree _ fESD.emcalCells) (by decide))]
      exact isContiguous_block (caloTriggerRows_tree _ _)
        (no_tree_append (ne_of_tree (caloRows_tree _ fESD.phosCells) (by decide))
          (no_tree_append (muonRows_ne _ _ _ _ _ (by decide) (by decide))
          (no_tree_append (ne_of_tree s6 (by decide))
          (no_tree_append (ne_of_tree s7 (by decide))
          (no_tree_append (ne_of_tree (v0Rows_tree _ _) (by decide))
          (no_tree_append (ne_of_tree (cascadeBlock_tree _ _ _ _) (by decide))
          (ne_of_tree (kinematicsStage_tree _ _) (by decide))))))))
    · rw [isContiguous_append_left _ (ne_of_tree s0 (by decide)),
        isContiguous_append_left _ (trackRows_ne _ _ _ _ (by decide) (by decide)),
        isContiguous_append_left _ (ne_of_tree (caloRows_tree _ fESD.emcalCells) (by decide)),
        isContiguous_append_left _ (ne_of_tree (caloTriggerRows_tree _ _) (by decide)),
        isContiguous_append_left _ (ne_of_tree (caloRows_tree _ fESD.phosCells) (by decide)),
        isContiguous_append_left _ (muonRows_ne _ _ _ _ _ (by decide) (by decide))]
      exact isContiguous_block (s6)
        (no_tree_append (ne_of_tree s7 (by decide))
          (no_tree_append (ne_of_tree (v0Rows_tree _ _) (by decide))
          (no_tree_append (ne_of_tree (cascadeBlock_tree _ _ _ _) (by decide))
          (ne_of_tree (kinematicsStage_tree _ _) (by decide)))))
    · rw [isContiguous_append_left _ (ne_of_tree s0 (by decide)),
        isContiguous_append_left _ (trackRows_ne _ _ _ _ (by decide) (by decide)),
        isContiguous_append_left _ (ne_of_tree (caloRows_tree _ fESD.emcalCells) (by decide)),
        isContiguous_append_left _ (ne_of_tree (caloTriggerRows_tree _ _) (by decide)),
        isContiguous_append_left _ (ne_of_tree (caloRows_tree _ fESD.phosCells) (by decide)),
        isContiguous_append_left _ (muonRows_ne _ _ _ _ _ (by decide) (by decide)),
        isContiguous_append_left _ (ne_of_tree s6 (by decide))]
      exact isContiguous_block (s7)
        (no_tree_append (ne_of_tree (v0Rows_tree _ _) (by decide))
          (no_tree_append (ne_of_tree (cascadeBlock_tree _ _ _ _) (by decide))
          (ne_of_tree (kinematicsStage_tree _ _) (by decide))))
    · rw [isContiguous_append_left _ (ne_of_tree s0 (by decide)),
        isContiguous_append_left _ (trackRows_ne _ _ _ _ (by decide) (by decide)),
        isContiguous_append_left _ (ne_of_tree (caloRows_tree _ fESD.emcalCells) (by decide)),
        isContiguous_append_left _ (ne_of_tree (caloTriggerRows_tree _ _) (by decide)),
        isContiguous_append_left _ (ne_of_tree (caloRows_tree _ fESD.phosCells) (by decide)),
        isContiguous_append_left _ (muonRows_ne _ _ _ _ _ (by decide) (by decide)),
        isContiguous_append_left _ (ne_of_tree s6 (by decide)),
        isContiguous_append_left _ (ne_of_tree s7 (by decide))]
      exact isContiguous_block (v0Rows_tree _ _)
        (no_tree_append (ne_of_tree (cascadeBlock_tree _ _ _ _) (by decide))
          (ne_of_tree (kinematicsStage_tree _ _) (by decide)))
    · rw [isContiguous_append_left _ (ne_of_tree s0 (by decide)),
        isContiguous_append_left _ (trackRows_ne _ _ _ _ (by decide) (by decide)),
        isContiguous_append_left _ (ne_of_tree (caloRows_tree _ fESD.emcalCells) (by decide)),
        isContiguous_append_left _ (ne_of_tree (caloTriggerRows_tree _ _) (by decide)),
        isContiguous_append_left _ (ne_of_tree (caloRows_tree _ fESD.phosCells) (by decide)),
        isContiguous_append_left _ (muonRows_ne _ _ _ _ _ (by decide) (by decide)),
        isContiguous_append_left _ (ne_of_tree s6 (by decide)),
        isContiguous_append_left _ (ne_of_tree s7 (by decide)),
        isContiguous_append_left _ (ne_of_tree (v0Rows_tree _ _) (by decide))]
      exact isContiguous_block (cascadeBlock_tree _ _ _ _)
        (ne_of_tree (kinematicsStage_tree _ _) (by decide))
    · rw [isContiguous_append_left _ (ne_of_tree s0 (by decide)),
        isContiguous_append_left _ (trackRows_ne _ _ _ _ (by decide) (by decide)),
        isContiguous_append_left _ (ne_of_tree (caloRows_tree _ fESD.emcalCells) (by decide)),
        isContiguous_append_left _ (ne_of_tree (caloTriggerRows_tree _ _) (by decide)),
        isContiguous_append_left _ (ne_of_tree (caloRows_tree _ fESD.phosCells) (by decide)),
        isContiguous_append_left _ (muonRows_ne _ _ _ _ _ (by decide) (by decide)),
        isContiguous_append_left _ (ne_of_tree s6 (by decide)),
        isContiguous_append_left _ (ne_of_tree s7 (by decide)),
        isContiguous_append_left _ (ne_of_tree (v0Rows_tree _ _) (by decide)),
        isContiguous_append_left _ (ne_of_tree (cascadeBlock_tree _ _ _ _) (by decide))]
      exact isContiguous_all (kinematicsStage_tree _ _)
  · intro hb
    rw [e]
    simp only [List.append_assoc]
    rw [isContiguous_append_left _ (ne_of_tree s0 (by decide))]
    exact isContiguous_block (trackRows_no_tof _ _ _ hb)
      (no_tree_append (ne_of_tree (caloRows_tree _ fESD.emcalCells) (by decide))
        (no_tree_append (ne_of_tree (caloTriggerRows_tree _ _) (by decide))
        (no_tree_append (ne_of_tree (caloRows_tree _ fESD.phosCells) (by decide))
        (no_tree_append (muonRows_ne _ _ _ _ _ (by decide) (by decide))
        (no_tree_append (ne_of_tree s6 (by decide))
        (no_tree_append (ne_of_tree s7 (by decide))
        (no_tree_append (ne_of_tree (v0Rows_tree _ _) (by decide))
        (no_tree_append (ne_of_tree (cascadeBlock_tree _ _ _ _) (by decide))
        (ne_of_tree (kinematicsStage_tree _ _) (by decide))))))))))

/-- C14 on an event with 2 tracks, one muon track with two clusters and an
offline V0: the event row is the first of the 9 `FillTree` calls. -/
theorem fill_sequence_order_witness :
    (eventRows sampleBuild sampleTask (sampleEvent 2 [some ⟨false, 0, 1⟩] []) 1 none).abort
      = none ∧
    (eventRows sampleBuild sampleTask (sampleEvent 2 [some ⟨false, 0, 1⟩] []) 1 none).rows
      = [Row.events (GetEventIdAsLong ⟨1, 2, 3⟩) 0 0, Row.tracks 1, Row.tracks 1, Row.muon 1,
         Row.muonCls 0, Row.muonCls 0, Row.zdc 1 0, Row.vzero 1, Row.v0s 0 1] ∧
    isContiguous .kV0s
      (eventRows sampleBuild sampleTask (sampleEvent 2 [some ⟨false, 0, 1⟩] []) 1 none).rows
      = true :=
  have h := fill_sequence_order sampleBuild sampleTask (sampleEvent 2 [some ⟨false, 0, 1⟩] [])
    1 none (by decide)
  ⟨by decide, h.1.trans (by decide), h.2.2.1 .kV0s (by decide)⟩

/-- C14 as stated fails for the calorimeter and muon trees: on an accepted
event with one EMCAL cell, one calorimeter trigger entry, one PHOS cell and
two muon tracks with one cluster each, the trigger row stands between the two
cell rows and the cluster row of the first muon track between the two muon
rows. -/
theorem calo_and_muon_rows_interleave :
    (UserExec sampleBuild (UserCreateOutputObjects sampleTask) sampleCaloInput).abort = none ∧
    (UserExec sampleBuild (UserCreateOutputObjects sampleTask) sampleCaloInput).task.filled.map
        Row.tree
      = [.kEvents, .kTracks, .kCalo, .kCaloTrigger, .kCalo, .kMuon, .kMuonCls, .kMuon,
         .kMuonCls, .kZdc, .kVzero] ∧
    isContiguous .kCalo
      (UserExec sampleBuild (UserCreateOutputObjects sampleTask) sampleCaloInput).task.filled
      = false ∧
    isContiguous .kMuon
      (UserExec sampleBuild (UserCreateOutputObjects sampleTask) sampleCaloInput).task.filled
      = false := by
  refine ⟨by decide, by decide, by decide, by decide⟩

/-! ### The event time (C17) -/

/-- The momentum-bin loop overwrites entries `i, i + 1, ..` of the three
arrays with the values of the bins and leaves the entries after them as they
were. -/
theorem fillEventTime_spec (bins : List (ℚ × ℚ)) (i : Nat) (pt pr pw rt rr rwt : List ℚ)
    (h1 : pt.length = i) (h2 : pr.length = i) (h3 : pw.length = i)
    (h4 : bins.length ≤ rt.length) (h5 : bins.length ≤ rr.length)
    (h6 : bins.length ≤ rwt.length) (h7 : i + bins.length ≤ 10) :
    fillEventTime i bins ⟨pt ++ rt, pr ++ rr, pw ++ rwt⟩ =
      ⟨pt ++ bins.map (fun p => p.1) ++ rt.drop bins.length,
       pr ++ bins.map (fun p => p.2) ++ rr.drop bins.length,
       pw ++ bins.map (fun p => 1 / (p.2 * p.2)) ++ rwt.drop bins.length⟩ := by
  induction bins generalizing i pt pr pw rt rr rwt with
  | nil => simp [fillEventTime]
  | cons p rest ih =>
    obtain ⟨t, r⟩ := p
    cases rt with
    | nil => simp at h4
    | cons a1 rt1 =>
      cases rr with
      | nil => simp at h5
      | cons a2 rr1 =>
        cases rwt with
        | nil => simp at h6
        | cons a3 rwt1 =>
          simp only [List.length_cons] at h4 h5 h6 h7
          rw [fillEventTime, if_neg (by omega)]
          have e1 : (pt ++ a1 :: rt1).set i t = (pt ++ [t]) ++ rt1 := by
            simp [List.set_append, h1]
          have e2 : (pr ++ a2 :: rr1).set i r = (pr ++ [r]) ++ rr1 := by
            simp [List.set_append, h2]
          have e3 : (pw ++ a3 :: rwt1).set i (1 / (r * r)) = (pw ++ [1 / (r * r)]) ++ rwt1 := by
            simp [List.set_append, h3]
          simp only [e1, e2, e3]
          rw [ih (i + 1) (pt ++ [t]) (pr ++ [r]) (pw ++ [1 / (r * r)]) rt1 rr1 rwt1
            (by simp [h1]) (by simp [h2]) (by simp [h3]) (by omega) (by omega) (by omega)
            (by omega)]
          simp

/-- With at most 10 bins, `fEventTime` is ROOT's weighted mean over the ten
entries of the arrays: those of the bins, followed by what the arrays held
before the loop at the remaining indices. -/
theorem fEventTime_eq (stack : EventTimeArrays) (bins : List (ℚ × ℚ))
    (h1 : stack.eventTime.length = 10) (h2 : stack.eventTimeRes.length = 10)
    (h3 : stack.eventTimeWeight.length = 10) (hn : bins.length ≤ 10) :
    fEventTime stack bins = TMath.Mean 10
      (bins.map (fun p => p.1) ++ stack.eventTime.drop bins.length)
      (bins.map (fun p => 1 / (p.2 * p.2)) ++ stack.eventTimeWeight.drop bins.length) := by
  unfold fEventTime
  have := fillEventTime_spec bins 0 [] [] [] stack.eventTime stack.eventTimeRes
    stack.eventTimeWeight rfl rfl rfl (by omega) (by omega) (by omega) (by omega)
  simp only [List.nil_append] at this
  rw [this]

theorem sum_pos_of_pos (l : List ℚ) (h : ∀ x ∈ l, 0 < x) (hl : l ≠ []) : 0 < l.sum := by
  induction l with
  | nil => exact absurd rfl hl
  | cons x xs ih =>
    rw [List.sum_cons]
    have hx := h x (List.mem_cons_self _ _)
    by_cases hxs : xs = []
    · rw [hxs]; simpa using hx
    · have := ih (fun y hy => h y (List.mem_cons_of_mem _ hy)) hxs
      linarith

/-- With exactly 10 bins of positive resolution, `fEventTime` is the
inverse-variance weighted mean of the bins. -/
theorem fEventTime_ten_bins (stack : EventTimeArrays) (bins : List (ℚ × ℚ))
    (h1 : stack.eventTime.length = 10) (h2 : stack.eventTimeRes.length = 10)
    (h3 : stack.eventTimeWeight.length = 10) (hn : bins.length = 10)
    (hr : ∀ p ∈ bins, 0 < p.2) : fEventTime stack bins = weightedMean bins := by
  rw [fEventTime_eq stack bins h1 h2 h3 (by omega), hn,
    List.drop_of_length_le (by omega), List.drop_of_length_le (by omega)]
  simp only [List.append_nil]
  unfold TMath.Mean weightedMean
  have ht : ∀ (f : ℚ × ℚ → ℚ), (bins.map f).take 10 = bins.map f := fun f =>
    List.take_of_length_le (by rw [List.length_map]; omega)
  simp only [ht, List.zip_map', List.map_map]
  have hw : ∀ p ∈ bins, 0 < 1 / (p.2 * p.2) := fun p hp =>
    one_div_pos.mpr (mul_pos (hr p hp) (hr p hp))
  have hany : (bins.map (fun a => (a.1, 1 / (a.2 * a.2)))).any (fun p => decide (p.2 < 0))
      = false := by
    rw [List.any_eq_false]
    intro x hx
    rw [List.mem_map] at hx
    obtain ⟨p, hp, rfl⟩ := hx
    simpa using (hw p hp).le
  have hsum : 0 < (bins.map (fun p => 1 / (p.2 * p.2))).sum := by
    apply sum_pos_of_pos
    · intro x hx
      rw [List.mem_map] at hx
      obtain ⟨p, hp, rfl⟩ := hx
      exact hw p hp
    · intro hnil
      rw [List.map_eq_nil_iff] at hnil
      rw [hnil] at hn
      simp at hn
  have hcomp1 : ((fun p : ℚ × ℚ => p.2 * p.1) ∘ fun a : ℚ × ℚ => (a.1, 1 / (a.2 * a.2)))
      = fun p => p.1 / (p.2 * p.2) := by
    funext p
    simp only [Function.comp]
    ring
  have hcomp2 : ((fun p : ℚ × ℚ => p.2) ∘ fun a : ℚ × ℚ => (a.1, 1 / (a.2 * a.2)))
      = fun p => 1 / (p.2 * p.2) := rfl
  rw [hany, hcomp1, hcomp2]
  simp only [Bool.false_eq_true, if_false]
  rw [if_neg (not_le.mpr hsum)]

/-- C17. `fEventTime` is `TMath::Mean(10, eventTime, eventTimeWeight)` whatever
the number `n` of bins, and the arrays are not initialised: with fewer than
10 bins the mean also runs over the entries `n` to 9 as the stack left them.
With the single bin `(t, r) = (5, 1)`, whose weighted mean is `5`, the result
is `1/2` when the unset entries hold time `0` and weight `1`, and `5` when
they hold zeros; so it is not the weighted mean of the bins and it depends on
more than the bins. In general, with `n ≤ 10` bins the result is ROOT's mean
over the bins followed by the old entries `n` to 9; with exactly 10 bins of
positive resolution it is the weighted mean of the bins. -/
theorem fEventTime_reads_unset_entries :
    weightedMean [(5, 1)] = 5 ∧
    fEventTime ⟨List.replicate 10 0, List.replicate 10 0, List.replicate 10 1⟩ [(5, 1)]
      = 1 / 2 ∧
    fEventTime ⟨List.replicate 10 0, List.replicate 10 0, List.replicate 10 0⟩ [(5, 1)]
      = 5 ∧
    (∀ (stack : EventTimeArrays) (bins : List (ℚ × ℚ)), stack.eventTime.length = 10 →
      stack.eventTimeRes.length = 10 → stack.eventTimeWeight.length = 10 →
      bins.length ≤ 10 →
      fEventTime stack bins = TMath.Mean 10
        (bins.map (fun p => p.1) ++ stack.eventTime.drop bins.length)
        (bins.map (fun p => 1 / (p.2 * p.2)) ++ stack.eventTimeWeight.drop bins.length)) ∧
    (∀ (stack : EventTimeArrays) (bins : List (ℚ × ℚ)), stack.eventTime.length = 10 →
      stack.eventTimeRes.length = 10 → stack.eventTimeWeight.length = 10 →
      bins.length = 10 → (∀ p ∈ bins, 0 < p.2) →
      fEventTime stack bins = weightedMean bins) := by
  refine ⟨?_, ?_, ?_, fEventTime_eq, fEventTime_ten_bins⟩
  · norm_num [weightedMean]
  · norm_num [fEventTime, fillEventTime, TMath.Mean, List.replicate]
  · norm_num [fEventTime, fillEventTime, TMath.Mean, List.replicate]

/-! ### Column pruning (C11) -/

theorem hasBranch_cons (name : String) (branches : List TBranch)
    (rest : List (Option (List TBranch))) :
    hasBranch name (some branches :: rest)
      = (branches.any (fun br => decide (br.name = name)) || hasBranch name rest) := by
  simp [hasBranch]

/-- On trees that all exist, the loop for one token switches off the branches
of that name in every tree, and finds one exactly when some tree has one. -/
theorem pruneToken_created (token : String) (trees : List (Option (List TBranch)))
    (h : ∀ tree ∈ trees, tree ≠ none) :
    pruneToken token trees
      = some (trees.map (Option.map (disableBranch token)), hasBranch token trees) := by
  induction trees with
  | nil => simp [pruneToken, hasBranch]
  | cons tree rest ih =>
    cases tree with
    | none => exact absurd rfl (h none (List.mem_cons_self _ _))
    | some branches =>
      rw [pruneToken, ih (fun t ht => h t (List.mem_cons_of_mem _ ht)), hasBranch_cons]
      simp

theorem hasBranch_disableBranch (name token : String) (trees : List (Option (List TBranch))) :
    hasBranch name (trees.map (Option.map (disableBranch token))) = hasBranch name trees := by
  induction trees with
  | nil => rfl
  | cons tree rest ih =>
    cases tree with
    | none => simpa [hasBranch] using ih
    | some branches =>
      rw [List.map_cons, Option.map_some', hasBranch_cons, hasBranch_cons, ih]
      congr 1
      unfold disableBranch
      rw [List.any_map]
      congr 1
      funext br
      by_cases hb : br.name = token
      · simp [hb]
      · simp [hb]

theorem created_disableBranch (token : String) (trees : List (Option (List TBranch)))
    (h : ∀ tree ∈ trees, tree ≠ none) :
    ∀ tree ∈ trees.map (Option.map (disableBranch token)), tree ≠ none := by
  intro tree ht
  rw [List.mem_map] at ht
  obtain ⟨t0, h0, rfl⟩ := ht
  cases t0 with
  | none => exact absurd rfl (h none h0)
  | some branches => simp

/-- When every token names a branch of some tree, the token loop completes and
has switched off exactly the branches whose name is a token, in every tree. -/
theorem pruneTokens_found (tokens : List String) (trees : List (Option (List TBranch)))
    (h : ∀ tree ∈ trees, tree ≠ none) (hf : ∀ token ∈ tokens, hasBranch token trees = true) :
    pruneTokens tokens trees
      = (trees.map (Option.map (List.map (fun br =>
          if br.name ∈ tokens then { br with status := false } else br))), none) := by
  induction tokens generalizing trees with
  | nil => simp [pruneTokens]
  | cons token rest ih =>
    rw [pruneTokens, pruneToken_created token trees h]
    simp only [hf token (List.mem_cons_self _ _), Bool.not_true, Bool.false_eq_true, if_false]
    rw [ih _ (created_disableBranch token trees h) (fun tok ht => by
      rw [hasBranch_disableBranch]; exact hf tok (List.mem_cons_of_mem _ ht))]
    simp only [List.map_map, Prod.mk.injEq, and_true]
    apply List.map_congr_left
    intro tree _
    cases tree with
    | none => rfl
    | some branches =>
      simp only [Function.comp, Option.map_some', Option.some.injEq]
      unfold disableBranch
      rw [List.map_map]
      apply List.map_congr_left
      intro br _
      by_cases hb : br.name = token
      · simp [hb]
      · by_cases hr : br.name ∈ rest
        · simp [hb, hr]
        · simp [hb, hr]

/-- A token that names no branch of any tree stops the token loop with the
fatal message. -/
theorem pruneTokens_unfound (tokens : List String) (trees : List (Option (List TBranch)))
    (h : ∀ tree ∈ trees, tree ≠ none)
    (hf : ∃ token ∈ tokens, hasBranch token trees = false) :
    (pruneTokens tokens trees).2 = some .fatalDidNotFindBranch := by
  induction tokens generalizing trees with
  | nil => obtain ⟨token, ht, _⟩ := hf; simp at ht
  | cons token rest ih =>
    rw [pruneTokens, pruneToken_created token trees h]
    by_cases hb : hasBranch token trees = true
    · simp only [hb, Bool.not_true, Bool.false_eq_true, if_false]
      apply ih _ (created_disableBranch token trees h)
      obtain ⟨tok, ht, hno⟩ := hf
      rcases List.mem_cons.mp ht with rfl | ht
      · rw [hb] at hno; simp at hno
      · exact ⟨tok, ht, by rw [hasBranch_disableBranch]; exact hno⟩
    · simp [hb]

/-- The scan behind `Tokenize(" ")` is the split at blanks with the empty
pieces dropped, `cur` being the piece under way. -/
theorem tokenizeFrom_eq (l cur : List Char) :
    TString.tokenizeFrom cur l
      = ((List.splitOnP.go (fun ch => ch == ' ') l cur.reverse).filter
          (fun w => !w.isEmpty)).map String.mk := by
  induction l generalizing cur with
  | nil =>
    unfold TString.tokenizeFrom List.splitOnP.go
    cases cur <;> simp
  | cons ch rest ih =>
    unfold TString.tokenizeFrom List.splitOnP.go
    by_cases hc : (ch == ' ') = true
    · simp only [hc, if_true]
      rw [ih []]
      cases cur <;> simp
    · simp only [hc, if_false, Bool.false_eq_true]
      rw [ih (cur ++ [ch])]
      simp

theorem Tokenize_eq (s : String) :
    TString.Tokenize s
      = ((s.data.splitOn ' ').filter (fun w => !w.isEmpty)).map String.mk := by
  unfold TString.Tokenize
  rw [tokenizeFrom_eq]
  rfl

/-- A list that is neither empty nor all blanks has a token. -/
theorem tokenizeFrom_ne_nil (l cur : List Char)
    (h : cur ≠ [] ∨ ∃ ch ∈ l, ch ≠ ' ') : TString.tokenizeFrom cur l ≠ [] := by
  induction l generalizing cur with
  | nil =>
    rcases h with h | ⟨ch, hm, _⟩
    · unfold TString.tokenizeFrom
      cases cur with
      | nil => exact absurd rfl h
      | cons x xs => simp
    · simp at hm
  | cons ch rest ih =>
    unfold TString.tokenizeFrom
    by_cases hc : (ch == ' ') = true
    · simp only [hc, if_true]
      cases cur with
      | nil =>
        simp only [List.isEmpty_nil, if_true]
        apply ih
        right
        rcases h with h | ⟨x, hm, hx⟩
        · exact absurd rfl h
        · rcases List.mem_cons.mp hm with rfl | hm
          · simp at hc; exact absurd hc hx
          · exact ⟨x, hm, hx⟩
      | cons x xs => simp
    · simp only [hc, if_false, Bool.false_eq_true]
      apply ih
      left
      simp

theorem Tokenize_ne_nil (s : String) (h2 : TString.IsWhitespace s = false) :
    TString.Tokenize s ≠ [] := by
  unfold TString.Tokenize
  apply tokenizeFrom_ne_nil
  right
  unfold TString.IsWhitespace at h2
  rw [List.all_eq_false] at h2
  obtain ⟨ch, hm, hch⟩ := h2
  exact ⟨ch, hm, by simpa using hch⟩

/-- The loop over the trees for one token reads a tree that was not created as
soon as there is one. -/
theorem pruneToken_missing (token : String) (trees : List (Option (List TBranch)))
    (h : none ∈ trees) : pruneToken token trees = none := by
  induction trees with
  | nil => simp at h
  | cons tree rest ih =>
    cases tree with
    | none => rfl
    | some branches =>
      have hr : none ∈ rest := by simpa using h
      rw [pruneToken, ih hr]

theorem createdTrees_missing (b : Build) (branches : TreeIndex → List TBranch)
    (h : b.USE_TOF_CLUST = false ∨ b.USE_MC = false) : none ∈ createdTrees b branches := by
  unfold createdTrees
  rcases h with h | h
  · simp [h]
  · simp [h]

theorem createdTrees_full (b : Build) (branches : TreeIndex → List TBranch)
    (h1 : b.USE_TOF_CLUST = true) (h2 : b.USE_MC = true) :
    ∀ tree ∈ createdTrees b branches, tree ≠ none := by
  unfold createdTrees
  simp [h1, h2]

/-- On a list with a token, `Prune` over an array with a missing tree reads
through the pointer of that tree. -/
theorem Prune_missing (list : String) (trees : List (Option (List TBranch)))
    (h1 : TString.IsNull list = false) (h2 : TString.IsWhitespace list = false)
    (h : none ∈ trees) : (Prune ⟨list, trees⟩).2 = some .undefinedBehaviour := by
  unfold Prune
  simp only [h1, h2, Bool.or_self, Bool.false_eq_true, if_false]
  cases ht : TString.Tokenize list with
  | nil => exact absurd ht (Tokenize_ne_nil list h2)
  | cons token rest =>
    rw [pruneTokens, pruneToken_missing token trees h]

/-- C11. `Prune` on a prune list that is empty or consists of blanks only
returns at once. On any other list it takes the tokens (the pieces between
blanks, empty pieces dropped) one by one and, for each, walks over all twelve
slots of `fTree` without a null test. The slots of the TOF and kinematics
trees are assigned only under `USE_TOF_CLUST` and `USE_MC`; in a build
without one of the macros every list with a token ends in a read through the
pointer of a tree that was never created, whatever the branches are: no branch
is reported missing and `Prune` does not return. Only with both macros are all
trees created, and over created trees `Prune` does what is claimed: when every
token is the name of a branch of some tree it completes, clears the list and
has switched off exactly the branches whose name is a token, in every tree;
when some token is the name of no branch it aborts with the fatal message.
With the trees of a task in standard mode: without the macros the list `"fX"`
ends in the read of the missing TOF tree; with both macros it switches `fX`
off in the events, track and muon-cluster trees, and `"fX fNope"` is fatal. -/
theorem Prune_reads_missing_tree :
    (∀ s, TString.Tokenize s
      = ((s.data.splitOn ' ').filter (fun w => !w.isEmpty)).map String.mk) ∧
    TString.Tokenize " fX  fAlpha " = ["fX", "fAlpha"] ∧
    (∀ s : PruneState,
      (TString.IsNull s.fPruneList = true ∨ TString.IsWhitespace s.fPruneList = true) →
      Prune s = (s, none)) ∧
    (∀ (b : Build) (c : Converter) (statusAtkMC : Bool) (list : String),
      (b.USE_TOF_CLUST = false ∨ b.USE_MC = false) →
      TString.IsNull list = false → TString.IsWhitespace list = false →
      (Prune ⟨list, fTreeBeforePrune b c statusAtkMC⟩).2 = some .undefinedBehaviour) ∧
    (∀ (b : Build) (c : Converter) (statusAtkMC : Bool),
      b.USE_TOF_CLUST = true → b.USE_MC = true →
      ∀ tree ∈ fTreeBeforePrune b c statusAtkMC, tree ≠ none) ∧
    (∀ s : PruneState, TString.IsNull s.fPruneList = false →
      TString.IsWhitespace s.fPruneList = false → (∀ tree ∈ s.fTree, tree ≠ none) →
      ((∀ token ∈ TString.Tokenize s.fPruneList, hasBranch token s.fTree = true) →
        Prune s = (⟨"", s.fTree.map (Option.map (List.map (fun br =>
          if br.name ∈ TString.Tokenize s.fPruneList then { br with status := false }
          else br)))⟩, none)) ∧
      ((∃ token ∈ TString.Tokenize s.fPruneList, hasBranch token s.fTree = false) →
        (Prune s).2 = some .fatalDidNotFindBranch)) ∧
    (Prune ⟨"fX", fTreeBeforePrune sampleBuild sampleTask true⟩).2
      = some .undefinedBehaviour ∧
    (Prune ⟨"fX", fTreeBeforePrune fullBuild sampleTask true⟩).2 = none ∧
    (Prune ⟨"fX", fTreeBeforePrune fullBuild sampleTask true⟩).1.fTree.map
        (fun tree => match tree with
          | some branches => (branches.filter (fun br => !br.status)).map (fun br => br.name)
          | none => [])
      = [["fX"], ["fX"], [], [], [], ["fX"], [], [], [], [], [], []] ∧
    (Prune ⟨"fX fNope", fTreeBeforePrune fullBuild sampleTask true⟩).2
      = some .fatalDidNotFindBranch ∧
    (Prune ⟨"  ", fTreeBeforePrune sampleBuild sampleTask true⟩).2 = none := by
  refine ⟨Tokenize_eq, by decide, ?_, ?_, ?_, ?_, by decide, by decide, by decide,
    by decide, by decide⟩
  · intro s hb
    unfold Prune
    rw [if_pos (by simpa using hb)]
  · intro b c statusAtkMC list hm h1 h2
    exact Prune_missing list _ h1 h2 (createdTrees_missing b _ hm)
  · intro b c statusAtkMC h1 h2
    exact createdTrees_full b _ h1 h2
  · intro s h1 h2 hc
    have hne : ¬ (TString.IsNull s.fPruneList || TString.IsWhitespace s.fPruneList) = true := by
      simp [h1, h2]
    constructor
    · intro hf
      unfold Prune
      rw [if_neg hne, pruneTokens_found _ _ hc hf]
    · intro hf
      have := pruneTokens_unfound _ _ hc hf
      unfold Prune
      rw [if_neg hne]
      rcases hp : pruneTokens (TString.Tokenize s.fPruneList) s.fTree with ⟨trees, _ | a⟩
      · rw [hp] at this; simp at this
      · rw [hp] at this
        simp only [Option.some.injEq] at this
        simp [this]

/-! ### Bits set and cleared -/

theorem testBit_SETBIT (n i k : Nat) :
    (SETBIT n i).testBit k = (n.testBit k || decide (i = k)) := by
  unfold SETBIT
  rw [Nat.testBit_or, Nat.one_shiftLeft, Nat.testBit_two_pow]

theorem testBit_CLRBIT (n i k : Nat) :
    (CLRBIT n i).testBit k = (n.testBit k && !decide (i = k)) := by
  unfold CLRBIT
  rw [Nat.testBit_xor, Nat.testBit_and, Nat.one_shiftLeft, Nat.testBit_two_pow]
  by_cases h : i = k
  · cases n.testBit k <;> simp [h]
  · cases n.testBit k <;> simp [h]

/-- Setting or clearing each of the bits `0 .. n-1` from a flag leaves bit `k`
equal to its flag for `k < n`, and as it was for `k ≥ n`. -/
theorem testBit_foldl_bits (flag : Nat → Bool) (n id k : Nat) :
    ((List.range n).foldl
      (fun id gen => if flag gen then SETBIT id gen else CLRBIT id gen) id).testBit k
      = if k < n then flag k else id.testBit k := by
  induction n with
  | zero => simp
  | succ n ih =>
    rw [List.range_succ, List.foldl_append, List.foldl_cons, List.foldl_nil]
    by_cases hf : flag n = true
    · rw [if_pos hf, testBit_SETBIT, ih]
      by_cases hk : n = k
      · subst hk; simp [hf]
      · have : (k < n + 1) = (k < n) := by
          apply propext; constructor <;> intro h <;> omega
        simp [hk, this]
    · rw [if_neg hf, testBit_CLRBIT, ih]
      by_cases hk : n = k
      · subst hk; simp [hf]
      · have : (k < n + 1) = (k < n) := by
          apply propext; constructor <;> intro h <;> omega
        simp [hk, this]

/-- Setting the bits whose flag is true, on a word whose bits `0 .. n-1`
already equal their flags, changes nothing below `n`. -/
theorem testBit_foldl_set (flag : Nat → Bool) (n id k : Nat) :
    ((List.range n).foldl
      (fun id gen => if flag gen then SETBIT id gen else id) id).testBit k
      = (id.testBit k || (decide (k < n) && flag k)) := by
  induction n with
  | zero => simp
  | succ n ih =>
    rw [List.range_succ, List.foldl_append, List.foldl_cons, List.foldl_nil]
    by_cases hf : flag n = true
    · rw [if_pos hf, testBit_SETBIT, ih]
      by_cases hk : n = k
      · subst hk; simp [hf]
      · have : (k < n + 1) = (k < n) := by
          apply propext; constructor <;> intro h <;> omega
        simp [hk, this]
    · rw [if_neg hf, ih]
      by_cases hk : n = k
      · subst hk; simp [hf]
      · have : (k < n + 1) = (k < n) := by
          apply propext; constructor <;> intro h <;> omega
        simp [hk, this]

/-! ### The event-time mask (C25) -/

theorem testBit_ite_bit (c : Prop) [Decidable c] (n i k : Nat) :
    (if c then SETBIT n i else CLRBIT n i).testBit k
      = if i = k then decide c else n.testBit k := by
  by_cases hc : c
  · rw [if_pos hc, testBit_SETBIT]
    by_cases hk : i = k
    · simp [hk, hc]
    · simp [hk]
  · rw [if_neg hc, testBit_CLRBIT]
    by_cases hk : i = k
    · simp [hk, hc]
    · simp [hk]

/-- The bits of the mask after one momentum bin with start-time mask `m`. -/
theorem testBit_eventTimeLoop_one (m M k : Nat) :
    (eventTimeLoop 0 [m] M).1.testBit k =
      if k = 0 then decide (m &&& 1 ≠ 0)
      else if k = 1 then decide (m &&& 2 ≠ 0)
      else if k = 2 then decide (m &&& 3 ≠ 0)
      else M.testBit k := by
  have e : (eventTimeLoop 0 [m] M).1 =
      if m &&& 3 ≠ 0 then
        SETBIT (if m &&& 2 ≠ 0 then SETBIT (if m &&& 1 ≠ 0 then SETBIT M 0 else CLRBIT M 0) 1
          else CLRBIT (if m &&& 1 ≠ 0 then SETBIT M 0 else CLRBIT M 0) 1) 2
      else
        CLRBIT (if m &&& 2 ≠ 0 then SETBIT (if m &&& 1 ≠ 0 then SETBIT M 0 else CLRBIT M 0) 1
          else CLRBIT (if m &&& 1 ≠ 0 then SETBIT M 0 else CLRBIT M 0) 1) 2 := rfl
  rw [e]
  simp only [testBit_ite_bit]
  rcases k with _ | _ | _ | k
  · rfl
  · rfl
  · rfl
  · have h0 : ¬ (0 = k + 1 + 1 + 1) := by omega
    have h1 : ¬ (1 = k + 1 + 1 + 1) := by omega
    have h2 : ¬ (2 = k + 1 + 1 + 1) := by omega
    have h3 : ¬ (k + 1 + 1 + 1 = 0) := by omega
    have h4 : ¬ (k + 1 + 1 + 1 = 1) := by omega
    have h5 : ¬ (k + 1 + 1 + 1 = 2) := by omega
    simp only [h0, h1, h2, h3, h4, h5, if_false]

theorem eventTimeLoop_cons (x : Nat) (rest : List Nat) (i M : Nat) (h : i < 10) :
    eventTimeLoop i (x :: rest) M = eventTimeLoop (i + 1) rest (eventTimeLoop 0 [x] M).1 := by
  simp [eventTimeLoop, Nat.not_le.mpr h]

theorem eventTimeLoop_one_twice (m x M : Nat) :
    (eventTimeLoop 0 [m] (eventTimeLoop 0 [x] M).1).1 = (eventTimeLoop 0 [m] M).1 := by
  apply Nat.eq_of_testBit_eq
  intro k
  rw [testBit_eventTimeLoop_one, testBit_eventTimeLoop_one m M, testBit_eventTimeLoop_one x M]
  rcases k with _ | _ | _ | k <;> simp

/-- With at most 10 bins, the loop leaves the mask that the last bin alone
would leave, and does not stop. -/
theorem eventTimeLoop_last (pre : List Nat) (m i M : Nat) (h : i + pre.length < 10) :
    eventTimeLoop i (pre ++ [m]) M = ((eventTimeLoop 0 [m] M).1, none) := by
  induction pre generalizing i M with
  | nil =>
    simp only [List.length_nil, Nat.add_zero] at h
    simp [eventTimeLoop, Nat.not_le.mpr h]
  | cons x rest ih =>
    simp only [List.length_cons] at h
    rw [List.cons_append, eventTimeLoop_cons _ _ _ _ (by omega), ih _ _ (by omega),
      eventTimeLoop_one_twice]

theorem prepareEvent_ok_mask {b : Build} {c c1 : Converter} {inp : Input}
    {fESD : AliESDEvent} {MCEvt : Option AliMCEvent}
    (h : prepareEvent b c inp fESD = .ok (c1, MCEvt)) :
    eventTimeLoop 0 inp.startTimeMask c.fEventTimeMask = (c1.fEventTimeMask, none) := by
  unfold prepareEvent at h
  cases h1 : mcEvent c inp with
  | error a => simp [h1] at h
  | ok MCEvt1 =>
    simp only [h1] at h
    by_cases hv : fESD.hasPrimaryVertex = true
    · simp only [hv, Bool.not_true, Bool.false_eq_true, if_false] at h
      rcases h2 : eventTimeLoop 0 inp.startTimeMask c.fEventTimeMask with ⟨mask, _ | a⟩
      · simp only [h2] at h
        rcases h3 : generatorStage b c.fGeneratorID MCEvt1 with ⟨id, _ | a⟩
        · simp only [h3, Except.ok.injEq, Prod.mk.injEq] at h
          rw [← h.1]
        · simp [h3] at h
      · simp [h2] at h
    · simp [hv] at h

/-- A row of the events tree among the rows of an event, complete or not, is
the event row, with the masks the task holds at the first `FillTree`. -/
theorem eventRows_mem_events {b : Build} {c : Converter} {fESD : AliESDEvent}
    {eventID : Int} {MCEvt : Option AliMCEvent} {r : Row}
    (h : r ∈ (eventRows b c fESD eventID MCEvt).rows) (ht : r.tree = .kEvents) :
    r = Row.events (GetEventIdAsLong fESD.header) c.fEventTimeMask c.fGeneratorID := by
  have hx : ∀ {t : TreeIndex}, r.tree = t → t ≠ .kEvents → False :=
    fun h1 h2 => h2 (h1.symm.trans ht)
  unfold eventRows at h
  rcases Emit.mem_seq h with h | h
  · rcases Emit.mem_seq h with h | h
    · rcases Emit.mem_seq h with h | h
      · rcases Emit.mem_seq h with h | h
        · rcases Emit.mem_seq h with h | h
          · rcases Emit.mem_seq h with h | h
            · rcases Emit.mem_seq h with h | h
              · rcases Emit.mem_seq h with h | h
                · rcases Emit.mem_seq h with h | h
                  · rcases Emit.mem_seq h with h | h
                    · simpa using h
                    · rcases trackRows_tree _ _ _ r h with h | h
                      · subst h; simp at ht
                      · subst h; simp at ht
                  · exact (hx (caloRows_tree _ _ r h) (by decide)).elim
                · exact (hx (caloTriggerRows_tree _ _ r h) (by decide)).elim
              · exact (hx (caloRows_tree _ _ r h) (by decide)).elim
            · rcases (isMuonish_iff r).mp (muonRows_tree _ _ _ _ r h) with h | h
              · exact (hx h (by decide)).elim
              · exact (hx h (by decide)).elim
          · simp only [List.mem_singleton] at h
            subst h; simp at ht
        · simp only [List.mem_singleton] at h
          subst h; simp at ht
      · exact (hx (v0Rows_tree _ _ r h) (by decide)).elim
    · exact (hx (cascadeBlock_tree _ _ _ _ r h) (by decide)).elim
  · exact (hx (kinematicsStage_tree _ _ r h) (by decide)).elim

/-- The prepared state behind the rows of a call: when `UserExec` reaches the
first `FillTree`, the momentum-bin loop has completed and left its mask in the
state `fillEvent` starts from. -/
theorem UserExec_rows_mask (b : Build) (c : Converter) (inp : Input) :
    (UserExec b c inp).task.filled = c.filled ∨
    ∃ fESD c1 MCEvt, inp.InputEvent = some fESD ∧ rejected c inp = false ∧
      SameUpToMasks c c1 ∧
      eventTimeLoop 0 inp.startTimeMask c.fEventTimeMask = (c1.fEventTimeMask, none) ∧
      UserExec b c inp = fillEvent b c1 fESD inp.GetNcalls MCEvt := by
  cases hin : inp.InputEvent with
  | none => left; simp [UserExec, hin]
  | some fESD =>
    by_cases hr : rejected c inp = true
    · left
      unfold rejected at hr
      simp [UserExec, hin, hr]
    · have hr : rejected c inp = false := by simpa using hr
      rw [UserExec_eq_processEvent hin hr]
      unfold processEvent
      cases hp : prepareEvent b c inp fESD with
      | error out => left; exact (prepareEvent_error hp).1.fields.1
      | ok p =>
        obtain ⟨c1, MCEvt⟩ := p
        right
        exact ⟨fESD, c1, MCEvt, rfl, hr, prepareEvent_ok hp, prepareEvent_ok_mask hp, rfl⟩

theorem and_three_ne_zero (m : Nat) :
    decide (m &&& 3 ≠ 0) = (decide (m &&& 1 ≠ 0) || decide (m &&& 2 ≠ 0)) := by
  have h : ∀ j, 3 &&& j = j → m &&& j = (m % 4) &&& j := by
    intro j hj
    have h4 := Nat.and_pow_two_sub_one_eq_mod m 2
    have e : (2 : Nat) ^ 2 - 1 = 3 := rfl
    have e4 : (2 : Nat) ^ 2 = 4 := rfl
    rw [e, e4] at h4
    rw [← h4, Nat.and_assoc, hj]
  rw [h 3 (by decide), h 1 (by decide), h 2 (by decide)]
  have hr : m % 4 < 4 := Nat.mod_lt _ (by decide)
  generalize m % 4 = r at hr
  interval_cases r <;> decide

/-- A call of `fillEvent` that returns leaves the two mask members as they
were. -/
theorem fillEvent_ok_masks {b : Build} {c : Converter} {fESD : AliESDEvent} {eventID : Int}
    {MCEvt : Option AliMCEvent} (h : (fillEvent b c fESD eventID MCEvt).abort = none) :
    (fillEvent b c fESD eventID MCEvt).task.fEventTimeMask = c.fEventTimeMask ∧
    (fillEvent b c fESD eventID MCEvt).task.fGeneratorID = c.fGeneratorID := by
  unfold fillEvent at h ⊢
  simp only at h ⊢
  cases he : (eventRows b c fESD eventID MCEvt).abort with
  | some a => simp [he] at h
  | none =>
    simp only [he] at h ⊢
    rw [updateOffsets_ok h]
    simp [foldl_FillTree]

/-- C25. In any call of `UserExec` whose TOF response has `n ≥ 1` momentum
bins, the last with start-time mask `m`: every row the call appends to the
events tree carries an `fEventTimeMask` whose bit 0 is `m & 1 != 0`, bit 1 is
`m & 2 != 0` and bit 2 is `m & 3 != 0`, which is the or of bits 0 and 1, and
whose higher bits are those `fEventTimeMask` had before the call; it is the
mask the last bin alone would leave, so the masks of the earlier bins have no
effect. A call that returns with the events tree active appends exactly one
such row. -/
theorem fEventTimeMask_of_last_bin (b : Build) (c : Converter) (inp : Input)
    (pre : List Nat) (m : Nat) (hm : inp.startTimeMask = pre ++ [m]) :
    (∃ rows, (UserExec b c inp).task.filled = c.filled ++ rows ∧
      ∀ r ∈ rows, r.tree = .kEvents → ∃ id mask gen, r = Row.events id mask gen ∧
        mask = (eventTimeLoop 0 [m] c.fEventTimeMask).1 ∧
        mask.testBit 0 = decide (m &&& 1 ≠ 0) ∧
        mask.testBit 1 = decide (m &&& 2 ≠ 0) ∧
        mask.testBit 2 = decide (m &&& 3 ≠ 0) ∧
        mask.testBit 2 = (mask.testBit 0 || mask.testBit 1) ∧
        ∀ k, 3 ≤ k → mask.testBit k = c.fEventTimeMask.testBit k) ∧
    (∀ fESD, inp.InputEvent = some fESD → rejected c inp = false →
      (UserExec b c inp).abort = none → c.fTreeStatus .kEvents = true →
      (UserExec b c inp).task.fTree .kEvents = c.fTree .kEvents ++
        [Row.events (GetEventIdAsLong fESD.header)
          (eventTimeLoop 0 [m] c.fEventTimeMask).1 (UserExec b c inp).task.fGeneratorID]) := by
  have hbits : ∀ mask, mask = (eventTimeLoop 0 [m] c.fEventTimeMask).1 →
      mask.testBit 0 = decide (m &&& 1 ≠ 0) ∧
      mask.testBit 1 = decide (m &&& 2 ≠ 0) ∧
      mask.testBit 2 = decide (m &&& 3 ≠ 0) ∧
      mask.testBit 2 = (mask.testBit 0 || mask.testBit 1) ∧
      ∀ k, 3 ≤ k → mask.testBit k = c.fEventTimeMask.testBit k := by
    intro mask hmask
    subst hmask
    have h0 := testBit_eventTimeLoop_one m c.fEventTimeMask 0
    have h1 := testBit_eventTimeLoop_one m c.fEventTimeMask 1
    have h2 := testBit_eventTimeLoop_one m c.fEventTimeMask 2
    simp only [if_true, if_false, Nat.succ_ne_zero, OfNat.ofNat_ne_one] at h0 h1 h2
    refine ⟨h0, h1, h2, ?_, ?_⟩
    · rw [h0, h1, h2]
      exact and_three_ne_zero m
    · intro k hk
      rw [testBit_eventTimeLoop_one, if_neg (by omega), if_neg (by omega), if_neg (by omega)]
  have hmask : ∀ c1 : Converter,
      eventTimeLoop 0 inp.startTimeMask c.fEventTimeMask = (c1.fEventTimeMask, none) →
      c1.fEventTimeMask = (eventTimeLoop 0 [m] c.fEventTimeMask).1 := by
    intro c1 hl
    have hlen : ¬ 10 < 0 + inp.startTimeMask.length := by
      rw [← eventTimeLoop_abort_iff inp.startTimeMask 0 c.fEventTimeMask (by omega), hl]
      simp
    rw [hm, List.length_append, List.length_singleton] at hlen
    rw [hm, eventTimeLoop_last pre m 0 c.fEventTimeMask (by omega)] at hl
    exact (Prod.mk.inj hl).1.symm
  constructor
  · rcases UserExec_rows_mask b c inp with h | ⟨fESD, c1, MCEvt, _, _, hs, hl, h⟩
    · exact ⟨[], by rw [h]; simp, by simp⟩
    · refine ⟨(eventRows b c1 fESD inp.GetNcalls MCEvt).rows.filter
        (fun r => c1.fTreeStatus r.tree), ?_, ?_⟩
      · rw [h, fillEvent_filled, hs.fields.1]
      · intro r hr ht
        have hrow := eventRows_mem_events (List.mem_filter.mp hr).1 ht
        exact ⟨_, _, _, hrow, hmask c1 hl, hbits _ (hmask c1 hl)⟩
  · intro fESD hin hr h hE
    rw [UserExec_eq_processEvent hin hr] at h ⊢
    unfold processEvent at h ⊢
    cases hp : prepareEvent b c inp fESD with
    | error out =>
      rw [hp] at h
      exact absurd h (prepareEvent_error hp).2
    | ok p =>
      obtain ⟨c1, MCEvt⟩ := p
      rw [hp] at h
      simp only at h ⊢
      have hs := prepareEvent_ok hp
      rw [(fillEvent_ok_masks h).2, fillEvent_fTree, hs.fields.2.1, hE, if_pos rfl,
        eventRows_filter (fillEvent_ok h).1 _ (by decide) (by decide) (by decide) (by decide),
        hmask c1 (prepareEvent_ok_mask hp)]
      unfold Converter.fTree
      rw [hs.fields.1]
      simp

/-- C25 on an event with the two bins of masks `2` and `1`, after the mask
held `0xFA`: the event row carries `0xFD` (bits 0 and 2 set, bit 1 cleared,
bits 3 to 7 kept). -/
theorem fEventTimeMask_of_last_bin_witness :
    (UserExec sampleBuild { sampleTask with fEventTimeMask := 0xFA }
      { sampleInput 1 [] [] with startTimeMask := [2, 1] }).task.fTree .kEvents
      = [Row.events (GetEventIdAsLong ⟨1, 2, 3⟩) 0xFD 0] :=
  have h := (fEventTimeMask_of_last_bin sampleBuild { sampleTask with fEventTimeMask := 0xFA }
    { sampleInput 1 [] [] with startTimeMask := [2, 1] } [2] 1 rfl).2
    (sampleEvent 1 [] []) rfl (by decide) (by decide) (by decide)
  h.trans (by decide)

/-! ### The event identifier outside the field widths (C24) -/

theorem or_mod_two_pow (a b n : Nat) : (a ||| b) % 2 ^ n = a % 2 ^ n ||| b % 2 ^ n := by
  apply Nat.eq_of_testBit_eq
  intro i
  simp only [Nat.testBit_mod_two_pow, Nat.testBit_or]
  cases decide (i < n) <;> simp

/-- C24. `GetEventIdAsLong` masks none of its inputs: for every bunch
crossing, orbit and period it returns
`(bc | orbit * 2^12 | period * 2^36) mod 2^64`. Outside the field widths the
fields overlap and the identifier is not injective: the headers
`(bc, orbit, period) = (0, 2^24, 0)` and `(0, 0, 1)` differ and both get the
identifier `2^36`. -/
theorem GetEventIdAsLong_no_masking :
    (∀ bc orbit period, GetEventIdAsLong ⟨bc, orbit, period⟩
      = (bc ||| orbit * 2 ^ 12 ||| period * 2 ^ 36) % 2 ^ 64) ∧
    GetEventIdAsLong ⟨0, 2 ^ 24, 0⟩ = 2 ^ 36 ∧
    GetEventIdAsLong ⟨0, 0, 1⟩ = 2 ^ 36 ∧
    (⟨0, 2 ^ 24, 0⟩ : AliVHeader) ≠ ⟨0, 0, 1⟩ ∧
    ¬ Function.Injective GetEventIdAsLong := by
  refine ⟨?_, by decide, by decide, by decide, ?_⟩
  · intro bc orbit period
    unfold GetEventIdAsLong toULong64 shlULong64
    simp only [or_mod_two_pow, Nat.shiftLeft_eq, Nat.mod_mul_mod]
  · intro hinj
    have : (⟨0, 2 ^ 24, 0⟩ : AliVHeader) = ⟨0, 0, 1⟩ := hinj (by decide)
    exact absurd this (by decide)

/-! ### The index of the cascade lookup (C23) -/

theorem BinarySearch_range (sorted : List Nat) (key : Nat) :
    -1 ≤ TMath.BinarySearch sorted key ∧ TMath.BinarySearch sorted key < sorted.length := by
  have hle := lower_bound_le_length sorted key
  unfold TMath.BinarySearch
  simp only
  split
  · rename_i h
    have : TMath.lower_bound sorted key < sorted.length := lt_of_le_of_ne hle h.1
    omega
  · omega

theorem BinarySearch_below (sorted : List Nat) (key : Nat) (h : ∀ x ∈ sorted, key < x) :
    TMath.BinarySearch sorted key = -1 := by
  have hp : TMath.lower_bound sorted key = 0 := by
    unfold TMath.lower_bound
    cases sorted with
    | nil => rfl
    | cons x xs =>
      have hx := h x (List.mem_cons_self _ _)
      rw [List.takeWhile_cons, if_neg (by simpa using hx.le)]
      rfl
  unfold TMath.BinarySearch
  simp only [hp]
  rw [if_neg]
  · rfl
  · rintro ⟨hne, heq⟩
    cases sorted with
    | nil => exact hne rfl
    | cons x xs =>
      have hx := h x (List.mem_cons_self _ _)
      simp only [List.getD_cons_zero] at heq
      omega

/-- C23. The index `v0idx` that `TMath::BinarySearch` returns is always at
least `-1` and below the number of keys, but it is `-1` whenever the cascade
key is below every V0 key, and then `sortedPosNeg[v0idx]` is read before the
start of the array. On an event with the offline V0 `(0, 5)` and the offline
cascade `(0, 3)`, the keys are `5` and `3`, the search returns `-1`, and
`UserExec` stops at that read. -/
theorem BinarySearch_below_every_key :
    (∀ sorted key, -1 ≤ TMath.BinarySearch sorted key ∧
      TMath.BinarySearch sorted key < sorted.length) ∧
    (∀ sorted sortIdx key, (∀ x ∈ sorted, key < x) →
      TMath.BinarySearch sorted key = -1 ∧ lookupV0 sorted sortIdx key = none) ∧
    packPosNeg 0 5 = 5 ∧ packPosNeg 0 3 = 3 ∧
    TMath.BinarySearch [packPosNeg 0 5] (packPosNeg 0 3) = -1 ∧
    (UserExec sampleBuild (UserCreateOutputObjects sampleTask)
      (sampleInput 1 [some ⟨false, 0, 5⟩] [some ⟨false, 0, 3, 0⟩])).abort
      = some .undefinedBehaviour := by
  refine ⟨BinarySearch_range, ?_, by decide, by decide, by decide, by decide⟩
  intro sorted sortIdx key h
  have hb := BinarySearch_below sorted key h
  refine ⟨hb, ?_⟩
  unfold lookupV0
  simp only [hb]
  rfl

/-! ### The cocktail loop of the generator block (C22) -/

/-- C22. For an MC event with a primary vertex whose generator header is a
cocktail header with at least one sub-header, the generator block does not
complete: the loop over the sub-headers advances the list pointer instead of
its counter, and its next test reads through a pointer past the list. Its
body tests the top-level header again, never a sub-header, so by then bit
`gen` of `fGeneratorID` is set exactly when the top-level header is of kind
`gen`. On a cocktail header with one sub-header, `UserExec` in MC mode stops
there with `fGeneratorID = 3` (the kinds `AliGenEventHeader` and
`AliGenCocktailEventHeader` of the top-level header) and no row appended;
bit 10 (`AliGenPythiaEventHeader`) is not set whatever the sub-header is. -/
theorem cocktail_loop_leaves_the_list :
    (∀ (id : Nat) (ev : AliMCEvent), ev.hasPrimaryVertex = true →
      ev.genEventHeader.inheritsFrom.getD kAliGenCocktailEventHeader false = true →
      0 < ev.genEventHeader.cocktailEntries →
      (generatorBlock id ev).2 = some .undefinedBehaviour ∧
      ∀ gen, gen < kGenerators → (generatorBlock id ev).1.testBit gen
        = ev.genEventHeader.inheritsFrom.getD gen false) ∧
    (UserExec sampleMCBuild (UserCreateOutputObjects { sampleTask with fTaskMode := .kMC })
      sampleCocktailInput).abort = some .undefinedBehaviour ∧
    (UserExec sampleMCBuild (UserCreateOutputObjects { sampleTask with fTaskMode := .kMC })
      sampleCocktailInput).task.fGeneratorID = 3 ∧
    (UserExec sampleMCBuild (UserCreateOutputObjects { sampleTask with fTaskMode := .kMC })
      sampleCocktailInput).task.filled = [] ∧
    (3 : Nat).testBit 10 = false := by
  refine ⟨?_, by decide, by decide, by decide, by decide⟩
  intro id ev hv hc he
  unfold generatorBlock
  simp only [hv, hc, he, Bool.not_true, Bool.false_eq_true, if_false, if_true]
  refine ⟨trivial, ?_⟩
  intro gen hgen
  rw [testBit_foldl_set (fun gen => ev.genEventHeader.inheritsFrom.getD gen false),
    testBit_foldl_bits (fun gen => ev.genEventHeader.inheritsFrom.getD gen false)]
  simp [hgen]

/-! ### The trigger bits of a calorimeter-trigger row (C21) -/

/-- C21. The calorimeter-trigger row of a record carries the record's L1 time
sum in `fTriggerBits`, not its trigger bits: `GetL1TimeSum` is handed
`calotrigger.fTriggerBits`, the member `GetTriggerBits` has just written, and
`calotrigger.fL1TimeSum` is not assigned at all, so it keeps what it held. On
an event with one record of trigger bits `6` and L1 time sum `9`, the row has
`fTriggerBits = 9`. -/
theorem fTriggerBits_holds_L1_time_sum :
    (∀ eventID entries, caloTriggerRows eventID entries = entries.map (fun e =>
      Row.caloTrigger eventID e.fastorID e.nL0Times e.l1TimeSum 1)) ∧
    (∀ calotrigger e, (caloTriggerMembers calotrigger e).fTriggerBits = e.l1TimeSum ∧
      (caloTriggerMembers calotrigger e).fL1TimeSum = calotrigger.fL1TimeSum) ∧
    (UserExec sampleBuild (UserCreateOutputObjects sampleTask)
      { sampleInput 0 [] [] with
        InputEvent := some { sampleEvent 0 [] [] with
          caloTrigger := [⟨5, 6, 2, 9⟩] } }).task.fTree .kCaloTrigger
      = [Row.caloTrigger 1 5 2 9 1] :=
  ⟨fun _ _ => rfl, fun _ _ => ⟨rfl, rfl⟩, by decide⟩

end AO2D
